/-
Verification of the active fragment-detection / normalization pipeline in
`etl_parser.py` (Auraverse ETL Pipeline).  The definitions below are a
shallow embedding of the module's active code (lines 431-1104 of
`etl_parser.py`): the data classes, the span utilities, the ten detectors,
the resolver `_dedupe_prioritize`, the `Normalizer`, its helpers, and the
top-level `parse_file`.  Python standard-library calls (`re` patterns,
`json.loads`, `str` methods, `csv`, BeautifulSoup) are modelled by concrete
Lean functions whose doc comments state the library call they stand for and
the scope of the model.  Machine text is a Lean `String` (a list of
characters); offsets are `Nat`.  Confidence values are embedded in exact
hundredths (a `Nat`: `98` stands for the float `0.98`): every confidence
the source constructs is an integer multiple of 0.01 and all its float
arithmetic on them (`0.5 + min(0.4, k*0.03)`, `max(0.0, min(1.0, c))`) is
exact at that granularity; the one float division, YAML's
`colon_ratio > 0.5` test, is embedded as the equivalent exact integer
comparison `2 * colon_count > line_count` (for the int operands involved,
IEEE double rounding cannot move a quotient across 0.5).
-/
import Mathlib

/-! ## Python value model

A single type for the Python values the pipeline produces: `pNone` stands
both for Python `None` and for a parsed JSON `null` (in Python these are the
same object).  Non-integer JSON numbers are kept as their raw source text in
`pFloatLit`; no claim compares float values. -/

inductive PyVal where
  | pNone : PyVal
  | pBool : Bool → PyVal
  | pInt : Int → PyVal
  | pFloatLit : String → PyVal
  | pStr : String → PyVal
  | pList : List PyVal → PyVal
  | pDict : List (String × PyVal) → PyVal

open PyVal

/-- Python `dict` assignment `d[k] = v`: if the key is present its value is
replaced in place (insertion order kept), otherwise the pair is appended. -/
def pyDictInsert : List (String × PyVal) → String → PyVal → List (String × PyVal)
  | [], k, v => [(k, v)]
  | (k', v') :: rest, k, v =>
      if k' = k then (k', v) :: rest else (k', v') :: pyDictInsert rest k v

/-! ## Characters and character classes (ASCII scope) -/

/-- Left curly brace `{`. -/
def braceL : Char := Char.ofNat 123

/-- Right curly brace `}`. -/
def braceR : Char := Char.ofNat 125

/-- Double-quote character. -/
def quoteD : Char := Char.ofNat 34

/-- Single-quote character. -/
def quoteS : Char := Char.ofNat 39

/-- Backslash character. -/
def backslashC : Char := Char.ofNat 92

/-- Python `\s` / `str.strip` whitespace, ASCII scope. -/
def isPyWs (c : Char) : Bool :=
  c = ' ' || c = '\t' || c = '\n' || c = '\x0d' || c = '\x0b' || c = '\x0c'

/-- Python regex `\w` (ASCII scope): letters, digits, underscore. -/
def isWordChar (c : Char) : Bool :=
  c.isAlphanum || c = '_'

/-! ## Python string primitives -/

/-- Python slice `text[a:b]` on the character list (clamping semantics). -/
def listSlice (cs : List Char) (a b : Nat) : List Char :=
  (cs.drop a).take (b - a)

/-- Python slice `text[a:b]`. -/
def pySlice (s : String) (a b : Nat) : String :=
  String.mk (listSlice s.data a b)

/-- Character at index `i` (`text[i]`), `none` when out of range. -/
def nthChar (cs : List Char) (i : Nat) : Option Char :=
  cs.get? i

/-- Does `cs` contain `pat` starting exactly at index `i`? -/
def matchesAt (cs pat : List Char) (i : Nat) : Bool :=
  i + pat.length ≤ cs.length && listSlice cs i (i + pat.length) == pat

/-- Case-insensitive `matchesAt` (models a regex compiled with
`re.IGNORECASE`). -/
def matchesAtCI (cs pat : List Char) (i : Nat) : Bool :=
  i + pat.length ≤ cs.length &&
    (listSlice cs i (i + pat.length)).map Char.toLower == pat.map Char.toLower

/-- First index `j ≥ i` at which `pat` occurs in `cs` (fuel-driven scan). -/
def findSubstrAux (cs pat : List Char) : Nat → Nat → Option Nat
  | _, 0 => none
  | j, fuel + 1 =>
      if j + pat.length ≤ cs.length then
        if matchesAt cs pat j then some j
        else findSubstrAux cs pat (j + 1) fuel
      else none

/-- First occurrence of `pat` in `cs` at or after `i`
(models `re.search` of a literal pattern / `str.find` from `i`). -/
def findSubstrFrom (cs pat : List Char) (i : Nat) : Option Nat :=
  findSubstrAux cs pat i (cs.length + 1)

/-- Case-insensitive variant of `findSubstrAux`. -/
def findSubstrCIAux (cs pat : List Char) : Nat → Nat → Option Nat
  | _, 0 => none
  | j, fuel + 1 =>
      if j + pat.length ≤ cs.length then
        if matchesAtCI cs pat j then some j
        else findSubstrCIAux cs pat (j + 1) fuel
      else none

/-- Case-insensitive first occurrence of `pat` at or after `i`. -/
def findSubstrCIFrom (cs pat : List Char) (i : Nat) : Option Nat :=
  findSubstrCIAux cs pat i (cs.length + 1)

/-- `sub in s` for strings. -/
def hasSubstr (s pat : String) : Bool :=
  (findSubstrFrom s.data pat.data 0).isSome

/-- Python `str.find(sub, start, stop)`: first `j ≥ start` with the whole
occurrence inside `[start, stop)`; `none` models the `-1` result. -/
def pyFindAux (cs pat : List Char) (stop : Nat) : Nat → Nat → Option Nat
  | _, 0 => none
  | j, fuel + 1 =>
      if j + pat.length ≤ min stop cs.length then
        if matchesAt cs pat j then some j
        else pyFindAux cs pat stop (j + 1) fuel
      else none

/-- Python `str.find(sub, start, stop)`. -/
def pyFind (cs pat : List Char) (start stop : Nat) : Option Nat :=
  pyFindAux cs pat stop start (cs.length + 1)

/-- Python `str.strip()` on a character list. -/
def pyStripList (cs : List Char) : List Char :=
  ((cs.dropWhile isPyWs).reverse.dropWhile isPyWs).reverse

/-- Python `str.strip()`. -/
def pyStrip (s : String) : String :=
  String.mk (pyStripList s.data)

/-- Python `str.strip(chars)`: remove leading/trailing characters that are
members of `chars`. -/
def pyStripChars (s : String) (chars : List Char) : String :=
  String.mk (((s.data.dropWhile (chars.contains ·)).reverse.dropWhile
    (chars.contains ·)).reverse)

/-- Python `str.upper()`, ASCII scope. -/
def pyUpper (s : String) : String :=
  String.mk (s.data.map Char.toUpper)

/-- End of the maximal run of characters satisfying `p` starting at `j`:
the first index `≥ j` whose character fails `p` (or the length). -/
def runEnd (cs : List Char) (p : Char → Bool) (j : Nat) : Nat :=
  j + ((cs.drop j).takeWhile p).length

/-- Largest index `k` with `a ≤ k < b` and `cs[k] = c`, scanning a bounded
range (used to model greedy `\s*` backtracking before a literal). -/
def lastCharIn (cs : List Char) (c : Char) (a b : Nat) : Option Nat :=
  (List.range (b - a)).foldl
    (fun acc d => if nthChar cs (a + d) = some c then some (a + d) else acc) none

/-! ### Python `str.splitlines`

`splitlinesGo` returns each line together with its true start offset in the
original text.  Recognized terminators: `\n`, `\r`, `\r\n`, `\v`, `\f`,
`\x1c`, `\x1d`, `\x1e`, `\x85`, U+2028, U+2029 (the full CPython set). -/

/-- Single-character line terminators of Python `str.splitlines`. -/
def isLineBreak (c : Char) : Bool :=
  c = '\n' || c = '\x0d' || c = '\x0b' || c = '\x0c' || c = '\x1c' ||
  c = '\x1d' || c = '\x1e' || c = '\x85' || c = Char.ofNat 8232 || c = Char.ofNat 8233

/-- Worker for `splitlinesWithPos`: `pos` is the offset of the next
unread character, `acc` the current line (reversed), `accStart` its
offset.  (Fuel-driven so the kernel can evaluate it; the position advances
every step, so fuel `len + 1` at the call site is sufficient.) -/
def splitlinesGo (cs : List Char) : Nat → Nat → List Char → Nat → List (String × Nat)
  | 0, _, acc, accStart =>
      if acc.isEmpty then [] else [(String.mk acc.reverse, accStart)]
  | fuel + 1, pos, acc, accStart =>
      match nthChar cs pos with
      | none => if acc.isEmpty then [] else [(String.mk acc.reverse, accStart)]
      | some c =>
          if c = '\x0d' && nthChar cs (pos + 1) = some '\n' then
            (String.mk acc.reverse, accStart) ::
              splitlinesGo cs fuel (pos + 2) [] (pos + 2)
          else if isLineBreak c then
            (String.mk acc.reverse, accStart) ::
              splitlinesGo cs fuel (pos + 1) [] (pos + 1)
          else
            splitlinesGo cs fuel (pos + 1) (c :: acc) accStart

/-- Python `str.splitlines()` paired with each line's true start offset. -/
def splitlinesWithPos (s : String) : List (String × Nat) :=
  splitlinesGo s.data (s.data.length + 1) 0 [] 0

/-- Python `str.splitlines()`. -/
def pySplitlines (s : String) : List String :=
  (splitlinesWithPos s).map Prod.fst

/-- The true absolute start offset of each line of `s` (the specification's
"absolute character offset at which line i starts"). -/
def lineStartsOf (s : String) : List Nat :=
  (splitlinesWithPos s).map Prod.snd

/-- The prefix-sum table `char_pos` built by `detect_csv_blocks` and
`detect_key_values`: `[0]`, then cumulatively `+ len(line) + 1` per line. -/
def charPosList : List String → Nat → List Nat
  | [], acc => [acc]
  | l :: ls, acc => acc :: charPosList ls (acc + l.length + 1)

/-! ## `json.loads` model

A strict recursive-descent JSON reader modelling CPython `json.loads`:
surrounding whitespace allowed (space, tab, newline, carriage return),
`NaN`/`Infinity` extensions accepted as float literals, duplicate object
keys resolved by in-place overwrite, raw control characters rejected inside
strings.  Lone `\uXXXX` escapes are mapped through `Char.ofNat` (surrogate
pairs are outside the model's scope; no input in this development uses
them).  A parsed JSON `null` is `pNone`, like Python's `None`. -/

/-- JSON inter-token whitespace (space, tab, `\n`, `\r`). -/
def isJsonWs (c : Char) : Bool :=
  c = ' ' || c = '\t' || c = '\n' || c = '\x0d'

/-- Index of the first non-JSON-whitespace character at or after `i`. -/
def skipJsonWs (cs : List Char) (i : Nat) : Nat :=
  runEnd cs isJsonWs i

/-- Numeric value of a list of decimal digit characters. -/
def digitsVal (ds : List Char) : Nat :=
  ds.foldl (fun a c => a * 10 + (c.toNat - 48)) 0

/-- Value of a hex digit character. -/
def hexVal? (c : Char) : Option Nat :=
  if c.isDigit then some (c.toNat - 48)
  else if 'a' ≤ c && c ≤ 'f' then some (c.toNat - 87)
  else if 'A' ≤ c && c ≤ 'F' then some (c.toNat - 55)
  else none

/-- Strict JSON number at index `i` (grammar
`-?(0|[1-9][0-9]*)(.[0-9]+)?([eE][+-]?[0-9]+)?`); integers become `pInt`,
anything with a fraction or exponent keeps its source text as `pFloatLit`. -/
def jsonParseNumber (cs : List Char) (i : Nat) : Option (PyVal × Nat) :=
  let neg := nthChar cs i = some '-'
  let j := if neg then i + 1 else i
  let dEnd := runEnd cs Char.isDigit j
  if dEnd ≤ j then none
  else
    let intEnd := if nthChar cs j = some '0' then j + 1 else dEnd
    let fracEnd :=
      if nthChar cs intEnd = some '.' then
        let fe := runEnd cs Char.isDigit (intEnd + 1)
        if fe ≤ intEnd + 1 then intEnd else fe
      else intEnd
    let expEnd :=
      if nthChar cs fracEnd = some 'e' || nthChar cs fracEnd = some 'E' then
        let sgn :=
          if nthChar cs (fracEnd + 1) = some '+' ||
             nthChar cs (fracEnd + 1) = some '-' then fracEnd + 2
          else fracEnd + 1
        let ee := runEnd cs Char.isDigit sgn
        if ee ≤ sgn then fracEnd else ee
      else fracEnd
    if fracEnd = intEnd && expEnd = fracEnd then
      let v : Int := Int.ofNat (digitsVal (listSlice cs j intEnd))
      some (PyVal.pInt (if neg then -v else v), intEnd)
    else
      some (PyVal.pFloatLit (String.mk (listSlice cs i expEnd)), expEnd)

/-- JSON string body starting after the opening quote at `j - 1`; returns
the decoded string and the index after the closing quote. -/
def jsonParseStringAux (cs : List Char) : Nat → List Char → Nat → Option (String × Nat)
  | _, _, 0 => none
  | j, acc, fuel + 1 =>
      match nthChar cs j with
      | none => none
      | some c =>
          if c = quoteD then some (String.mk acc.reverse, j + 1)
          else if c = backslashC then
            match nthChar cs (j + 1) with
            | none => none
            | some e =>
                if e = quoteD then jsonParseStringAux cs (j + 2) (quoteD :: acc) fuel
                else if e = backslashC then jsonParseStringAux cs (j + 2) (backslashC :: acc) fuel
                else if e = '/' then jsonParseStringAux cs (j + 2) ('/' :: acc) fuel
                else if e = 'b' then jsonParseStringAux cs (j + 2) ('\x08' :: acc) fuel
                else if e = 'f' then jsonParseStringAux cs (j + 2) ('\x0c' :: acc) fuel
                else if e = 'n' then jsonParseStringAux cs (j + 2) ('\n' :: acc) fuel
                else if e = 'r' then jsonParseStringAux cs (j + 2) ('\x0d' :: acc) fuel
                else if e = 't' then jsonParseStringAux cs (j + 2) ('\t' :: acc) fuel
                else if e = 'u' then
                  match nthChar cs (j + 2), nthChar cs (j + 3),
                        nthChar cs (j + 4), nthChar cs (j + 5) with
                  | some h1, some h2, some h3, some h4 =>
                      match hexVal? h1, hexVal? h2, hexVal? h3, hexVal? h4 with
                      | some a, some b, some c1, some d =>
                          jsonParseStringAux cs (j + 6)
                            (Char.ofNat (((a * 16 + b) * 16 + c1) * 16 + d) :: acc) fuel
                      | _, _, _, _ => none
                  | _, _, _, _ => none
                else none
          else if c.toNat < 32 then none
          else jsonParseStringAux cs (j + 1) (c :: acc) fuel

mutual

/-- One JSON value at index `i` (whitespace already skipped). -/
def jsonParseVal : Nat → List Char → Nat → Option (PyVal × Nat)
  | 0, _, _ => none
  | fuel + 1, cs, i =>
      match nthChar cs i with
      | none => none
      | some c =>
          if c = braceL then
            let j := skipJsonWs cs (i + 1)
            if nthChar cs j = some braceR then some (PyVal.pDict [], j + 1)
            else jsonParseMembers fuel cs j []
          else if c = '[' then
            let j := skipJsonWs cs (i + 1)
            if nthChar cs j = some ']' then some (PyVal.pList [], j + 1)
            else jsonParseElems fuel cs j []
          else if c = quoteD then
            match jsonParseStringAux cs (i + 1) [] (cs.length + 1) with
            | some (s, j) => some (PyVal.pStr s, j)
            | none => none
          else if matchesAt cs "true".data i then some (PyVal.pBool true, i + 4)
          else if matchesAt cs "false".data i then some (PyVal.pBool false, i + 5)
          else if matchesAt cs "null".data i then some (PyVal.pNone, i + 4)
          else if matchesAt cs "NaN".data i then some (PyVal.pFloatLit "NaN", i + 3)
          else if matchesAt cs "Infinity".data i then some (PyVal.pFloatLit "Infinity", i + 8)
          else if matchesAt cs "-Infinity".data i then some (PyVal.pFloatLit "-Infinity", i + 9)
          else jsonParseNumber cs i

/-- Object members from the first key at `i` (whitespace skipped). -/
def jsonParseMembers : Nat → List Char → Nat → List (String × PyVal) → Option (PyVal × Nat)
  | 0, _, _, _ => none
  | fuel + 1, cs, i, acc =>
      if nthChar cs i = some quoteD then
        match jsonParseStringAux cs (i + 1) [] (cs.length + 1) with
        | none => none
        | some (k, j1) =>
            let j2 := skipJsonWs cs j1
            if nthChar cs j2 = some ':' then
              match jsonParseVal fuel cs (skipJsonWs cs (j2 + 1)) with
              | none => none
              | some (v, j4) =>
                  let acc' := pyDictInsert acc k v
                  let j5 := skipJsonWs cs j4
                  if nthChar cs j5 = some ',' then
                    jsonParseMembers fuel cs (skipJsonWs cs (j5 + 1)) acc'
                  else if nthChar cs j5 = some braceR then some (PyVal.pDict acc', j5 + 1)
                  else none
            else none
      else none

/-- Array elements from the first element at `i` (whitespace skipped). -/
def jsonParseElems : Nat → List Char → Nat → List PyVal → Option (PyVal × Nat)
  | 0, _, _, _ => none
  | fuel + 1, cs, i, acc =>
      match jsonParseVal fuel cs (skipJsonWs cs i) with
      | none => none
      | some (v, j) =>
          let j2 := skipJsonWs cs j
          if nthChar cs j2 = some ',' then
            jsonParseElems fuel cs (j2 + 1) (acc ++ [v])
          else if nthChar cs j2 = some ']' then some (PyVal.pList (acc ++ [v]), j2 + 1)
          else none

end

/-- `json.loads(s)`: parse one JSON document with surrounding whitespace;
`none` models a raised `JSONDecodeError`. -/
def json_loads (s : String) : Option PyVal :=
  let cs := s.data
  match jsonParseVal (2 * cs.length + 2) cs (skipJsonWs cs 0) with
  | some (v, j) => if skipJsonWs cs j = cs.length then some v else none
  | none => none

/-! ## Data classes, priority table, detector state

`DetectedBlock` embeds the active dataclass of `etl_parser.py` (field order
`format_type, start_index, end_index, confidence, text`).  The `meta`
field — a free-form, detector-specific debug mapping — is not modelled: no
claim refers to it and nothing else in the pipeline reads it. -/

structure DetectedBlock where
  format_type : String
  start_index : Nat
  end_index : Nat
  confidence : Nat
  text : String
deriving DecidableEq, Repr

/-- `FORMAT_PRIORITY` (lower index = higher priority). -/
def FORMAT_PRIORITY : List String :=
  ["JSON_LD", "JSON", "MALFORMED_JSON", "HTML_TABLE", "HTML",
   "YAML_FRONTMATTER", "CSV", "CSV_NO_HEADER", "KEY_VALUE", "JS_OBJECT",
   "SQL", "RAW_TEXT"]

/-- `FORMAT_PRIORITY.index(ft)` with the `except ValueError` fallback to
`len(FORMAT_PRIORITY)` used in `_dedupe_prioritize` (this is exactly
`List.indexOf`). -/
def prioIdx (ft : String) : Nat :=
  FORMAT_PRIORITY.indexOf ft

/-- `clamp_conf`: clamp to `[0.0, 1.0]`, i.e. `[0, 100]` hundredths. -/
def clamp_conf (c : Nat) : Nat :=
  max 0 (min 100 c)

/-- The mutable state of `ETLFragmentDetector`: the accumulated block list
and the reserved `occupied` interval list. -/
structure DetState where
  blocks : List DetectedBlock
  occupied : List (Nat × Nat)
deriving DecidableEq, Repr

/-- Fresh detector state. -/
def initState : DetState := ⟨[], []⟩

/-- `mark_occupied`. -/
def mark_occupied (st : DetState) (s e : Nat) : DetState :=
  { st with occupied := st.occupied ++ [(s, e)] }

/-- `is_occupied`: does `[s, e)` overlap any reserved interval? -/
def is_occupied (st : DetState) (s e : Nat) : Bool :=
  st.occupied.any (fun p => !(e ≤ p.1 || s ≥ p.2))

/-- The format types whose blocks reserve their span in `add_block`. -/
def highPriorityTypes : List String :=
  ["JSON_LD", "JSON", "MALFORMED_JSON", "HTML_TABLE", "HTML", "YAML_FRONTMATTER"]

/-- `add_block`: append the block; reserve its span for high-priority types. -/
def add_block (st : DetState) (b : DetectedBlock) : DetState :=
  let st' := { st with blocks := st.blocks ++ [b] }
  if highPriorityTypes.contains b.format_type then
    mark_occupied st' b.start_index b.end_index
  else st'

/-! ## `find_json_span` -/

/-- The brace-depth scanning loop of `find_json_span`, carrying
`(j, depth, in_string, escape, string_char)` exactly as the source does. -/
def findJsonSpanGo (cs : List Char) (strt limit : Nat) :
    Nat → Int → Bool → Bool → Char → Nat → Option (Nat × Nat)
  | _, _, _, _, _, 0 => none
  | j, depth, inString, escape, stringChar, fuel + 1 =>
      if j < limit then
        match nthChar cs j with
        | none => none
        | some ch =>
            if inString then
              if escape then
                findJsonSpanGo cs strt limit (j + 1) depth true false stringChar fuel
              else if ch = backslashC then
                findJsonSpanGo cs strt limit (j + 1) depth true true stringChar fuel
              else if ch = stringChar then
                findJsonSpanGo cs strt limit (j + 1) depth false false stringChar fuel
              else
                findJsonSpanGo cs strt limit (j + 1) depth true false stringChar fuel
            else
              if ch = quoteD || ch = quoteS then
                findJsonSpanGo cs strt limit (j + 1) depth true false ch fuel
              else if ch = braceL then
                findJsonSpanGo cs strt limit (j + 1) (depth + 1) false false stringChar fuel
              else if ch = braceR then
                if depth - 1 = 0 then some (strt, j + 1)
                else findJsonSpanGo cs strt limit (j + 1) (depth - 1) false false stringChar fuel
              else
                findJsonSpanGo cs strt limit (j + 1) depth false false stringChar fuel
      else none

/-- `find_json_span(text, start_pos, max_len)`: advance to the first `{` at
or after `start_pos`, then run the string-aware depth scan within the
bounded window; `none` models the `None` result.  (The source's
`string_char = ''` initial value is irrelevant — it is only read while
`in_string` holds — and is passed here as a dummy quote.) -/
def find_json_span (text : String) (startPos maxLen : Nat) : Option (Nat × Nat) :=
  let cs := text.data
  let n := cs.length
  match findSubstrFrom cs [braceL] startPos with
  | none => none
  | some s =>
      let limit := min n (s + maxLen)
      findJsonSpanGo cs s limit s 0 false false quoteD (limit + 1 - s)

/-! ## Regex helpers for `detect_jsons_global` -/

/-- Count of `re.findall(r'"\w+"\s*:', s)` matches (non-overlapping;
the greedy `\w+` is deterministic because the closing quote is not a word
character). -/
def countQuotedKvAux (cs : List Char) : Nat → Nat → Nat → Nat
  | _, acc, 0 => acc
  | i, acc, fuel + 1 =>
      if i < cs.length then
        if nthChar cs i = some quoteD then
          let r := runEnd cs isWordChar (i + 1)
          if i + 1 < r && nthChar cs r = some quoteD then
            let w := runEnd cs isPyWs (r + 1)
            if nthChar cs w = some ':' then countQuotedKvAux cs (w + 1) (acc + 1) fuel
            else countQuotedKvAux cs (i + 1) acc fuel
          else countQuotedKvAux cs (i + 1) acc fuel
        else countQuotedKvAux cs (i + 1) acc fuel
      else acc

/-- Count of `re.findall(r'"\w+"\s*:', s)`. -/
def countQuotedKv (cs : List Char) : Nat :=
  countQuotedKvAux cs 0 0 (cs.length + 1)

/-- Count of `re.findall(r'\w+\s*:', s)` matches: one per maximal word run
followed by optional whitespace and a colon (no match can start inside a
word run whose head fails, so the scan skips failed runs whole). -/
def countWordKvAux (cs : List Char) : Nat → Nat → Nat → Nat
  | _, acc, 0 => acc
  | i, acc, fuel + 1 =>
      if i < cs.length then
        match nthChar cs i with
        | none => acc
        | some c =>
            if isWordChar c then
              let r := runEnd cs isWordChar i
              let w := runEnd cs isPyWs r
              if nthChar cs w = some ':' then countWordKvAux cs (w + 1) (acc + 1) fuel
              else countWordKvAux cs r acc fuel
            else countWordKvAux cs (i + 1) acc fuel
      else acc

/-- Count of `re.findall(r'\w+\s*:', s)`. -/
def countWordKv (cs : List Char) : Nat :=
  countWordKvAux cs 0 0 (cs.length + 1)

/-- `re.search(r'["\']\w+["\']\s*:', s)` as a boolean (the two quote
classes are independent, as in the pattern). -/
def searchQuotedKeyColonAux (cs : List Char) : Nat → Nat → Bool
  | _, 0 => false
  | i, fuel + 1 =>
      if i < cs.length then
        let quoteHere := nthChar cs i = some quoteD || nthChar cs i = some quoteS
        if quoteHere then
          let r := runEnd cs isWordChar (i + 1)
          if i + 1 < r && (nthChar cs r = some quoteD || nthChar cs r = some quoteS) then
            let w := runEnd cs isPyWs (r + 1)
            if nthChar cs w = some ':' then true
            else searchQuotedKeyColonAux cs (i + 1) fuel
          else searchQuotedKeyColonAux cs (i + 1) fuel
        else searchQuotedKeyColonAux cs (i + 1) fuel
      else false

/-- `re.search(r'["\']\w+["\']\s*:', s)` as a boolean. -/
def searchQuotedKeyColon (cs : List Char) : Bool :=
  searchQuotedKeyColonAux cs 0 (cs.length + 1)

/-- `re.search(r'\w+\s*:\s*', s)` as a boolean (the trailing `\s*` always
matches, so this is existence of a word run, optional whitespace, colon). -/
def searchWordColonAux (cs : List Char) : Nat → Nat → Bool
  | _, 0 => false
  | i, fuel + 1 =>
      if i < cs.length then
        match nthChar cs i with
        | none => false
        | some c =>
            if isWordChar c then
              let r := runEnd cs isWordChar i
              let w := runEnd cs isPyWs r
              if nthChar cs w = some ':' then true
              else searchWordColonAux cs r fuel
            else searchWordColonAux cs (i + 1) fuel
      else false

/-- `re.search(r'\w+\s*:\s*', s)` as a boolean. -/
def searchWordColon (cs : List Char) : Bool :=
  searchWordColonAux cs 0 (cs.length + 1)

/-- `re.search(r'\n\s*\n', cs[i:])` (match start and end, absolute): at the
first `\n` whose following whitespace run contains another `\n`, the greedy
`\s*` backtracks to the last such `\n`. -/
def findBlankMatchAux (cs : List Char) : Nat → Nat → Option (Nat × Nat)
  | _, 0 => none
  | i, fuel + 1 =>
      if i < cs.length then
        if nthChar cs i = some '\n' then
          let r := runEnd cs isPyWs (i + 1)
          match lastCharIn cs '\n' (i + 1) r with
          | some k => some (i, k + 1)
          | none => findBlankMatchAux cs (i + 1) fuel
        else findBlankMatchAux cs (i + 1) fuel
      else none

/-- `re.search(r'\n\s*\n', cs[i:])`, absolute indices. -/
def findBlankMatch (cs : List Char) (i : Nat) : Option (Nat × Nat) :=
  findBlankMatchAux cs i (cs.length + 1)

/-! ## Detector 4: `detect_jsons_global` -/

/-- The `while True` scan of `detect_jsons_global`; the scan index strictly
increases every iteration and the loop breaks once no `{` remains, so fuel
`len(text) + 2` at the call site is sufficient. -/
def detect_jsons_global_loop (text : String) : Nat → Nat → DetState → DetState
  | 0, _, st => st
  | fuel + 1, i, st =>
      let cs := text.data
      let n := cs.length
      match findSubstrFrom cs [braceL] i with
      | none => st
      | some pos =>
          if is_occupied st pos (pos + 1) then
            detect_jsons_global_loop text fuel (pos + 1) st
          else
            match find_json_span text pos 200000 with
            | some (s, e) =>
                if is_occupied st s e then
                  detect_jsons_global_loop text fuel e st
                else
                  let snippet := pySlice text s e
                  match json_loads snippet with
                  | some _ =>
                      detect_jsons_global_loop text fuel e
                        (add_block st ⟨"JSON", s, e, 98, snippet⟩)
                  | none =>
                      let kvLike := countQuotedKv snippet.data + countWordKv snippet.data
                      let conf := if 2 ≤ kvLike then 50 else 25
                      detect_jsons_global_loop text fuel e
                        (add_block st ⟨"MALFORMED_JSON", s, e, clamp_conf conf, snippet⟩)
            | none =>
                let tailEnd := min n (pos + 2000)
                let remainder := listSlice cs pos tailEnd
                let endPos :=
                  match findBlankMatch remainder 0 with
                  | some (ms, _) => pos + ms
                  | none => tailEnd
                let st' :=
                  if !is_occupied st pos endPos then
                    let snippet := listSlice cs pos endPos
                    if searchQuotedKeyColon snippet || searchWordColon snippet then
                      add_block st ⟨"MALFORMED_JSON", pos, endPos, 35, String.mk snippet⟩
                    else st
                  else st
                detect_jsons_global_loop text fuel endPos st'

/-- `detect_jsons_global`. -/
def detect_jsons_global (text : String) (st : DetState) : DetState :=
  detect_jsons_global_loop text (text.length + 2) 0 st

/-! ## Detector 1: `detect_json_ld`

Models `re.finditer` of
`<script\b[^>]*type=["\']application/ld\+json["\'][^>]*>([\s\S]*?)</script>`
(IGNORECASE).  Because `[^>]*` cannot cross `>`, a match at `j` requires a
`type=` JSON-LD attribute inside the maximal `>`-free run after `<script`,
and the tag's content starts after the `>` closing that run; the lazy group
ends at the first following `</script>`. -/

/-- Is one of `type='application/ld+json'` / `type="application/ld+json"`
(case-insensitively, quotes independent) present with its closing quote
inside `[a, b)`? -/
def existsLdTypeAttrAux (cs : List Char) (b : Nat) : Nat → Nat → Bool
  | _, 0 => false
  | k, fuel + 1 =>
      if k < b then
        let isQ := fun (o : Option Char) => o = some quoteD || o = some quoteS
        if matchesAtCI cs "type=".data k && isQ (nthChar cs (k + 5)) &&
           matchesAtCI cs "application/ld+json".data (k + 6) &&
           isQ (nthChar cs (k + 25)) && k + 26 ≤ b then true
        else existsLdTypeAttrAux cs b (k + 1) fuel
      else false

/-- Attribute search inside `[a, b)`. -/
def existsLdTypeAttr (cs : List Char) (a b : Nat) : Bool :=
  existsLdTypeAttrAux cs b a (b + 1 - a)

/-- Try the JSON-LD `<script ...>` opening at `j`; returns the content
start (index after the closing `>` of the tag). -/
def matchScriptOpen (cs : List Char) (j : Nat) : Option Nat :=
  if matchesAtCI cs "<script".data j then
    let after := j + 7
    let boundary :=
      match nthChar cs after with
      | some c => !isWordChar c
      | none => true
    if boundary then
      let gtPos := runEnd cs (fun c => c ≠ '>') after
      if gtPos < cs.length && existsLdTypeAttr cs after gtPos then some (gtPos + 1)
      else none
    else none
  else none

/-- All group-1 spans `(content_start, content_end)` of the JSON-LD
pattern, in `finditer` order. -/
def jsonLdMatchesAux (cs : List Char) : Nat → Nat → List (Nat × Nat)
  | _, 0 => []
  | j, fuel + 1 =>
      if j < cs.length then
        match matchScriptOpen cs j with
        | some cstart =>
            match findSubstrCIFrom cs "</script>".data cstart with
            | some k => (cstart, k) :: jsonLdMatchesAux cs (k + 9) fuel
            | none => jsonLdMatchesAux cs (j + 1) fuel
        | none => jsonLdMatchesAux cs (j + 1) fuel
      else []

/-- All JSON-LD content spans. -/
def jsonLdMatches (cs : List Char) : List (Nat × Nat) :=
  jsonLdMatchesAux cs 0 (cs.length + 1)

/-- `detect_json_ld` (no occupancy check; runs first). -/
def detect_json_ld (text : String) (st : DetState) : DetState :=
  (jsonLdMatches text.data).foldl
    (fun st' se =>
      let snippet := pyStrip (pySlice text se.1 se.2)
      let conf := if (json_loads snippet).isSome then 99 else 60
      add_block st' ⟨"JSON_LD", se.1, se.2, clamp_conf conf, pySlice text se.1 se.2⟩)
    st

/-! ## Detector 2: `detect_yaml_frontmatter`

Models `re.finditer(r'(^|\n)---\s*\n([\s\S]{0,2000}?)\n---', text)`:
a `---` at the text start or after a newline, whitespace, a newline (the
greedy `\s*` backtracks to the last newline of the whitespace run), then
the lazy body up to the first following `\n---` within 2000 characters. -/

/-- Group-2 spans `(body_start, body_end)` and the match ends of the YAML
frontmatter pattern. -/
def yamlMatchesAux (cs : List Char) : Nat → Nat → List (Nat × Nat)
  | _, 0 => []
  | t, fuel + 1 =>
      if t < cs.length then
        if (t = 0 || nthChar cs (t - 1) = some '\n') && matchesAt cs "---".data t then
          let r := runEnd cs isPyWs (t + 3)
          match lastCharIn cs '\n' (t + 3) r with
          | some w =>
              match findSubstrFrom cs "\n---".data (w + 1) with
              | some q =>
                  if q - (w + 1) ≤ 2000 then
                    (w + 1, q) :: yamlMatchesAux cs (q + 4) fuel
                  else yamlMatchesAux cs (t + 1) fuel
              | none => yamlMatchesAux cs (t + 1) fuel
          | none => yamlMatchesAux cs (t + 1) fuel
        else yamlMatchesAux cs (t + 1) fuel
      else []

/-- All YAML frontmatter body spans. -/
def yamlMatches (cs : List Char) : List (Nat × Nat) :=
  yamlMatchesAux cs 0 (cs.length + 1)

/-- `detect_yaml_frontmatter`. -/
def detect_yaml_frontmatter (text : String) (st : DetState) : DetState :=
  (yamlMatches text.data).foldl
    (fun st' se =>
      let snippet := pySlice text se.1 se.2
      let lns := (pySplitlines snippet).filter (fun ln => !(pyStripList ln.data).isEmpty)
      let colonCount := (lns.filter (fun ln => ln.data.contains ':')).length
      let conf := if max 1 lns.length < 2 * colonCount then 95 else 60
      if !is_occupied st' se.1 se.2 then
        add_block st' ⟨"YAML_FRONTMATTER", se.1, se.2, clamp_conf conf, snippet⟩
      else st')
    st

/-! ## Detector 3: `detect_sectioned_jsons`

Models `re.finditer(r'(^|\n)---\s*([A-Z0-9 _\-()]+)\s*\n', text, re.I)` for
the section headers (greedy `\s*`, then the maximal header-class run, then
whitespace backtracking to the last newline; headers that would need
deeper backtracking — e.g. all-whitespace headers, which never satisfy the
caller's `"JSON" in header` test — are out of the model's scope), and
`re.search(r'\n---\s*[\w \-()/:]*\n', ...)` for the next divider. -/

/-- The section-header character class (`[A-Z0-9 _\-()]` + IGNORECASE). -/
def isHeaderChar (c : Char) : Bool :=
  c.isAlpha || c.isDigit || c = ' ' || c = '_' || c = '-' || c = '(' || c = ')'

/-- The divider-tail character class `[\w \-()/:]`. -/
def isDividerChar (c : Char) : Bool :=
  isWordChar c || c = ' ' || c = '-' || c = '(' || c = ')' || c = '/' || c = ':'

/-- Can `[a, b)` be split into a whitespace run followed by a
divider-class run? -/
def wsThenDividerRun (cs : List Char) (a b : Nat) : Bool :=
  (List.range (b + 1 - a)).any (fun d =>
    (listSlice cs a (a + d)).all isPyWs &&
      (listSlice cs (a + d) b).all isDividerChar)

/-- First match start of `\n---\s*[\w \-()/:]*\n` at or after `u0`. -/
def nextDividerFindAux (cs : List Char) : Nat → Nat → Option Nat
  | _, 0 => none
  | u, fuel + 1 =>
      if u < cs.length then
        if nthChar cs u = some '\n' && matchesAt cs "---".data (u + 1) then
          let ok := (List.range (cs.length - (u + 4) + 1)).any (fun d =>
            nthChar cs (u + 4 + d) = some '\n' && wsThenDividerRun cs (u + 4) (u + 4 + d))
          if ok then some u else nextDividerFindAux cs (u + 1) fuel
        else nextDividerFindAux cs (u + 1) fuel
      else none

/-- `re.search(r'\n---\s*[\w \-()/:]*\n', text[u0:])`, absolute index. -/
def nextDividerFind (cs : List Char) (u0 : Nat) : Option Nat :=
  nextDividerFindAux cs u0 (cs.length + 1)

/-- Section-header matches as `(header_start, header_end, match_end)`. -/
def sectionMatchesAux (cs : List Char) : Nat → Nat → List (Nat × Nat × Nat)
  | _, 0 => []
  | t, fuel + 1 =>
      if t < cs.length then
        if (t = 0 || nthChar cs (t - 1) = some '\n') && matchesAt cs "---".data t then
          let a := runEnd cs isPyWs (t + 3)
          let b := runEnd cs isHeaderChar a
          if a < b then
            match lastCharIn cs '\n' b (runEnd cs isPyWs b) with
            | some w => (a, b, w + 1) :: sectionMatchesAux cs (w + 1) fuel
            | none => sectionMatchesAux cs (t + 1) fuel
          else sectionMatchesAux cs (t + 1) fuel
        else sectionMatchesAux cs (t + 1) fuel
      else []

/-- All section-header matches. -/
def sectionMatches (cs : List Char) : List (Nat × Nat × Nat) :=
  sectionMatchesAux cs 0 (cs.length + 1)

/-- `detect_sectioned_jsons`. -/
def detect_sectioned_jsons (text : String) (st : DetState) : DetState :=
  let cs := text.data
  let n := cs.length
  (sectionMatches cs).foldl
    (fun st' m =>
      let header := pyUpper (pyStrip (pySlice text m.1 m.2.1))
      let bodyStart := m.2.2
      let bodyEnd :=
        match nextDividerFind cs bodyStart with
        | some u => u
        | none => n
      let body := pyStrip (pySlice text bodyStart bodyEnd)
      if body = "" then st'
      else if hasSubstr header "JSON" && !is_occupied st' bodyStart bodyEnd then
        match find_json_span text bodyStart 200000 with
        | some (s, e) =>
            let snippet := pySlice text s e
            match json_loads snippet with
            | some _ => add_block st' ⟨"JSON", s, e, clamp_conf 99, snippet⟩
            | none => add_block st' ⟨"MALFORMED_JSON", s, e, clamp_conf 45, snippet⟩
        | none =>
            if !is_occupied st' bodyStart bodyEnd then
              add_block st' ⟨"MALFORMED_JSON", bodyStart, bodyEnd, 40,
                pySlice text bodyStart bodyEnd⟩
            else st'
      else st')
    st

/-! ## BeautifulSoup model (well-formed markup scope)

A minimal element scanner standing in for the `html.parser`-backed
BeautifulSoup calls (`find`, `find_all`, `get_text(strip=True)`).  Scope:
well-formed markup in which elements of the searched tag are explicitly
closed and do not nest within themselves (true of every input used in this
development); tag names are matched case-insensitively. -/

/-- Does an opening tag of `tag` start at `j` (`<tag` followed by a
non-name character)? -/
def tagOpensAt (cs tag : List Char) (j : Nat) : Bool :=
  nthChar cs j = some '<' && matchesAtCI cs tag (j + 1) &&
    (match nthChar cs (j + 1 + tag.length) with
     | some c => !c.isAlphanum
     | none => false)

/-- Content span of the element opening at `j`: from after the `>` of the
opening tag to the first matching `</tag`; if the close is missing the
content runs to the end (html.parser closes dangling elements at EOF). -/
def elementContentAt (cs tag : List Char) (j : Nat) : Nat × Nat :=
  let contentStart := runEnd cs (fun c => c ≠ '>') j + 1
  match findSubstrCIFrom cs (('<' :: '/' :: tag)) contentStart with
  | some k => (contentStart, k)
  | none => (contentStart, cs.length)

/-- End position to resume scanning after the element opening at `j`
(after the close tag's `>`, or the end of text). -/
def elementScanEnd (cs tag : List Char) (j : Nat) : Nat :=
  let content := elementContentAt cs tag j
  if content.2 = cs.length then cs.length
  else runEnd cs (fun c => c ≠ '>') content.2 + 1

/-- `find_all(tag)` within `[a, b)`: content spans in document order. -/
def findElementsAux (cs tag : List Char) (b : Nat) : Nat → Nat → List (Nat × Nat)
  | _, 0 => []
  | j, fuel + 1 =>
      if j < b then
        if tagOpensAt cs tag j then
          let content := elementContentAt cs tag j
          (content.1, min content.2 b) :: findElementsAux cs tag b (elementScanEnd cs tag j) fuel
        else findElementsAux cs tag b (j + 1) fuel
      else []

/-- `find_all(tag)` within `[a, b)`. -/
def findElements (cs tag : List Char) (a b : Nat) : List (Nat × Nat) :=
  findElementsAux cs tag b a (b + 1 - a)

/-- `find_all(["td","th"])` within `[a, b)`: cells of either tag in
document order. -/
def findCellsAux (cs : List Char) (b : Nat) : Nat → Nat → List (Nat × Nat)
  | _, 0 => []
  | j, fuel + 1 =>
      if j < b then
        if tagOpensAt cs "td".data j then
          let content := elementContentAt cs "td".data j
          (content.1, min content.2 b) :: findCellsAux cs b (elementScanEnd cs "td".data j) fuel
        else if tagOpensAt cs "th".data j then
          let content := elementContentAt cs "th".data j
          (content.1, min content.2 b) :: findCellsAux cs b (elementScanEnd cs "th".data j) fuel
        else findCellsAux cs b (j + 1) fuel
      else []

/-- `find_all(["td","th"])` within `[a, b)`. -/
def findCells (cs : List Char) (a b : Nat) : List (Nat × Nat) :=
  findCellsAux cs b a (b + 1 - a)

/-- `get_text(strip=True)` over `[a, b)`: concatenate the stripped text
runs lying between tags. -/
def getTextStrippedAux (cs : List Char) (b : Nat) : Nat → List Char → Nat → List Char
  | _, acc, 0 => acc
  | j, acc, fuel + 1 =>
      if j < b then
        if nthChar cs j = some '<' then
          getTextStrippedAux cs b (runEnd cs (fun c => c ≠ '>') j + 1) acc fuel
        else
          let r := min (runEnd cs (fun c => c ≠ '<') j) b
          getTextStrippedAux cs b r (acc ++ pyStripList (listSlice cs j r)) fuel
      else acc

/-- `get_text(strip=True)` over `[a, b)`. -/
def getTextStripped (cs : List Char) (a b : Nat) : String :=
  String.mk (getTextStrippedAux cs b a [] (b + 1 - a))

/-! ## Detector 5: `detect_html_tables_and_blocks` -/

/-- Match starts of `re.finditer(r'<table\b', text, re.I)`. -/
def tableStartsAux (cs : List Char) : Nat → Nat → List Nat
  | _, 0 => []
  | j, fuel + 1 =>
      if j < cs.length then
        if matchesAtCI cs "<table".data j &&
           (match nthChar cs (j + 6) with
            | some c => !isWordChar c
            | none => true) then
          j :: tableStartsAux cs (j + 6) fuel
        else tableStartsAux cs (j + 1) fuel
      else []

/-- Match starts of `<table\b`. -/
def tableStarts (cs : List Char) : List Nat :=
  tableStartsAux cs 0 (cs.length + 1)

/-- `re.search(r'</table\s*>', text[start:], re.I)`: absolute end index of
the first close-table tag at or after `start`. -/
def closeTableFindAux (cs : List Char) : Nat → Nat → Option Nat
  | _, 0 => none
  | k, fuel + 1 =>
      if k < cs.length then
        if matchesAtCI cs "</table".data k then
          let w := runEnd cs isPyWs (k + 7)
          if nthChar cs w = some '>' then some (w + 1)
          else closeTableFindAux cs (k + 1) fuel
        else closeTableFindAux cs (k + 1) fuel
      else none

/-- Absolute end of the first `</table\s*>` at or after `start`. -/
def closeTableFind (cs : List Char) (start : Nat) : Option Nat :=
  closeTableFindAux cs start (cs.length + 1)

/-- The block-level tag alternation of the generic HTML pattern, in the
source's order. -/
def htmlBlockTags : List String :=
  ["div", "section", "article", "header", "footer", "main", "nav", "body"]

/-- Try `<(div|section|article|header|footer|main|nav|body)\b` at `j`
(IGNORECASE): the first alternative that matches, with the match end. -/
def htmlOpenAt (cs : List Char) (j : Nat) : Option (String × Nat) :=
  if nthChar cs j = some '<' then
    htmlBlockTags.findSome? (fun tag =>
      if matchesAtCI cs tag.data (j + 1) &&
         (match nthChar cs (j + 1 + tag.length) with
          | some c => !isWordChar c
          | none => true) then some (tag, j + 1 + tag.length)
      else none)
  else none

/-- Matches `(start, tag)` of the generic HTML open pattern, in
`finditer` order. -/
def htmlOpenMatchesAux (cs : List Char) : Nat → Nat → List (Nat × String)
  | _, 0 => []
  | j, fuel + 1 =>
      if j < cs.length then
        match htmlOpenAt cs j with
        | some (tag, mEnd) => (j, tag) :: htmlOpenMatchesAux cs mEnd fuel
        | none => htmlOpenMatchesAux cs (j + 1) fuel
      else []

/-- All generic HTML open matches. -/
def htmlOpenMatches (cs : List Char) : List (Nat × String) :=
  htmlOpenMatchesAux cs 0 (cs.length + 1)

/-- `re.search(r'</%s\s*>' % tag, text[start:], re.I)`: absolute end of the
first close tag of `tag` at or after `start`. -/
def closeTagFindAux (cs tag : List Char) : Nat → Nat → Option Nat
  | _, 0 => none
  | k, fuel + 1 =>
      if k < cs.length then
        if matchesAtCI cs ('<' :: '/' :: tag) k then
          let w := runEnd cs isPyWs (k + 2 + tag.length)
          if nthChar cs w = some '>' then some (w + 1)
          else closeTagFindAux cs tag (k + 1) fuel
        else closeTagFindAux cs tag (k + 1) fuel
      else none

/-- Absolute end of the first `</tag\s*>` at or after `start`. -/
def closeTagFind (cs tag : List Char) (start : Nat) : Option Nat :=
  closeTagFindAux cs tag start (cs.length + 1)

/-- Count of `re.findall(r'<[A-Za-z]+', s)` (non-overlapping). -/
def countOpenTagsAux (cs : List Char) : Nat → Nat → Nat
  | _, 0 => 0
  | j, fuel + 1 =>
      if j < cs.length then
        if nthChar cs j = some '<' then
          let r := runEnd cs Char.isAlpha (j + 1)
          if j + 1 < r then 1 + countOpenTagsAux cs r fuel
          else countOpenTagsAux cs (j + 1) fuel
        else countOpenTagsAux cs (j + 1) fuel
      else 0

/-- Count of `<[A-Za-z]+` matches. -/
def countOpenTags (cs : List Char) : Nat :=
  countOpenTagsAux cs 0 (cs.length + 1)

/-- Count of `re.findall(r'</', s)` (non-overlapping). -/
def countClosersAux (cs : List Char) : Nat → Nat → Nat
  | _, 0 => 0
  | j, fuel + 1 =>
      if j < cs.length then
        if nthChar cs j = some '<' && nthChar cs (j + 1) = some '/' then
          1 + countClosersAux cs (j + 2) fuel
        else countClosersAux cs (j + 1) fuel
      else 0

/-- Count of `</` matches. -/
def countClosers (cs : List Char) : Nat :=
  countClosersAux cs 0 (cs.length + 1)

/-- `detect_html_tables_and_blocks` (tables first, then generic blocks). -/
def detect_html_tables_and_blocks (text : String) (st : DetState) : DetState :=
  let cs := text.data
  let afterTables :=
    (tableStarts cs).foldl
      (fun st' start =>
        if is_occupied st' start (start + 1) then st'
        else
          match closeTableFind cs start with
          | none => st'
          | some endPos =>
              let snippet := pySlice text start endPos
              let scs := snippet.data
              let rows := findElements scs "tr".data 0 scs.length
              let cols := (rows.map (fun r => (findCells scs r.1 r.2).length)).foldl max 0
              let conf := if !rows.isEmpty && 1 ≤ cols then 95 else 60
              if !is_occupied st' start endPos then
                add_block st' ⟨"HTML_TABLE", start, endPos, clamp_conf conf, snippet⟩
              else st')
      st
  (htmlOpenMatches cs).foldl
    (fun st' m =>
      if is_occupied st' m.1 (m.1 + 1) then st'
      else
        match closeTagFind cs m.2.data m.1 with
        | none => st'
        | some endPos =>
            if 20 < endPos - m.1 && !is_occupied st' m.1 endPos then
              let snippet := pySlice text m.1 endPos
              let tagCount := countOpenTags snippet.data
              let closeCount := countClosers snippet.data
              let conf := 50 + min 40 (min tagCount closeCount * 3)
              add_block st' ⟨"HTML", m.1, endPos, clamp_conf conf, snippet⟩
            else st')
    afterTables

/-! ## Detector 8: `detect_js_objects` -/

/-- The JS identifier class `[A-Za-z0-9_$]`. -/
def isJsNameChar (c : Char) : Bool :=
  c.isAlphanum || c = '_' || c = '$'

/-- Try `\b(var|let|const)\s+([A-Za-z0-9_$]+)\s*=\s*\{` at `p`; returns
`(match_end, brace_pos)` with `brace_pos = match_end - 1`. -/
def jsOpenAt (cs : List Char) (p : Nat) : Option (Nat × Nat) :=
  let boundary := p = 0 ||
    (match nthChar cs (p - 1) with
     | some c => !isWordChar c
     | none => true)
  let kwEnd :=
    if matchesAt cs "var".data p then some (p + 3)
    else if matchesAt cs "let".data p then some (p + 3)
    else if matchesAt cs "const".data p then some (p + 5)
    else none
  match kwEnd with
  | none => none
  | some ke =>
      if boundary then
        let q := runEnd cs isPyWs ke
        if ke < q then
          let r := runEnd cs isJsNameChar q
          if q < r then
            let w := runEnd cs isPyWs r
            if nthChar cs w = some '=' then
              let w2 := runEnd cs isPyWs (w + 1)
              if nthChar cs w2 = some braceL then some (w2 + 1, w2) else none
            else none
          else none
        else none
      else none

/-- Matches `(start, brace_pos)` of the JS-object pattern in `finditer`
order. -/
def jsMatchesAux (cs : List Char) : Nat → Nat → List (Nat × Nat)
  | _, 0 => []
  | p, fuel + 1 =>
      if p < cs.length then
        match jsOpenAt cs p with
        | some (mEnd, bracePos) => (p, bracePos) :: jsMatchesAux cs mEnd fuel
        | none => jsMatchesAux cs (p + 1) fuel
      else []

/-- All JS-object pattern matches. -/
def jsMatches (cs : List Char) : List (Nat × Nat) :=
  jsMatchesAux cs 0 (cs.length + 1)

/-- `detect_js_objects`. -/
def detect_js_objects (text : String) (st : DetState) : DetState :=
  (jsMatches text.data).foldl
    (fun st' m =>
      if is_occupied st' m.1 (m.1 + 1) then st'
      else
        match find_json_span text m.2 200000 with
        | some (s, e) =>
            if !is_occupied st' s e then
              add_block st' ⟨"JS_OBJECT", m.1, e, 88, pySlice text m.1 e⟩
            else st'
        | none => st')
    st

/-! ## Detector 9: `detect_sql` -/

/-- The SQL keyword alternation, in the source's order. -/
def sqlKeywords : List String :=
  ["SELECT", "INSERT", "UPDATE", "DELETE", "CREATE", "DROP"]

/-- Try a keyword of the alternation at `u` (IGNORECASE) with a trailing
`\b`; returns the keyword end. -/
def sqlKeywordAt (cs : List Char) (u : Nat) : Option Nat :=
  sqlKeywords.findSome? (fun kw =>
    if matchesAtCI cs kw.data u &&
       (match nthChar cs (u + kw.length) with
        | some c => !isWordChar c
        | none => true) then some (u + kw.length)
    else none)

/-- Try the whole SQL pattern
`(--[^\n]*\n\s*)?(SELECT|…)\b[\s\S]{0,400}?\;` at `p`; returns the match
end (one past the semicolon). -/
def sqlMatchAt (cs : List Char) (p : Nat) : Option Nat :=
  let viaKw := fun (ke : Nat) =>
    match findSubstrFrom cs [';'] ke with
    | some q => if q - ke ≤ 400 then some (q + 1) else none
    | none => none
  match sqlKeywordAt cs p with
  | some ke => viaKw ke
  | none =>
      if nthChar cs p = some '-' && nthChar cs (p + 1) = some '-' then
        match findSubstrFrom cs ['\n'] (p + 2) with
        | some d =>
            let u := runEnd cs isPyWs (d + 1)
            match sqlKeywordAt cs u with
            | some ke => viaKw ke
            | none => none
        | none => none
      else none

/-- SQL matches `(start, end)` in `finditer` order. -/
def sqlMatchesAux (cs : List Char) : Nat → Nat → List (Nat × Nat)
  | _, 0 => []
  | p, fuel + 1 =>
      if p < cs.length then
        match sqlMatchAt cs p with
        | some mEnd => (p, mEnd) :: sqlMatchesAux cs mEnd fuel
        | none => sqlMatchesAux cs (p + 1) fuel
      else []

/-- All SQL matches. -/
def sqlMatches (cs : List Char) : List (Nat × Nat) :=
  sqlMatchesAux cs 0 (cs.length + 1)

/-- `detect_sql`. -/
def detect_sql (text : String) (st : DetState) : DetState :=
  (sqlMatches text.data).foldl
    (fun st' m =>
      if !is_occupied st' m.1 m.2 then
        add_block st' ⟨"SQL", m.1, m.2, 90, pySlice text m.1 m.2⟩
      else st')
    st

/-! ## Detector 6: `detect_csv_blocks` -/

/-- `Counter(counts).most_common(1)[0]`: the value with the highest
frequency, ties resolved by first occurrence (Counter preserves insertion
order and `most_common` sorts stably). -/
def counterMostCommon (counts : List Nat) : Nat × Nat :=
  let distinct := counts.foldl (fun acc v => if acc.contains v then acc else acc ++ [v]) []
  distinct.foldl
    (fun best v =>
      let f := counts.count v
      if best.2 < f then (v, f) else best)
    (0, 0)

/-- The inner `while` of `detect_csv_blocks`: collect the delimiter counts
of the run of non-blank delimiter-bearing lines after line `i`
(`j - i < 200`, at least one delimiter per line); returns the counts of
lines `i..j-1` and the stop index `j`. -/
def csvCollect (lines : List String) (cand : Char) (i : Nat) : Nat → Nat → List Nat → List Nat × Nat
  | j, 0, acc => (acc, j)
  | j, fuel + 1, acc =>
      if j < lines.length && j - i < 200 then
        let ln := lines.getD j ""
        if !(pyStripList ln.data).isEmpty && 0 < ln.data.count cand then
          csvCollect lines cand i (j + 1) fuel (acc ++ [ln.data.count cand])
        else (acc, j)
      else (acc, j)

/-- The candidate-delimiter choice of `detect_csv_blocks`: the first of
`,` `\t` `;` present in the line, provided the line has no brace. -/
def csvCandidate (ln : String) : Option Char :=
  [',', '\t', ';'].findSome? (fun d =>
    if ln.data.contains d && !ln.data.contains braceL && !ln.data.contains braceR then
      some d
    else none)

/-- The outer `while` of `detect_csv_blocks`. -/
def detect_csv_loop (text : String) (lines : List String) (charPos : List Nat) :
    Nat → Nat → DetState → DetState
  | 0, _, st => st
  | fuel + 1, i, st =>
      if i < lines.length then
        let ln := lines.getD i ""
        if (pyStripList ln.data).isEmpty then
          detect_csv_loop text lines charPos fuel (i + 1) st
        else
          match csvCandidate ln with
          | none => detect_csv_loop text lines charPos fuel (i + 1) st
          | some cand =>
              let collected := csvCollect lines cand i (i + 1) (lines.length + 1)
                [ln.data.count cand]
              let counts := collected.1
              let j := collected.2
              if 2 ≤ counts.length then
                let mc := counterMostCommon counts
                if max 1 (counts.length / 2) ≤ mc.2 then
                  let start := charPos.getD i 0
                  let endPos := charPos.getD (j - 1) 0 + (lines.getD (j - 1) "").length
                  if !is_occupied st start endPos then
                    let firstField := ln.data.takeWhile (· ≠ cand)
                    let hasHeader := firstField.any Char.isAlpha
                    let ftype := if hasHeader then "CSV" else "CSV_NO_HEADER"
                    let conf := if hasHeader then 90 else 70
                    detect_csv_loop text lines charPos fuel j
                      (add_block st ⟨ftype, start, endPos, conf, pySlice text start endPos⟩)
                  else detect_csv_loop text lines charPos fuel (i + 1) st
                else detect_csv_loop text lines charPos fuel (i + 1) st
              else detect_csv_loop text lines charPos fuel (i + 1) st
      else st

/-- `detect_csv_blocks`. -/
def detect_csv_blocks (text : String) (st : DetState) : DetState :=
  let lines := pySplitlines text
  detect_csv_loop text lines (charPosList lines 0) (lines.length + 1) 0 st

/-! ## Detector 7: `detect_key_values`

The two line patterns are modelled as decidable existence of a matching
decomposition (the greedy/backtracking engine matches a line iff some
decomposition works, and both patterns are used only as booleans). -/

/-- The key class `[\w\-\s]`. -/
def isKvKeyChar (c : Char) : Bool :=
  isWordChar c || c = '-' || isPyWs c

/-- `re.match(r'^\s*[\w\-\s]{1,80}\s*[:=]\s*.+', line)` as a boolean:
existence of `ws-run ++ key-run(1..80) ++ ws-run ++ [:=] ++ ws-run ++
non-newline char` as a prefix decomposition of the line. -/
def kvMatchInner (ln : String) : Bool :=
  let cs := ln.data
  let n := cs.length
  (List.range (n + 1)).any (fun a =>
    (listSlice cs 0 a).all isPyWs &&
      (List.range 81).any (fun m =>
        1 ≤ m && (listSlice cs a (a + m)).all isKvKeyChar && a + m ≤ n &&
          (List.range (n + 1 - (a + m))).any (fun w =>
            let d := a + m + w
            (listSlice cs (a + m) d).all isPyWs &&
              (nthChar cs d = some ':' || nthChar cs d = some '=') &&
              (List.range (n - (d + 1))).any (fun w2 =>
                (listSlice cs (d + 1) (d + 1 + w2)).all isPyWs &&
                  (match nthChar cs (d + 1 + w2) with
                   | some c => c ≠ '\n'
                   | none => false)))))

/-- `re.match(r'^\s*[#\-]*\s*[\w\-\s]{1,80}\s*[:=]\s*.+', line)` as a
boolean: `kvMatchInner` preceded by an optional `ws-run ++ [#-]-run`. -/
def kvMatchFirst (ln : String) : Bool :=
  let cs := ln.data
  let n := cs.length
  (List.range (n + 1)).any (fun a =>
    (listSlice cs 0 a).all isPyWs &&
      (List.range (n + 1 - a)).any (fun h =>
        (listSlice cs a (a + h)).all (fun c => c = '#' || c = '-') &&
          kvMatchInner (String.mk (listSlice cs (a + h) n))))

/-- The inner `while` of `detect_key_values`: count consecutive lines
matching the inner pattern from `j`; returns `(kv_count, j)`. -/
def kvCollect (lines : List String) : Nat → Nat → Nat → Nat × Nat
  | j, _, 0 => (0, j)
  | j, cnt, fuel + 1 =>
      if j < lines.length && kvMatchInner (lines.getD j "") then
        kvCollect lines (j + 1) (cnt + 1) fuel
      else (cnt, j)

/-- The outer `while` of `detect_key_values`. -/
def detect_kv_loop (text : String) (lines : List String) (charPos : List Nat) :
    Nat → Nat → DetState → DetState
  | 0, _, st => st
  | fuel + 1, i, st =>
      if i < lines.length then
        if kvMatchFirst (lines.getD i "") then
          let collected := kvCollect lines i 0 (lines.length + 1)
          let kvCount := collected.1
          let j := collected.2
          if 2 ≤ kvCount then
            let start := charPos.getD i 0
            let endPos := charPos.getD (j - 1) 0 + (lines.getD (j - 1) "").length
            if !is_occupied st start endPos then
              detect_kv_loop text lines charPos fuel j
                (add_block st ⟨"KEY_VALUE", start, endPos, 90, pySlice text start endPos⟩)
            else detect_kv_loop text lines charPos fuel (i + 1) st
          else detect_kv_loop text lines charPos fuel (i + 1) st
        else detect_kv_loop text lines charPos fuel (i + 1) st
      else st

/-- `detect_key_values`. -/
def detect_key_values (text : String) (st : DetState) : DetState :=
  let lines := pySplitlines text
  detect_kv_loop text lines (charPosList lines 0) (lines.length + 1) 0 st

/-! ## Detector 10: `detect_raw_text` -/

/-- Lexicographic order on occupied intervals (Python tuple `sorted`). -/
def pairLe (p q : Nat × Nat) : Bool :=
  p.1 < q.1 || (p.1 = q.1 && p.2 ≤ q.2)

/-- Stable insertion into a sorted list (equal keys keep original order). -/
def insertLe {α : Type} (le : α → α → Bool) (x : α) : List α → List α
  | [] => [x]
  | y :: ys => if le y x then y :: insertLe le x ys else x :: y :: ys

/-- Stable insertion sort (models Python's stable `sorted`/`list.sort`). -/
def isortBy {α : Type} (le : α → α → Bool) (l : List α) : List α :=
  l.foldl (fun acc x => insertLe le x acc) []

/-- Subtract one occupied interval from a span list (the inner loop of the
span-partition step of `detect_raw_text`). -/
def subtractIval (spans : List (Nat × Nat)) (ab : Nat × Nat) : List (Nat × Nat) :=
  spans.foldl
    (fun acc se =>
      if ab.2 ≤ se.1 || ab.1 ≥ se.2 then acc ++ [se]
      else
        (if se.1 < ab.1 then acc ++ [(se.1, ab.1)] else acc) ++
          (if ab.2 < se.2 then [(ab.2, se.2)] else []))
    []

/-- `re.split(r'\n\s*\n', seg)`. -/
def splitBlankGo (cs : List Char) : Nat → Nat → List String
  | i, 0 => [String.mk (listSlice cs i cs.length)]
  | i, fuel + 1 =>
      match findBlankMatch cs i with
      | some (ms, me) => String.mk (listSlice cs i ms) :: splitBlankGo cs me fuel
      | none => [String.mk (listSlice cs i cs.length)]

/-- `re.split(r'\n\s*\n', seg)`. -/
def splitBlank (seg : String) : List String :=
  splitBlankGo seg.data 0 (seg.data.length + 1)

/-- The parts loop of `detect_raw_text` over one leftover span `[s, e)`. -/
def rawPartsLoop (text : String) (e : Nat) : List String → Nat → DetState → DetState
  | [], _, st => st
  | part :: rest, pos, st =>
      let p := pyStrip part
      if p = "" then rawPartsLoop text e rest (pos + p.length + 2) st
      else
        match pyFind text.data p.data pos e with
        | none => rawPartsLoop text e rest pos st
        | some start =>
            let endPos := start + p.length
            let st' :=
              if !is_occupied st start endPos then
                add_block st ⟨"RAW_TEXT", start, endPos, 35, pySlice text start endPos⟩
              else st
            rawPartsLoop text e rest endPos st'

/-- `detect_raw_text`: partition `[0, n)` by the sorted occupied intervals
and emit the blank-line-separated paragraphs of each leftover span. -/
def detect_raw_text (text : String) (st : DetState) : DetState :=
  let n := text.length
  let spans := (isortBy pairLe st.occupied).foldl subtractIval [(0, n)]
  spans.foldl
    (fun st' se =>
      let seg := pyStrip (pySlice text se.1 se.2)
      if 20 ≤ seg.length then
        rawPartsLoop text se.2 (splitBlank seg) se.1 st'
      else st')
    st

/-! ## Orchestration: `run_all` and `_dedupe_prioritize` -/

/-- The nine structure detectors, in the order `run_all` invokes them
(everything before `detect_raw_text`). -/
def detect_all_but_raw (text : String) : DetState :=
  detect_sql text (detect_key_values text (detect_csv_blocks text
    (detect_js_objects text (detect_html_tables_and_blocks text
      (detect_jsons_global text (detect_sectioned_jsons text
        (detect_yaml_frontmatter text (detect_json_ld text initState))))))))

/-- Sort key of the final `run_all` sort: start index ascending (stable). -/
def startLe (b1 b2 : DetectedBlock) : Bool :=
  b1.start_index ≤ b2.start_index

/-- Sort key of the `_dedupe_prioritize` pre-sort:
`(start ascending, span length descending)` (stable). -/
def dkLe (b1 b2 : DetectedBlock) : Bool :=
  b1.start_index < b2.start_index ||
    (b1.start_index = b2.start_index &&
      b2.end_index - b2.start_index ≤ b1.end_index - b1.start_index)

/-- The `for k in kept` search of `_dedupe_prioritize`: the first kept
block containing `b` whose (defaulted) priority index is at most `b`'s. -/
def findContainer (kept : List DetectedBlock) (b : DetectedBlock) : Option DetectedBlock :=
  kept.find? (fun k =>
    k.start_index ≤ b.start_index && b.end_index ≤ k.end_index &&
      prioIdx k.format_type ≤ prioIdx b.format_type)

/-- One step of the `_dedupe_prioritize` walk.  When a container is found,
the source re-runs strict `FORMAT_PRIORITY.index` on both types inside a
`try` (an unknown type raises and the block is dropped); a contained block
is kept only when its strict priority index is lower than its
container's. -/
def dedupeStep (kept : List DetectedBlock) (b : DetectedBlock) : List DetectedBlock :=
  match findContainer kept b with
  | none => kept ++ [b]
  | some k0 =>
      if FORMAT_PRIORITY.contains b.format_type &&
         FORMAT_PRIORITY.contains k0.format_type &&
         prioIdx b.format_type < prioIdx k0.format_type then
        kept ++ [b]
      else kept

/-- The walk of `_dedupe_prioritize` over the sorted candidate list. -/
def dedupeGo : List DetectedBlock → List DetectedBlock → List DetectedBlock
  | kept, [] => kept
  | kept, b :: bs => dedupeGo (dedupeStep kept b) bs

/-- `_dedupe_prioritize`: sort by `(start, -length)`, walk keeping
non-contained (or strictly higher-priority contained) blocks, re-sort by
start, clamp confidences. -/
def dedupe_prioritize (blocks : List DetectedBlock) : List DetectedBlock :=
  let kept := dedupeGo [] (isortBy dkLe blocks)
  (isortBy startLe kept).map (fun k => { k with confidence := clamp_conf k.confidence })

/-- `run_all`: all detectors in order, sort by start, dedupe/prioritize. -/
def run_all (text : String) : List DetectedBlock :=
  let st := detect_raw_text text (detect_all_but_raw text)
  dedupe_prioritize (isortBy startLe st.blocks)

/-! ## Normalizer helpers -/

/-- Rewrite pass of `re.sub(r',\s*(?=[}\]])', '', s)`: drop a comma and the
following whitespace when a closing bracket follows (the lookahead is not
consumed). -/
def repairSub1 (cs : List Char) : Nat → Nat → List Char
  | _, 0 => []
  | i, fuel + 1 =>
      match nthChar cs i with
      | none => []
      | some c =>
          if c = ',' then
            let w := runEnd cs isPyWs (i + 1)
            if nthChar cs w = some braceR || nthChar cs w = some ']' then
              repairSub1 cs w fuel
            else c :: repairSub1 cs (i + 1) fuel
          else c :: repairSub1 cs (i + 1) fuel

/-- Rewrite pass of `re.sub(r"(?<=[:\s])'([^']*)'", '"\1"', s)`: a
single-quoted run preceded by a colon or whitespace becomes double-quoted. -/
def repairSub2 (cs : List Char) : Nat → Nat → List Char
  | _, 0 => []
  | i, fuel + 1 =>
      match nthChar cs i with
      | none => []
      | some c =>
          let posBefore :=
            match (if i = 0 then none else nthChar cs (i - 1)) with
            | some pc => pc = ':' || isPyWs pc
            | none => false
          if c = quoteS && posBefore then
            match findSubstrFrom cs [quoteS] (i + 1) with
            | some k =>
                quoteD :: (listSlice cs (i + 1) k ++ quoteD ::
                  repairSub2 cs (k + 1) fuel)
            | none => c :: repairSub2 cs (i + 1) fuel
          else c :: repairSub2 cs (i + 1) fuel

/-- The bare-key class `[A-Za-z0-9_\-]` of the third repair. -/
def isBareKeyChar (c : Char) : Bool :=
  c.isAlphanum || c = '_' || c = '-'

/-- Rewrite pass of
`re.sub(r'(?P<prefix>[\{,\s])(?P<key>[A-Za-z0-9_\-]+)\s*:', r'\g<prefix>"\g<key>":', s)`:
quote a bare identifier key after `{`, `,` or whitespace (the whitespace
between key and colon is consumed by the pattern and not re-emitted). -/
def repairSub3 (cs : List Char) : Nat → Nat → List Char
  | _, 0 => []
  | i, fuel + 1 =>
      match nthChar cs i with
      | none => []
      | some c =>
          if c = braceL || c = ',' || isPyWs c then
            let r := runEnd cs isBareKeyChar (i + 1)
            let w := runEnd cs isPyWs r
            if i + 1 < r && nthChar cs w = some ':' then
              c :: quoteD :: (listSlice cs (i + 1) r ++ quoteD :: ':' ::
                repairSub3 cs (w + 1) fuel)
            else c :: repairSub3 cs (i + 1) fuel
          else c :: repairSub3 cs (i + 1) fuel

/-- `_attempt_repair_json`: the three conservative textual repairs in
order.  The Python function returns `Optional[str]` but its `except` arm is
unreachable (the `re.sub` calls cannot raise), so the model returns the
rewritten string directly. -/
def attempt_repair_json (s : String) : String :=
  let s1 := repairSub1 s.data 0 (s.data.length + 1)
  let s2 := repairSub2 s1 0 (s1.length + 1)
  String.mk (repairSub3 s2 0 (s2.length + 1))

/-- The salvage key class `[A-Za-z0-9_\- ]`. -/
def isKvPairKeyChar (c : Char) : Bool :=
  c.isAlphanum || c = '_' || c = '-' || c = ' '

/-- One attempted match of the salvage pattern
`([A-Za-z0-9_\- ]{1,60})\s*[:=]\s*("[^"]*"|\'[^\']*\'|[^,\n]+)` at `i`:
greedy key (longest first), deterministic `\s*`, separator, greedy
whitespace backtracking over the three value alternatives; returns
`(key, raw_value, match_end)`. -/
def findKvPairAt (cs : List Char) (i : Nat) : Option (String × String × Nat) :=
  let runMax := min (runEnd cs isKvPairKeyChar i) (i + 60)
  (List.range (runMax - i)).findSome? (fun d =>
    let q := runMax - d
    if i < q then
      let w := runEnd cs isPyWs q
      if nthChar cs w = some ':' || nthChar cs w = some '=' then
        let key := String.mk (listSlice cs i q)
        let vstart := w + 1
        let wsMax := runEnd cs isPyWs vstart
        (List.range (wsMax - vstart + 1)).findSome? (fun d2 =>
          let v := wsMax - d2
          if vstart ≤ v then
            if nthChar cs v = some quoteD then
              match findSubstrFrom cs [quoteD] (v + 1) with
              | some k => some (key, String.mk (listSlice cs v (k + 1)), k + 1)
              | none => none
            else if nthChar cs v = some quoteS then
              match findSubstrFrom cs [quoteS] (v + 1) with
              | some k => some (key, String.mk (listSlice cs v (k + 1)), k + 1)
              | none => none
            else
              let rend := runEnd cs (fun c => !(c = ',' || c = '\n')) v
              if v < rend then
                some (key, String.mk (listSlice cs v rend), rend)
              else none
          else none)
      else none
    else none)

/-- The `re.findall` scan of `_extract_kv_pairs`, updating the dict with
Python assignment semantics. -/
def extractKvGo (cs : List Char) : Nat → Nat → List (String × String) → List (String × String)
  | _, 0, acc => acc
  | i, fuel + 1, acc =>
      if i < cs.length then
        match findKvPairAt cs i with
        | some (k, v, e) =>
            let val := pyStrip (pyStripChars (pyStripChars (pyStrip v) [quoteD]) [quoteS])
            let key := pyStrip k
            let acc' :=
              if acc.any (fun p => p.1 = key) then
                acc.map (fun p => if p.1 = key then (p.1, val) else p)
              else acc ++ [(key, val)]
            extractKvGo cs e fuel acc'
        | none => extractKvGo cs (i + 1) fuel acc
      else acc

/-- `_extract_kv_pairs`: salvage key/value extraction; always returns a
(possibly empty) flat string-to-string mapping. -/
def extract_kv_pairs (s : String) : List (String × String) :=
  extractKvGo s.data 0 (s.data.length + 1) []

/-- A string dict as a `PyVal`. -/
def strDict (d : List (String × String)) : PyVal :=
  PyVal.pDict (d.map (fun p => (p.1, PyVal.pStr p.2)))

/-- `_parse_kv`: split each line at its first colon, strip the key, strip
the value and its surrounding double quotes. -/
def parse_kv (s : String) : List (String × String) :=
  (pySplitlines s).foldl
    (fun acc ln =>
      if ln.data.contains ':' then
        let k := String.mk (ln.data.takeWhile (· ≠ ':'))
        let v := String.mk ((ln.data.dropWhile (· ≠ ':')).tail)
        let key := pyStrip k
        let val := pyStrip (pyStripChars (pyStrip v) [quoteD])
        if acc.any (fun p => p.1 = key) then
          acc.map (fun p => if p.1 = key then (p.1, val) else p)
        else acc ++ [(key, val)]
      else acc)
    []

/-! ## `_html_table_to_rows` -/

/-- `dict(zip(headers, cells))` with string values. -/
def dictZip (headers cells : List String) : List (String × PyVal) :=
  (headers.zip cells).foldl (fun acc p => pyDictInsert acc p.1 (PyVal.pStr p.2)) []

/-- `{f"col_{i}": cells[i]}`: synthetic positional column names. -/
def colDict (cells : List String) : List (String × PyVal) :=
  cells.enum.map (fun p => ("col_" ++ toString p.1, PyVal.pStr p.2))

/-- `_html_table_to_rows`: headers only from an explicit `<thead>`;
one record per `<tr>` whose `td`/`th` cell count matches the header width,
or a synthetic `col_i` record when there are no headers; `none` when no
table or no rows result. -/
def html_table_to_rows (s : String) : Option PyVal :=
  let cs := s.data
  match (findElements cs "table".data 0 cs.length).head? with
  | none => none
  | some table =>
      let headers :=
        match (findElements cs "thead".data table.1 table.2).head? with
        | some thead =>
            (findElements cs "th".data thead.1 thead.2).map
              (fun c => getTextStripped cs c.1 c.2)
        | none => []
      let rows :=
        (findElements cs "tr".data table.1 table.2).foldl
          (fun acc tr =>
            let cells := (findCells cs tr.1 tr.2).map (fun c => getTextStripped cs c.1 c.2)
            if !headers.isEmpty && cells.length = headers.length then
              acc ++ [PyVal.pDict (dictZip headers cells)]
            else if headers.isEmpty && !cells.isEmpty then
              acc ++ [PyVal.pDict (colDict cells)]
            else acc)
          []
      if rows.isEmpty then none else some (PyVal.pList rows)

/-! ## `_safe_parse_csv` -/

/-- Models `csv.Sniffer().sniff(sample)` for one-line samples: the first
preferred delimiter (`,` tab `;` space `:`) present in the sample; `none`
models the "Could not determine delimiter" error. -/
def sniffDelim (sample : String) : Option Char :=
  [',', '\t', ';', ' ', ':'].findSome? (fun d =>
    if sample.data.contains d then some d else none)

/-- One `csv.reader` row: split on the delimiter with minimal double-quote
field handling (scope: simple cells; an empty line yields an empty row). -/
def csvSplitLineGo (delim : Char) (cs : List Char) : Nat → Nat → List String
  | _, 0 => []
  | i, fuel + 1 =>
      if nthChar cs i = some quoteD then
        let k := (findSubstrFrom cs [quoteD] (i + 1)).getD cs.length
        let fld := String.mk (listSlice cs (i + 1) k)
        if nthChar cs (k + 1) = some delim then
          fld :: csvSplitLineGo delim cs (k + 2) fuel
        else [fld]
      else
        let r := runEnd cs (· ≠ delim) i
        let fld := String.mk (listSlice cs i r)
        if nthChar cs r = some delim then
          fld :: csvSplitLineGo delim cs (r + 1) fuel
        else [fld]

/-- One `csv.reader` row. -/
def csvSplitLine (delim : Char) (ln : String) : List String :=
  if ln = "" then [] else csvSplitLineGo delim ln.data 0 (ln.data.length + 1)

/-- Rows to records: synthetic headers over all rows, or first row as
header over the rest. -/
def csvRowsToRecords (rows : List (List String)) (synthetic : Bool) : Option PyVal :=
  if rows.isEmpty then none
  else if synthetic || rows.length < 2 then
    let header := (List.range (rows.headD []).length).map (fun i => "col_" ++ toString i)
    some (PyVal.pList (rows.map (fun r => PyVal.pDict (dictZip header r))))
  else
    some (PyVal.pList (rows.tail.map (fun r => PyVal.pDict (dictZip (rows.headD []) r))))

/-- `_safe_parse_csv`: sniff the delimiter from the first (unstripped)
line; on sniffing failure fall back to a naive comma split over the
non-blank stripped lines. -/
def safe_parse_csv (txt : String) (noHeader : Bool) : Option PyVal :=
  let strippedEmpty := pyStrip txt = ""
  let delim? := if strippedEmpty then some ',' else sniffDelim ((pySplitlines txt).headD "")
  match delim? with
  | some delim =>
      let rows := (pySplitlines (pyStrip txt)).map (csvSplitLine delim)
      csvRowsToRecords rows noHeader
  | none =>
      let rows := ((pySplitlines (pyStrip txt)).filter
        (fun ln => !(pyStripList ln.data).isEmpty)).map
          (fun ln => (ln.data.splitOn ',').map String.mk)
      if rows.isEmpty then none
      else if rows.length < 2 then
        let header := (List.range (rows.headD []).length).map (fun i => "col_" ++ toString i)
        some (PyVal.pList (rows.map (fun r => PyVal.pDict (dictZip header r))))
      else
        some (PyVal.pList (rows.tail.map (fun r => PyVal.pDict (dictZip (rows.headD []) r))))

/-! ## `Normalizer.normalize` -/

/-- `re.search(r'=\s*(\{[\s\S]*\})\s*;?$', s)` for the JS-object
normalizer: the leftmost `=` followed by optional whitespace and `{`, with
the greedy body ending at the last `}` whose tail is `\s*;?$`; returns the
group-1 span.  (`normalize` strips its input first, so `$` is the string
end.) -/
def jsFindAssign (cs : List Char) : Option (Nat × Nat) :=
  let n := cs.length
  let tailOk := fun (a : Nat) =>
    let w2 := runEnd cs isPyWs a
    w2 = n || (nthChar cs w2 = some ';' && runEnd cs isPyWs (w2 + 1) = n)
  (List.range n).findSome? (fun i =>
    if nthChar cs i = some '=' then
      let w := runEnd cs isPyWs (i + 1)
      if nthChar cs w = some braceL then
        (List.range (n - w)).findSome? (fun d =>
          let k := n - 1 - d
          if nthChar cs k = some braceR && tailOk (k + 1) then some (w, k + 1)
          else none)
      else none
    else none)

/-- `Normalizer.normalize`: convert one block's text to a structured value;
`pNone` stands for the Python `None` result (either a fall-through, a
caught failure, or a parsed JSON `null`).  The source's outer
`try/except` never fires in this model because every helper is total. -/
def Normalizer_normalize (b : DetectedBlock) : PyVal :=
  let t := b.format_type
  let s := pyStrip b.text
  if t = "JSON" || t = "JSON_LD" then
    match json_loads s with
    | some v => v
    | none => PyVal.pNone
  else if t = "MALFORMED_JSON" then
    match json_loads (attempt_repair_json s) with
    | some v => v
    | none => strDict (extract_kv_pairs s)
  else if t = "CSV" || t = "CSV_NO_HEADER" then
    match safe_parse_csv s (t = "CSV_NO_HEADER") with
    | some v => v
    | none => PyVal.pNone
  else if t = "HTML_TABLE" then
    match html_table_to_rows s with
    | some v => v
    | none => PyVal.pNone
  else if t = "KEY_VALUE" then
    strDict (parse_kv s)
  else if t = "JS_OBJECT" then
    match jsFindAssign s.data with
    | some (a, b2) =>
        let obj := pySlice s a b2
        let obj2 := String.mk (obj.data.map (fun c => if c = quoteS then quoteD else c))
        match json_loads obj2 with
        | some v => v
        | none => strDict (extract_kv_pairs obj)
    | none => PyVal.pNone
  else if t = "SQL" then
    PyVal.pDict [("sql", PyVal.pStr s)]
  else PyVal.pNone

/-! ## `parse_file` -/

/-- One entry of the `records` list: `{"format": …, "start": …, "end": …,
"data": …}` (the `end` key is named `stop` here because `end` is a Lean
keyword). -/
structure PyRecord where
  format : String
  start : Nat
  stop : Nat
  data : PyVal

/-- `summary[ft] = summary.get(ft, 0) + 1` over an insertion-ordered
mapping. -/
def pyCountInsert (sm : List (String × Nat)) (ft : String) : List (String × Nat) :=
  if sm.any (fun p => p.1 = ft) then
    sm.map (fun p => if p.1 = ft then (p.1, p.2 + 1) else p)
  else sm ++ [(ft, 1)]

/-- The result object of `parse_file`. -/
structure ParseResult where
  fragments : List DetectedBlock
  summary : List (String × Nat)
  records : List PyRecord

/-- `parse_file`: run the detector pipeline, normalize each retained block
(appending a record only when the normalized value is not `None`), and
build the per-type summary.  The source's defensive `except` arm in the
records loop (which would append a record with `data = None`) is
unreachable because `normalize` catches all failures internally. -/
def parse_file (text : String) : ParseResult :=
  let blocks := run_all text
  let records :=
    blocks.foldl
      (fun recs b =>
        match Normalizer_normalize b with
        | PyVal.pNone => recs
        | v => recs ++ [⟨b.format_type, b.start_index, b.end_index, v⟩])
      []
  { fragments := blocks
    summary := blocks.foldl (fun sm b => pyCountInsert sm b.format_type) []
    records := records }


/-- Well-formedness of a detected block relative to the input text:
ordered offsets within the text bounds, and the stored text equal to the
slice of the original input at those offsets. -/
def BlockWF (text : String) (b : DetectedBlock) : Prop :=
  b.start_index ≤ b.end_index ∧ b.end_index ≤ text.length ∧
    b.text = pySlice text b.start_index b.end_index

/-! # Claim theorems -/

/-- C1, counterexample: on the input `"1,2\nx: 1,2\ny: 3"`, `parse_file`
returns the two fragments `CSV_NO_HEADER` over `[0, 10)` and `KEY_VALUE`
over `[4, 15)`.  Since `0 < 4 < 10 < 15`, the intervals intersect and
neither contains the other — a bare partial overlap in the returned list,
which the claim says never occurs.  (No confidence-margin arbitration
exists in `_dedupe_prioritize`: the walk only tests containment.) -/
theorem c1_counterexample :
    (parse_file "1,2\nx: 1,2\ny: 3").fragments =
      [⟨"CSV_NO_HEADER", 0, 10, 70, "1,2\nx: 1,2"⟩,
       ⟨"KEY_VALUE", 4, 15, 90, "x: 1,2\ny: 3"⟩] ∧
    ((0 : Nat) < 4 ∧ 4 < 10 ∧ 10 < 15) :=
  ⟨by rfl, by decide⟩

/-- C2, counterexample: the one-character input `"{"` contains an
unterminated `{` (a `{` and no `}` at all), yet `parse_file` returns a
result whose fragment list is empty — it contains no MALFORMED_JSON and no
RAW_TEXT fragment: `detect_jsons_global` adds a block for an unclosed brace
only when key:value-shaped text follows it, and the leftover text is
shorter than the 20-character RAW_TEXT threshold. -/
theorem c2_counterexample :
    ("\x7b".data.contains braceL ∧ ¬ "\x7b".data.contains braceR) ∧
    (parse_file "\x7b").fragments = [] ∧
    (parse_file "\x7b").records = [] :=
  ⟨by decide, by rfl, by rfl⟩

/-- C2, amended: an input with an unterminated `{` never raises —
`parse_file` (a total function here, as in the source, whose handlers
confine every detector failure) always returns a complete result object —
and the result contains a MALFORMED_JSON fragment when key:value-shaped
text follows the brace inside the truncation window, as in
`"{\"a\": 1, \"b\": 2"`; but for a bare unterminated brace with neither
key:value text nor enough residual prose, the fragment list may be empty,
as the input `"{"` shows. -/
theorem c2_amended :
    (parse_file "\x7b\"a\": 1, \"b\": 2").fragments =
      [⟨"MALFORMED_JSON", 0, 15, 35, "\x7b\"a\": 1, \"b\": 2"⟩] ∧
    (parse_file "\x7b\"a\": 1, \"b\": 2").records =
      [⟨"MALFORMED_JSON", 0, 15, PyVal.pDict []⟩] ∧
    (parse_file "\x7b\"a\": 1, \"b\": 2").summary = [("MALFORMED_JSON", 1)] ∧
    (parse_file "\x7b").fragments = [] ∧
    (parse_file "\x7b").summary = [] ∧
    (parse_file "\x7b").records = [] :=
  ⟨by rfl, by rfl, by rfl, by rfl, by rfl, by rfl⟩

/-- C3, counterexample: `T = "{\"a\": 1}\n"` strictly parses as JSON
(`json.loads` accepts surrounding whitespace) and has length 9, but the
unique fragment `parse_file` returns spans `[0, 8)` — its end is the end of
the brace-balanced object, not `length(T) = 9` — so the fragment does not
span all of `T` as the claim requires. -/
theorem c3_counterexample :
    json_loads "\x7b\"a\": 1\x7d\n" = some (PyVal.pDict [("a", PyVal.pInt 1)]) ∧
    ("\x7b\"a\": 1\x7d\n" : String).length = 9 ∧
    (parse_file "\x7b\"a\": 1\x7d\n").fragments =
      [⟨"JSON", 0, 8, 98, "\x7b\"a\": 1\x7d"⟩] ∧
    (8 : Nat) ≠ 9 :=
  ⟨by rfl, by rfl, by rfl, by decide⟩

/-- C4, counterexample: on a plain-prose input `parse_file` returns one
successfully detected RAW_TEXT fragment whose normalization is null, yet
the records list is empty — the fragment is omitted instead of being
reported with `data = null`, contradicting "one entry per fragment" and
"never omitted". -/
theorem c4_counterexample :
    (parse_file "hello world this is plain prose text").fragments =
      [⟨"RAW_TEXT", 0, 36, 35, "hello world this is plain prose text"⟩] ∧
    (parse_file "hello world this is plain prose text").records = [] :=
  ⟨by rfl, by rfl⟩

/-- C6, counterexample: for the input
`<table><tr><th>x</th></tr><tr><td>1</td></tr></table>` the pipeline
returns one HTML_TABLE fragment, but its normalized record is
`[{"col_0": "x"}, {"col_0": "1"}]`, not the claimed `[{"x": "1"}]`:
`_html_table_to_rows` reads headers only from an explicit `<thead>`
section; with none present it synthesizes positional `col_i` names and
keeps the `<th>` row as a data row rather than treating it as the header. -/
theorem c6_counterexample :
    (parse_file "<table><tr><th>x</th></tr><tr><td>1</td></tr></table>").fragments.map
        DetectedBlock.format_type = ["HTML_TABLE"] ∧
    (parse_file "<table><tr><th>x</th></tr><tr><td>1</td></tr></table>").records.map
        PyRecord.data =
      [PyVal.pList [PyVal.pDict [("col_0", PyVal.pStr "x")],
                    PyVal.pDict [("col_0", PyVal.pStr "1")]]] ∧
    PyVal.pList [PyVal.pDict [("col_0", PyVal.pStr "x")],
                 PyVal.pDict [("col_0", PyVal.pStr "1")]] ≠
      PyVal.pList [PyVal.pDict [("x", PyVal.pStr "1")]] :=
  ⟨by rfl, by rfl, by simp⟩

/-- C6, amended: the input containing
`<table><tr><th>x</th></tr><tr><td>1</td></tr></table>` yields exactly one
HTML_TABLE fragment over the whole table, and its normalized record is
`[{"col_0": "x"}, {"col_0": "1"}]`: with no explicit `<thead>` the
normalizer synthesizes positional column names and emits one record per
row, including the `<th>` row. -/
theorem c6_amended :
    (parse_file "<table><tr><th>x</th></tr><tr><td>1</td></tr></table>").fragments =
      [⟨"HTML_TABLE", 0, 53, 95,
        "<table><tr><th>x</th></tr><tr><td>1</td></tr></table>"⟩] ∧
    (parse_file "<table><tr><th>x</th></tr><tr><td>1</td></tr></table>").records =
      [⟨"HTML_TABLE", 0, 53,
        PyVal.pList [PyVal.pDict [("col_0", PyVal.pStr "x")],
                     PyVal.pDict [("col_0", PyVal.pStr "1")]]⟩] :=
  ⟨by rfl, by rfl⟩

/-- C8, counterexample: on the input `"--- INLINE JSON\nnull"` the
pipeline detects the MALFORMED_JSON fragment `"null"` (a JSON-headed
section with no brace), and `Normalizer.normalize` of that fragment *is*
null: the textual repairs leave `"null"` unchanged, the strict re-parse
*succeeds* and returns JSON `null` — Python `None` — so the salvage
extraction is never reached and the normalizer returns null for a
MALFORMED_JSON fragment, contradicting the claim. -/
theorem c8_counterexample :
    (parse_file "--- INLINE JSON\nnull").fragments =
      [⟨"MALFORMED_JSON", 16, 20, 40, "null"⟩] ∧
    Normalizer_normalize ⟨"MALFORMED_JSON", 16, 20, 40, "null"⟩ = PyVal.pNone :=
  ⟨by rfl, by rfl⟩

/-- C9, counterexample: plain prose consisting of two blank-line-separated
paragraphs (no recognizable structured format anywhere) yields **two**
RAW_TEXT fragments, not "zero or one": `detect_raw_text` emits one block
per paragraph of each leftover span.  The records list is empty as
claimed. -/
theorem c9_counterexample :
    (parse_file "Plain prose paragraph number one here.\n\nPlain prose paragraph number two here.").fragments =
      [⟨"RAW_TEXT", 0, 38, 35, "Plain prose paragraph number one here."⟩,
       ⟨"RAW_TEXT", 40, 78, 35, "Plain prose paragraph number two here."⟩] ∧
    (parse_file "Plain prose paragraph number one here.\n\nPlain prose paragraph number two here.").records = [] :=
  ⟨by rfl, by rfl⟩

/-- C10, counterexample: for the input `"a,b\r\nc,d"` Python `splitlines`
yields the two lines `"a,b"`, `"c,d"`, and the detectors' prefix-sum table
`char_pos` (which adds `len(line) + 1` per line) maps line 1 to offset 4,
while line 1 truly starts at offset 5 — the `\r\n` terminator is two
characters wide.  Consequently the CSV block derived from the table spans
`[0, 7)` with text `"a,b\r\nc,"`, truncating the final cell instead of
addressing the correct positions `[0, 8)`. -/
theorem c10_counterexample :
    pySplitlines "a,b\x0d\nc,d" = ["a,b", "c,d"] ∧
    charPosList (pySplitlines "a,b\x0d\nc,d") 0 = [0, 4, 8] ∧
    lineStartsOf "a,b\x0d\nc,d" = [0, 5] ∧
    (4 : Nat) ≠ 5 ∧
    (parse_file "a,b\x0d\nc,d").fragments = [⟨"CSV", 0, 7, 90, "a,b\x0d\nc,"⟩] :=
  ⟨by rfl, by rfl, by rfl, by decide, by rfl⟩

/-! # Helper lemmas -/

/-- A successful bounded substring scan: the hit is at or after the start,
in bounds, matching, and is the first hit. -/
theorem findSubstrAux_some_spec (cs pat : List Char) :
    ∀ fuel j r, findSubstrAux cs pat j fuel = some r →
      j ≤ r ∧ r + pat.length ≤ cs.length ∧ matchesAt cs pat r = true ∧
      ∀ k, j ≤ k → k < r → matchesAt cs pat k = false := by
  intro fuel
  induction fuel with
  | zero => intro j r h; simp [findSubstrAux] at h
  | succ fuel ih =>
      intro j r h
      rw [findSubstrAux] at h
      split at h
      · split at h
        · rename_i hlen hm
          cases h
          exact ⟨Nat.le_refl _, hlen, hm, fun k hk hk2 => absurd (Nat.lt_of_le_of_lt hk hk2) (Nat.lt_irrefl _)⟩
        · rename_i hlen hm
          obtain ⟨h1, h2, h3, h4⟩ := ih (j + 1) r h
          refine ⟨by omega, h2, h3, fun k hk hk2 => ?_⟩
          rcases Nat.eq_or_lt_of_le hk with rfl | hlt
          · exact Bool.of_not_eq_true hm
          · exact h4 k hlt hk2
      · exact absurd h (by simp)

/-- A failed bounded substring scan with enough fuel: no hit at or after
the start. -/
theorem findSubstrAux_none_spec (cs pat : List Char) :
    ∀ fuel j, cs.length + 1 ≤ j + fuel → findSubstrAux cs pat j fuel = none →
      ∀ k, j ≤ k → matchesAt cs pat k = false := by
  intro fuel
  induction fuel with
  | zero =>
      intro j hfuel _ k hk
      have : ¬ (k + pat.length ≤ cs.length) := by omega
      simp [matchesAt, this]
  | succ fuel ih =>
      intro j hfuel h k hk
      rw [findSubstrAux] at h
      split at h
      · split at h
        · simp at h
        · rename_i hlen hm
          rcases Nat.eq_or_lt_of_le hk with rfl | hlt
          · exact Bool.of_not_eq_true hm
          · exact ih (j + 1) (by omega) h k hlt
      · rename_i hlen
        have : ¬ (k + pat.length ≤ cs.length) := by omega
        simp [matchesAt, this]

/-- Bounds of `findSubstrFrom`. -/
theorem findSubstrFrom_some_spec (cs pat : List Char) (i r : Nat)
    (h : findSubstrFrom cs pat i = some r) :
    i ≤ r ∧ r + pat.length ≤ cs.length ∧ matchesAt cs pat r = true ∧
      ∀ k, i ≤ k → k < r → matchesAt cs pat k = false :=
  findSubstrAux_some_spec cs pat (cs.length + 1) i r h

/-- Completeness of `findSubstrFrom`: a `none` result means no match
anywhere at or after the start. -/
theorem findSubstrFrom_none_spec (cs pat : List Char) (i : Nat)
    (h : findSubstrFrom cs pat i = none) :
    ∀ k, i ≤ k → matchesAt cs pat k = false :=
  findSubstrAux_none_spec cs pat (cs.length + 1) i (by omega) h

/-- Bounds of the case-insensitive scan. -/
theorem findSubstrCIAux_some_spec (cs pat : List Char) :
    ∀ fuel j r, findSubstrCIAux cs pat j fuel = some r →
      j ≤ r ∧ r + pat.length ≤ cs.length := by
  intro fuel
  induction fuel with
  | zero => intro j r h; simp [findSubstrCIAux] at h
  | succ fuel ih =>
      intro j r h
      rw [findSubstrCIAux] at h
      split at h
      · split at h
        · rename_i hlen _
          cases h; exact ⟨Nat.le_refl _, hlen⟩
        · obtain ⟨h1, h2⟩ := ih (j + 1) r h
          exact ⟨by omega, h2⟩
      · exact absurd h (by simp)

/-- Bounds of `pyFind`: the hit starts at or after `start` and the whole
occurrence fits under both the stop bound and the text length. -/
theorem pyFindAux_some_spec (cs pat : List Char) (stop : Nat) :
    ∀ fuel j r, pyFindAux cs pat stop j fuel = some r →
      j ≤ r ∧ r + pat.length ≤ min stop cs.length := by
  intro fuel
  induction fuel with
  | zero => intro j r h; simp [pyFindAux] at h
  | succ fuel ih =>
      intro j r h
      rw [pyFindAux] at h
      split at h
      · split at h
        · rename_i hlen _
          cases h; exact ⟨Nat.le_refl _, hlen⟩
        · obtain ⟨h1, h2⟩ := ih (j + 1) r h
          exact ⟨by omega, h2⟩
      · exact absurd h (by simp)


/-- Shifting a match one character into a cons. -/
theorem matchesAt_cons_succ (c : Char) (rest pat : List Char) (j : Nat) :
    matchesAt (c :: rest) pat (j + 1) = matchesAt rest pat j := by
  simp only [matchesAt, listSlice, List.drop_succ_cons, List.length_cons]
  have hb : decide (j + 1 + pat.length ≤ rest.length + 1) =
      decide (j + pat.length ≤ rest.length) := decide_eq_decide.mpr (by omega)
  rw [hb, show j + 1 + pat.length - (j + 1) = j + pat.length - j from by omega]

/-- A singleton pattern matches at `j` iff that character is at `j`. -/
theorem matchesAt_singleton (c : Char) :
    ∀ (cs : List Char) (j : Nat), matchesAt cs [c] j = true ↔ nthChar cs j = some c := by
  intro cs
  induction cs with
  | nil => intro j; simp [matchesAt, nthChar, listSlice]
  | cons d rest ih =>
      intro j
      cases j with
      | zero =>
          simp only [matchesAt, listSlice, Nat.zero_add, Nat.sub_zero, List.drop_zero,
            List.take_succ_cons, List.take_zero, List.length_nil, nthChar,
            List.get?_cons_zero, List.length_cons, Bool.and_eq_true, beq_iff_eq,
            decide_eq_true_eq, Option.some.injEq, List.cons.injEq, and_true]
          constructor
          · intro h; exact h.2
          · intro h; exact ⟨by omega, h⟩
      | succ j0 =>
          rw [matchesAt_cons_succ]
          rw [show nthChar (d :: rest) (j0 + 1) = nthChar rest j0 from rfl]
          exact ih j0

/-- A two-character pattern matches at `j` iff both characters are in
place. -/
theorem matchesAt_pair (a b : Char) :
    ∀ (cs : List Char) (j : Nat), matchesAt cs [a, b] j = true ↔
      nthChar cs j = some a ∧ nthChar cs (j + 1) = some b := by
  intro cs
  induction cs with
  | nil => intro j; simp [matchesAt, nthChar, listSlice]
  | cons d rest ih =>
      intro j
      cases j with
      | zero =>
          cases rest with
          | nil =>
              simp [matchesAt, nthChar, listSlice]
          | cons e rest2 =>
              simp only [matchesAt, listSlice, Nat.zero_add, Nat.sub_zero, List.drop_zero,
                List.take_succ_cons, List.take_zero, List.length_nil, nthChar,
                List.get?_cons_zero, List.get?_cons_succ, List.length_cons,
                Bool.and_eq_true, beq_iff_eq, decide_eq_true_eq, Option.some.injEq,
                List.cons.injEq, and_true]
              constructor
              · intro h; exact h.2
              · intro h; exact ⟨by omega, h⟩
      | succ j0 =>
          rw [matchesAt_cons_succ]
          rw [show nthChar (d :: rest) (j0 + 1) = nthChar rest j0 from rfl,
            show nthChar (d :: rest) (j0 + 1 + 1) = nthChar rest (j0 + 1) from rfl]
          exact ih j0

/-- The head of a nonempty slice is the character at its start. -/
theorem listSlice_head? (cs : List Char) (j m : Nat) (hm : 0 < m) :
    (listSlice cs j (j + m)).head? = nthChar cs j := by
  rw [listSlice, show j + m - j = m from by omega, nthChar, List.get?_eq_getElem?,
    ← List.head?_drop]
  cases hcs : cs.drop j with
  | nil => simp
  | cons d rest =>
      cases m with
      | zero => omega
      | succ m0 => simp

/-- ASCII lowering sends only uppercase letters anywhere; a character that
lowers to `<` is `<` itself. -/
theorem toLower_eq_angle (c : Char) (h : c.toLower = '<') : c = '<' := by
  simp only [Char.toLower] at h
  split at h
  · rename_i hc
    have h60 : ('<' : Char).toNat = 60 := by decide
    have htn : (Char.ofNat (c.toNat + 32)).toNat = c.toNat + 32 := by
      unfold Char.ofNat
      split
      · rfl
      · rename_i hd
        exact absurd (by unfold Char.isValidCharNat; omega : Char.isValidCharNat (c.toNat + 32)) hd
    have := congrArg Char.toNat h
    rw [htn, h60] at this
    omega
  · exact h

/-- A case-insensitive match against a pattern starting with `<` has a
literal `<` at the match position. -/
theorem matchesAtCI_head_angle (cs pat : List Char) (j : Nat)
    (hpat : pat.head? = some '<') (h : matchesAtCI cs pat j = true) :
    nthChar cs j = some '<' := by
  simp only [matchesAtCI, Bool.and_eq_true, beq_iff_eq, decide_eq_true_eq] at h
  obtain ⟨hlen, hsl⟩ := h
  have hm : 0 < pat.length := by
    cases pat with
    | nil => simp at hpat
    | cons x xs => exact Nat.succ_pos _
  have hh := congrArg List.head? hsl
  rw [List.head?_map, List.head?_map, hpat, listSlice_head? cs j pat.length hm] at hh
  cases hc : nthChar cs j with
  | none => rw [hc] at hh; simp at hh
  | some c =>
      rw [hc] at hh
      simp only [Option.map_some'] at hh
      have : c.toLower = Char.toLower '<' := by exact Option.some.inj hh
      rw [show Char.toLower '<' = '<' from by decide] at this
      rw [toLower_eq_angle c this]

/-- A fold preserves a state predicate when every step does. -/
theorem foldl_pres {α : Type} (P : DetState → Prop) (f : DetState → α → DetState) :
    ∀ (l : List α) (st : DetState), P st → (∀ s x, x ∈ l → P s → P (f s x)) →
      P (l.foldl f st) := by
  intro l
  induction l with
  | nil => intro st h _; exact h
  | cons x xs ih =>
      intro st h hstep
      exact ih (f st x) (hstep st x (List.mem_cons_self x xs) h)
        (fun s y hy => hstep s y (List.mem_cons_of_mem x hy))

/-- A fold whose every step fixes the state fixes the state. -/
theorem foldl_fix {α : Type} (f : DetState → α → DetState) :
    ∀ (l : List α) (st : DetState), (∀ x, x ∈ l → f st x = st) → l.foldl f st = st := by
  intro l
  induction l with
  | nil => intro st _; rfl
  | cons x xs ih =>
      intro st h
      rw [List.foldl_cons, h x (List.mem_cons_self x xs)]
      exact ih st (fun y hy => h y (List.mem_cons_of_mem x hy))

/-- Membership through stable insertion. -/
theorem mem_insertLe {α : Type} (le : α → α → Bool) (x y : α) :
    ∀ l : List α, y ∈ insertLe le x l ↔ y = x ∨ y ∈ l := by
  intro l
  induction l with
  | nil => simp [insertLe]
  | cons z zs ih =>
      rw [insertLe]
      split
      all_goals simp only [List.mem_cons, ih]
      all_goals tauto

/-- Membership through the stable insertion sort. -/
theorem mem_isortBy {α : Type} (le : α → α → Bool) (l : List α) (y : α) :
    y ∈ isortBy le l ↔ y ∈ l := by
  suffices h : ∀ (l : List α) (acc : List α), y ∈ l.foldl (fun a x => insertLe le x a) acc ↔
      y ∈ acc ∨ y ∈ l by
    rw [isortBy, h l []]
    simp
  intro l
  induction l with
  | nil => intro acc; simp
  | cons x xs ih =>
      intro acc
      rw [List.foldl_cons, ih, mem_insertLe]
      simp only [List.mem_cons]
      tauto

/-- One resolver step only keeps old blocks or adds the candidate. -/
theorem dedupeStep_subset (kept : List DetectedBlock) (b x : DetectedBlock)
    (hx : x ∈ dedupeStep kept b) : x ∈ kept ∨ x = b := by
  rw [dedupeStep] at hx
  split at hx
  · rcases List.mem_append.mp hx with h | h
    · exact Or.inl h
    · exact Or.inr (List.mem_singleton.mp h)
  · split at hx
    · rcases List.mem_append.mp hx with h | h
      · exact Or.inl h
      · exact Or.inr (List.mem_singleton.mp h)
    · exact Or.inl hx

/-- The resolver walk only emits kept blocks or members of its input. -/
theorem dedupeGo_subset :
    ∀ (l kept : List DetectedBlock) (x : DetectedBlock), x ∈ dedupeGo kept l →
      x ∈ kept ∨ x ∈ l := by
  intro l
  induction l with
  | nil => intro kept x hx; exact Or.inl hx
  | cons b bs ih =>
      intro kept x hx
      rcases ih (dedupeStep kept b) x hx with h | h
      · rcases dedupeStep_subset kept b x h with h2 | h2
        · exact Or.inl h2
        · exact Or.inr (h2 ▸ List.mem_cons_self b bs)
      · exact Or.inr (List.mem_cons_of_mem b h)

/-- Every block of the resolver output is a member of its input with the
confidence clamped (format, offsets and text unchanged). -/
theorem mem_dedupe_prioritize (bs : List DetectedBlock) (x : DetectedBlock)
    (hx : x ∈ dedupe_prioritize bs) :
    ∃ y ∈ bs, x = { y with confidence := clamp_conf y.confidence } := by
  rw [dedupe_prioritize] at hx
  obtain ⟨z, hz, hxz⟩ := List.mem_map.mp hx
  rw [mem_isortBy] at hz
  rcases dedupeGo_subset (isortBy dkLe bs) [] z hz with h | h
  · simp at h
  · exact ⟨z, (mem_isortBy dkLe bs z).mp h, hxz.symm⟩

/-- `add_block` appends the block and touches nothing else in `blocks`. -/
theorem add_block_blocks (st : DetState) (b : DetectedBlock) :
    (add_block st b).blocks = st.blocks ++ [b] := by
  rw [add_block]
  split <;> rfl

/-- The depth-scan loop of `find_json_span`, when it returns a span,
returns the recorded start, an end after the current position, within the
window, and closing on a `}`. -/
theorem findJsonSpanGo_some_spec (cs : List Char) (strt limit : Nat) :
    ∀ fuel j depth inS esc sc s e,
      findJsonSpanGo cs strt limit j depth inS esc sc fuel = some (s, e) →
      s = strt ∧ j < e ∧ e ≤ limit ∧ nthChar cs (e - 1) = some braceR := by
  intro fuel
  induction fuel with
  | zero => intro j d inS esc sc s e h; simp [findJsonSpanGo] at h
  | succ fuel ih =>
      intro j d inS esc sc s e h
      rw [findJsonSpanGo] at h
      split at h
      case isTrue hj =>
        split at h
        case h_1 => exact absurd h (by simp)
        case h_2 ch hch =>
          split at h
          · split at h
            · obtain ⟨h1, h2, h3, h4⟩ := ih _ _ _ _ _ _ _ h
              exact ⟨h1, by omega, h3, h4⟩
            · split at h
              · obtain ⟨h1, h2, h3, h4⟩ := ih _ _ _ _ _ _ _ h
                exact ⟨h1, by omega, h3, h4⟩
              · split at h
                · obtain ⟨h1, h2, h3, h4⟩ := ih _ _ _ _ _ _ _ h
                  exact ⟨h1, by omega, h3, h4⟩
                · obtain ⟨h1, h2, h3, h4⟩ := ih _ _ _ _ _ _ _ h
                  exact ⟨h1, by omega, h3, h4⟩
          · split at h
            · obtain ⟨h1, h2, h3, h4⟩ := ih _ _ _ _ _ _ _ h
              exact ⟨h1, by omega, h3, h4⟩
            · split at h
              · obtain ⟨h1, h2, h3, h4⟩ := ih _ _ _ _ _ _ _ h
                exact ⟨h1, by omega, h3, h4⟩
              · split at h
                case isTrue hbr =>
                  split at h
                  case isTrue hd0 =>
                    cases h
                    refine ⟨rfl, Nat.lt_succ_self j, by omega, ?_⟩
                    rw [show j + 1 - 1 = j from rfl, hch, hbr]
                  case isFalse =>
                    obtain ⟨h1, h2, h3, h4⟩ := ih _ _ _ _ _ _ _ h
                    exact ⟨h1, by omega, h3, h4⟩
                case isFalse =>
                  obtain ⟨h1, h2, h3, h4⟩ := ih _ _ _ _ _ _ _ h
                  exact ⟨h1, by omega, h3, h4⟩
      case isFalse => exact absurd h (by simp)

/-- Contract of `find_json_span` when it returns a span. -/
theorem find_json_span_some_spec (text : String) (startPos maxLen s e : Nat)
    (h : find_json_span text startPos maxLen = some (s, e)) :
    startPos ≤ s ∧ s < e ∧ e ≤ text.length ∧ e ≤ s + maxLen ∧
      nthChar text.data s = some braceL ∧ nthChar text.data (e - 1) = some braceR ∧
      (∀ k, startPos ≤ k → k < s → nthChar text.data k ≠ some braceL) := by
  rw [find_json_span] at h
  cases hf : findSubstrFrom text.data [braceL] startPos with
  | none => rw [hf] at h; exact absurd h (by simp)
  | some s0 =>
      rw [hf] at h
      obtain ⟨hs1, hs2, hs3, hs4⟩ := findSubstrFrom_some_spec text.data [braceL] startPos s0 hf
      obtain ⟨hg1, hg2, hg3, hg4⟩ := findJsonSpanGo_some_spec text.data s0
        (min text.data.length (s0 + maxLen)) _ _ _ _ _ _ s e h
      subst hg1
      have hlen : text.length = text.data.length := rfl
      refine ⟨hs1, hg2, by omega, by omega, ?_, hg4, ?_⟩
      · exact (matchesAt_singleton braceL text.data s).mp hs3
      · intro k hk1 hk2 hk3
        have hfalse := hs4 k hk1 hk2
        have htrue := (matchesAt_singleton braceL text.data k).mpr hk3
        rw [hfalse] at htrue
        exact Bool.false_ne_true htrue

/-- C7: contract of `find_json_span`.  When it returns `(s, e)`: `s` is
the first `{` at or after the requested start position, the span closes on
the `}` at `e - 1` at which the string-aware depth first returns to zero,
the indices satisfy `start ≤ e - 1 < length(text)`, and the scan is
confined to the bounded lookahead window (`e ≤ s + max_len`) — when no
closure exists in the window the function returns no match, so a returned
span never reaches past `s + max_len` however long the text is. -/
theorem c7_find_json_span_contract (text : String) (startPos maxLen s e : Nat)
    (h : find_json_span text startPos maxLen = some (s, e)) :
    startPos ≤ s ∧ s ≤ e - 1 ∧ e - 1 < text.length ∧ e ≤ s + maxLen ∧
      nthChar text.data s = some braceL ∧ nthChar text.data (e - 1) = some braceR ∧
      (∀ k, startPos ≤ k → k < s → nthChar text.data k ≠ some braceL) := by
  obtain ⟨h1, h2, h3, h4, h5, h6, h7⟩ := find_json_span_some_spec text startPos maxLen s e h
  exact ⟨h1, by omega, by omega, h4, h5, h6, h7⟩

/-- C7, witness: the span found in `a{"x":"}"}` from position 0 with the
default window; the brace inside the string is correctly ignored, and all
the contract's conclusions hold at this instance. -/
theorem c7_find_json_span_contract_witness :
    0 ≤ 1 ∧ 1 ≤ 9 ∧ 9 < ("a\x7b\"x\":\"\x7d\"\x7d" : String).length ∧
      10 ≤ 1 + 200000 ∧
      nthChar ("a\x7b\"x\":\"\x7d\"\x7d" : String).data 1 = some braceL ∧
      nthChar ("a\x7b\"x\":\"\x7d\"\x7d" : String).data 9 = some braceR ∧
      (∀ k, 0 ≤ k → k < 1 → nthChar ("a\x7b\"x\":\"\x7d\"\x7d" : String).data k ≠ some braceL) :=
  c7_find_json_span_contract "a\x7b\"x\":\"\x7d\"\x7d" 0 200000 1 10 (by rfl)

/-- C8, amended: for a MALFORMED_JSON fragment, `Normalizer.normalize`
returns null exactly when the repaired text strictly parses to the JSON
value `null` (which Python hands back as `None`); in every other case the
result is non-null — either the re-parsed repaired text or the salvage
key/value extraction, which always succeeds with a flat (possibly empty)
mapping. -/
theorem c8_amended (b : DetectedBlock) (h : b.format_type = "MALFORMED_JSON") :
    Normalizer_normalize b = PyVal.pNone ↔
      json_loads (attempt_repair_json (pyStrip b.text)) = some PyVal.pNone := by
  rw [Normalizer_normalize, h]
  norm_num
  cases hj : json_loads (attempt_repair_json (pyStrip b.text)) with
  | none => simp [strDict]
  | some v => cases v <;> simp

/-- C8, amended, witness: the amended theorem applied to the reachable
MALFORMED_JSON fragment with text `"null"`. -/
theorem c8_amended_witness :
    (⟨"MALFORMED_JSON", 16, 20, 40, "null"⟩ : DetectedBlock).format_type =
        "MALFORMED_JSON" ∧
      (Normalizer_normalize ⟨"MALFORMED_JSON", 16, 20, 40, "null"⟩ = PyVal.pNone ↔
        json_loads (attempt_repair_json (pyStrip "null")) = some PyVal.pNone) :=
  ⟨rfl, c8_amended ⟨"MALFORMED_JSON", 16, 20, 40, "null"⟩ rfl⟩

/-- The records loop of `parse_file`, as a `filterMap` over the blocks. -/
theorem records_foldl_filterMap (l : List DetectedBlock) (acc : List PyRecord) :
    l.foldl
      (fun recs b =>
        match Normalizer_normalize b with
        | PyVal.pNone => recs
        | v => recs ++ [⟨b.format_type, b.start_index, b.end_index, v⟩]) acc =
    acc ++ l.filterMap (fun b =>
      match Normalizer_normalize b with
      | PyVal.pNone => none
      | v => some ⟨b.format_type, b.start_index, b.end_index, v⟩) := by
  induction l generalizing acc with
  | nil => simp
  | cons b bs ih =>
      rw [List.foldl_cons, List.filterMap_cons]
      cases hv : Normalizer_normalize b <;> simp [ih, hv]

/-- C4, amended: the records list contains one entry
`{format, start, end, data}` for exactly those fragments whose
normalization returned a non-null value, in fragment order — a fragment
whose normalized value is null (every RAW_TEXT fragment, for instance) is
omitted from the records list rather than reported with `data = null`. -/
theorem c4_amended_records (text : String) :
    (parse_file text).records =
      (parse_file text).fragments.filterMap (fun b =>
        match Normalizer_normalize b with
        | PyVal.pNone => none
        | v => some ⟨b.format_type, b.start_index, b.end_index, v⟩) := by
  show (run_all text).foldl _ [] = _
  rw [records_foldl_filterMap]
  rfl

/-- In a text with no `\r\n` sequence, every line terminator consumed by
`splitlinesGo` is one character wide, so the `char_pos` prefix sums
(`+ len + 1` per line) reproduce each line's true start offset. -/
theorem splitlinesGo_charPos (cs : List Char)
    (hno : ∀ k, ¬(nthChar cs k = some '\x0d' ∧ nthChar cs (k + 1) = some '\n')) :
    ∀ fuel pos acc accStart, pos = accStart + acc.length →
      ∀ i, i < (splitlinesGo cs fuel pos acc accStart).length →
        (charPosList ((splitlinesGo cs fuel pos acc accStart).map Prod.fst) accStart).get? i =
          ((splitlinesGo cs fuel pos acc accStart).map Prod.snd).get? i := by
  intro fuel
  induction fuel with
  | zero =>
      intro pos acc accStart hpos
      rw [splitlinesGo]
      split
      · intro i hi; simp at hi
      · intro i hi
        simp only [List.length_cons, List.length_nil] at hi
        have : i = 0 := by omega
        subst this
        simp [charPosList]
  | succ fuel ih =>
      intro pos acc accStart hpos
      rw [splitlinesGo]
      split
      case h_1 =>
        split
        · intro i hi; simp at hi
        · intro i hi
          simp only [List.length_cons, List.length_nil] at hi
          have : i = 0 := by omega
          subst this
          simp [charPosList]
      case h_2 c hch =>
        split
        case isTrue hcr =>
          exfalso
          simp only [Bool.and_eq_true, decide_eq_true_eq] at hcr
          exact hno pos ⟨by rw [hch, hcr.1], hcr.2⟩
        case isFalse hcr =>
          split
          case isTrue hbr =>
            intro i hi
            simp only [List.map_cons, List.length_cons] at hi ⊢
            simp only [charPosList]
            have hlen : (String.mk acc.reverse).length = acc.length := by
              simp [String.length]
            cases i with
            | zero => simp
            | succ i0 =>
                simp only [List.get?_cons_succ]
                rw [hlen, show accStart + acc.length + 1 = pos + 1 from by omega]
                exact ih (pos + 1) [] (pos + 1) (by simp) i0 (by omega)
          case isFalse hbr =>
            exact ih (pos + 1) (c :: acc) accStart (by simp only [List.length_cons]; omega)

/-- C10, amended: for every input text containing no `\r\n` sequence, the
prefix-sum table `char_pos` built by the CSV and key-value detectors maps
each line index `i` to the absolute character offset at which line `i`
starts (for two-character `\r\n` terminators it undercounts, as the
counterexample shows, and the derived block offsets shift accordingly). -/
theorem c10_amended_charpos (s : String) (hno : ¬ hasSubstr s "\x0d\n" = true) :
    ∀ i, i < (splitlinesWithPos s).length →
      (charPosList (pySplitlines s) 0).get? i = (lineStartsOf s).get? i := by
  have hnone : findSubstrFrom s.data ("\x0d\n".data) 0 = none := by
    cases hf : findSubstrFrom s.data ("\x0d\n".data) 0 with
    | none => rfl
    | some r => exact absurd (by rw [hasSubstr, hf]; rfl) hno
  have hpt : ∀ k, ¬(nthChar s.data k = some '\x0d' ∧ nthChar s.data (k + 1) = some '\n') := by
    intro k hk
    have hfalse := findSubstrFrom_none_spec s.data ("\x0d\n".data) 0 hnone k (Nat.zero_le k)
    have htrue := (matchesAt_pair '\x0d' '\n' s.data k).mpr hk
    rw [show ("\x0d\n".data) = ['\x0d', '\n'] from rfl] at hfalse
    rw [hfalse] at htrue
    exact Bool.false_ne_true htrue
  exact splitlinesGo_charPos s.data hpt (s.data.length + 1) 0 [] 0 (by simp)

/-- C10, amended, witness: the amended theorem applied to the `\n`-only
text `"a,b\nc,d"` at line index 1, where both the table entry and the true
start offset are 4. -/
theorem c10_amended_charpos_witness :
    (¬ hasSubstr "a,b\nc,d" "\x0d\n" = true) ∧
      (charPosList (pySplitlines "a,b\nc,d") 0).get? 1 = (lineStartsOf "a,b\nc,d").get? 1 :=
  ⟨by decide, c10_amended_charpos "a,b\nc,d" (by decide) 1 (by decide)⟩

/-- The raw-text parts loop only appends RAW_TEXT blocks. -/
theorem rawPartsLoop_blocks (text : String) (e : Nat) :
    ∀ (parts : List String) (pos : Nat) (st : DetState) (b : DetectedBlock),
      b ∈ (rawPartsLoop text e parts pos st).blocks →
      b ∈ st.blocks ∨ b.format_type = "RAW_TEXT" := by
  intro parts
  induction parts with
  | nil => intro pos st b hb; exact Or.inl hb
  | cons part rest ih =>
      intro pos st b hb
      rw [rawPartsLoop] at hb
      split at hb
      · exact ih _ _ b hb
      · split at hb
        · exact ih _ _ b hb
        · rcases ih _ _ b hb with h2 | h2
          · revert h2
            split
            · intro h2
              rw [add_block_blocks] at h2
              rcases List.mem_append.mp h2 with h3 | h3
              · exact Or.inl h3
              · exact Or.inr (by rw [List.mem_singleton.mp h3])
            · exact Or.inl
          · exact Or.inr h2

/-- `detect_raw_text` only appends RAW_TEXT blocks. -/
theorem detect_raw_text_blocks (text : String) (st : DetState) (b : DetectedBlock)
    (hb : b ∈ (detect_raw_text text st).blocks) :
    b ∈ st.blocks ∨ b.format_type = "RAW_TEXT" := by
  rw [detect_raw_text] at hb
  refine (foldl_pres (fun s => ∀ x ∈ s.blocks, x ∈ st.blocks ∨ x.format_type = "RAW_TEXT")
    _ _ st (fun x hx => Or.inl hx) ?_) b hb
  intro s se _ hP x hx
  dsimp only at hx
  split at hx
  · rcases rawPartsLoop_blocks text se.2 _ _ _ x hx with h2 | h2
    · exact hP x h2
    · exact Or.inr h2
  · exact hP x hx

/-- `normalize` has no branch for RAW_TEXT fragments: the result is null. -/
theorem normalize_raw (b : DetectedBlock) (h : b.format_type = "RAW_TEXT") :
    Normalizer_normalize b = PyVal.pNone := by
  rw [Normalizer_normalize, h]
  rw [if_neg (by decide), if_neg (by decide), if_neg (by decide), if_neg (by decide),
    if_neg (by decide), if_neg (by decide), if_neg (by decide)]

/-- C9, amended: on input in which none of the nine structure detectors
fires (plain prose with no recognizable structured format), every fragment
`parse_file` returns is RAW_TEXT — zero or more of them, one per
blank-line-separated paragraph of sufficiently long leftover text — and the
records list is empty. -/
theorem c9_amended (text : String) (h : detect_all_but_raw text = initState) :
    (∀ b ∈ (parse_file text).fragments, b.format_type = "RAW_TEXT") ∧
      (parse_file text).records = [] := by
  have hraw : ∀ b ∈ (detect_raw_text text (detect_all_but_raw text)).blocks,
      b.format_type = "RAW_TEXT" := by
    rw [h]
    intro b hb
    rcases detect_raw_text_blocks text initState b hb with h2 | h2
    · simp [initState] at h2
    · exact h2
  have hfrag : ∀ b ∈ (parse_file text).fragments, b.format_type = "RAW_TEXT" := by
    intro b hb
    obtain ⟨y, hy, hby⟩ :=
      mem_dedupe_prioritize
        (isortBy startLe (detect_raw_text text (detect_all_but_raw text)).blocks) b hb
    rw [mem_isortBy] at hy
    rw [hby]
    exact hraw y hy
  refine ⟨hfrag, ?_⟩
  have hrec : (parse_file text).records =
      (run_all text).filterMap (fun b =>
        match Normalizer_normalize b with
        | PyVal.pNone => none
        | v => some ⟨b.format_type, b.start_index, b.end_index, v⟩) :=
    (records_foldl_filterMap (run_all text) []).trans (List.nil_append _)
  rw [hrec, List.filterMap_eq_nil_iff]
  intro b hb
  rw [normalize_raw b (hfrag b hb)]

/-- C9, amended, witness: single-paragraph prose on which no structure
detector fires; the theorem applies with the hypothesis discharged by
evaluation. -/
theorem c9_amended_witness :
    detect_all_but_raw "Some plain prose words only here today." = initState ∧
      ((∀ b ∈ (parse_file "Some plain prose words only here today.").fragments,
          b.format_type = "RAW_TEXT") ∧
        (parse_file "Some plain prose words only here today.").records = []) :=
  ⟨by rfl, c9_amended "Some plain prose words only here today." (by rfl)⟩
/-- A character successfully read lies inside the list. -/
theorem nthChar_some_lt (cs : List Char) (i : Nat) (c : Char)
    (h : nthChar cs i = some c) : i < cs.length := by
  rw [nthChar] at h
  by_contra hge
  push_neg at hge
  rw [List.get?_eq_none.mpr hge] at h
  exact absurd h (by simp)

/-- The run end is at or after its start. -/
theorem runEnd_ge (cs : List Char) (p : Char → Bool) (j : Nat) : j ≤ runEnd cs p j :=
  Nat.le_add_right j _

/-- Bounds of the case-insensitive search wrapper. -/
theorem findSubstrCIFrom_some_spec (cs pat : List Char) (i r : Nat)
    (h : findSubstrCIFrom cs pat i = some r) : i ≤ r ∧ r + pat.length ≤ cs.length :=
  findSubstrCIAux_some_spec cs pat (cs.length + 1) i r h

/-- A hit of `lastCharIn` is at or after the lower bound and reads the
searched character. -/
theorem lastCharIn_some_spec (cs : List Char) (c : Char) (a b k : Nat)
    (h : lastCharIn cs c a b = some k) : a ≤ k ∧ nthChar cs k = some c := by
  have hfold : ∀ (l : List Nat) (acc : Option Nat),
      (∀ k2, acc = some k2 → a ≤ k2 ∧ nthChar cs k2 = some c) →
      ∀ k2, l.foldl
          (fun acc d => if nthChar cs (a + d) = some c then some (a + d) else acc) acc =
          some k2 →
        a ≤ k2 ∧ nthChar cs k2 = some c := by
    intro l
    induction l with
    | nil => intro acc hacc k2 hk; exact hacc k2 hk
    | cons d ds ih =>
        intro acc hacc k2 hk
        refine ih _ ?_ k2 hk
        intro k3 hk3
        have hk4 : (if nthChar cs (a + d) = some c then some (a + d) else acc) = some k3 := hk3
        by_cases hc2 : nthChar cs (a + d) = some c
        · rw [if_pos hc2] at hk4
          injection hk4 with h3
          exact h3 ▸ ⟨Nat.le_add_right a d, hc2⟩
        · rw [if_neg hc2] at hk4
          exact hacc k3 hk4
  exact hfold (List.range (b - a)) none (by intro k2 hk2; cases hk2) k h

/-- Extraction from a successful `findSome?`. -/
theorem exists_of_findSome {α β : Type} (f : α → Option β) (b : β) :
    ∀ l : List α, l.findSome? f = some b → ∃ a ∈ l, f a = some b := by
  intro l
  induction l with
  | nil => intro h; simp [List.findSome?] at h
  | cons x xs ih =>
      intro h
      rw [List.findSome?_cons] at h
      split at h
      · rename_i c heq
        exact ⟨x, List.mem_cons_self x xs, by rw [heq, h]⟩
      · obtain ⟨a, ha, hfa⟩ := ih h
        exact ⟨a, List.mem_cons_of_mem x ha, hfa⟩

/-- Length bound of a slice measured from its start. -/
theorem listSlice_length_le (cs : List Char) (a b : Nat) :
    (listSlice cs a b).length ≤ cs.length - a := by
  simp only [listSlice, List.length_take, List.length_drop]
  omega
/-- Every JSON-LD content span is ordered and ends inside the text. -/
theorem jsonLdMatchesAux_bounds (cs : List Char) :
    ∀ fuel j, ∀ se ∈ jsonLdMatchesAux cs j fuel, se.1 ≤ se.2 ∧ se.2 ≤ cs.length := by
  intro fuel
  induction fuel with
  | zero => intro j se hse; simp [jsonLdMatchesAux] at hse
  | succ fuel ih =>
      intro j se hse
      rw [jsonLdMatchesAux] at hse
      split at hse
      case isTrue hj =>
        split at hse
        case h_1 cstart hms =>
          split at hse
          case h_1 k hk =>
            rcases List.mem_cons.mp hse with h | h
            · obtain ⟨h1, h2⟩ := findSubstrCIFrom_some_spec cs ("</script>".data) cstart k hk
              have h9 : ("</script>".data).length = 9 := rfl
              rw [h]
              refine ⟨h1, ?_⟩
              show k ≤ cs.length
              omega
            · exact ih _ se h
          case h_2 => exact ih _ se hse
        case h_2 => exact ih _ se hse
      case isFalse => simp at hse

/-- Every YAML body span is ordered and ends inside the text. -/
theorem yamlMatchesAux_bounds (cs : List Char) :
    ∀ fuel t, ∀ se ∈ yamlMatchesAux cs t fuel, se.1 ≤ se.2 ∧ se.2 ≤ cs.length := by
  intro fuel
  induction fuel with
  | zero => intro t se hse; simp [yamlMatchesAux] at hse
  | succ fuel ih =>
      intro t se hse
      simp only [yamlMatchesAux] at hse
      split at hse
      case isTrue ht =>
        split at hse
        case isTrue hcond =>
          split at hse
          case h_1 w hw =>
            split at hse
            case h_1 q hq =>
              split at hse
              case isTrue hle =>
                rcases List.mem_cons.mp hse with h | h
                · obtain ⟨h1, h2, _, _⟩ :=
                    findSubstrFrom_some_spec cs (['\n', '-', '-', '-']) (w + 1) q hq
                  have h4 : (['\n', '-', '-', '-'] : List Char).length = 4 := rfl
                  rw [h]
                  refine ⟨h1, ?_⟩
                  show q ≤ cs.length
                  omega
                · exact ih _ se h
              case isFalse => exact ih _ se hse
            case h_2 => exact ih _ se hse
          case h_2 => exact ih _ se hse
        case isFalse => exact ih _ se hse
      case isFalse => simp at hse

/-- Every section-header match end lies inside the text. -/
theorem sectionMatchesAux_bounds (cs : List Char) :
    ∀ fuel t, ∀ m ∈ sectionMatchesAux cs t fuel, m.2.2 ≤ cs.length := by
  intro fuel
  induction fuel with
  | zero => intro t m hm; simp [sectionMatchesAux] at hm
  | succ fuel ih =>
      intro t m hm
      simp only [sectionMatchesAux] at hm
      split at hm
      case isTrue ht =>
        split at hm
        case isTrue hcond =>
          split at hm
          case isTrue hab =>
            split at hm
            case h_1 w hw =>
              rcases List.mem_cons.mp hm with h | h
              · obtain ⟨_, hwc⟩ := lastCharIn_some_spec cs '\n' _ _ w hw
                have hlt := nthChar_some_lt cs w '\n' hwc
                rw [h]
                show w + 1 ≤ cs.length
                omega
              · exact ih _ m h
            case h_2 => exact ih _ m hm
          case isFalse => exact ih _ m hm
        case isFalse => exact ih _ m hm
      case isFalse => simp at hm

/-- A hit of the next-divider search is at or after the scan start and
inside the text. -/
theorem nextDividerFindAux_spec (cs : List Char) :
    ∀ fuel u r, nextDividerFindAux cs u fuel = some r → u ≤ r ∧ r < cs.length := by
  intro fuel
  induction fuel with
  | zero => intro u r h; simp [nextDividerFindAux] at h
  | succ fuel ih =>
      intro u r h
      simp only [nextDividerFindAux] at h
      split at h
      case isTrue hu =>
        split at h
        case isTrue hnl =>
          split at h
          case isTrue hok =>
            injection h with h2
            exact ⟨Nat.le_of_eq h2, h2 ▸ hu⟩
          case isFalse =>
            obtain ⟨h1, h2⟩ := ih _ r h
            exact ⟨by omega, h2⟩
        case isFalse =>
          obtain ⟨h1, h2⟩ := ih _ r h
          exact ⟨by omega, h2⟩
      case isFalse => exact absurd h (by simp)

/-- A hit of the close-table search is after the scan start and ends
inside the text. -/
theorem closeTableFindAux_spec (cs : List Char) :
    ∀ fuel k r, closeTableFindAux cs k fuel = some r → k ≤ r ∧ r ≤ cs.length := by
  intro fuel
  induction fuel with
  | zero => intro k r h; simp [closeTableFindAux] at h
  | succ fuel ih =>
      intro k r h
      simp only [closeTableFindAux] at h
      split at h
      case isTrue hk =>
        split at h
        case isTrue hmt =>
          split at h
          case isTrue hgt =>
            injection h with h2
            have hw := runEnd_ge cs isPyWs (k + 7)
            have hlt := nthChar_some_lt cs _ '>' hgt
            omega
          case isFalse =>
            obtain ⟨h1, h2⟩ := ih _ r h
            exact ⟨by omega, h2⟩
        case isFalse =>
          obtain ⟨h1, h2⟩ := ih _ r h
          exact ⟨by omega, h2⟩
      case isFalse => exact absurd h (by simp)

/-- A hit of the close-tag search ends inside the text. -/
theorem closeTagFindAux_spec (cs tag : List Char) :
    ∀ fuel k r, closeTagFindAux cs tag k fuel = some r → r ≤ cs.length := by
  intro fuel
  induction fuel with
  | zero => intro k r h; simp [closeTagFindAux] at h
  | succ fuel ih =>
      intro k r h
      simp only [closeTagFindAux] at h
      split at h
      case isTrue hk =>
        split at h
        case isTrue hmt =>
          split at h
          case isTrue hgt =>
            injection h with h2
            have hlt := nthChar_some_lt cs _ '>' hgt
            omega
          case isFalse => exact ih _ r h
        case isFalse => exact ih _ r h
      case isFalse => exact absurd h (by simp)

/-- A blank-line match starts at or after the scan start, inside the
text. -/
theorem findBlankMatchAux_spec (cs : List Char) :
    ∀ fuel i ms me, findBlankMatchAux cs i fuel = some (ms, me) →
      i ≤ ms ∧ ms < cs.length := by
  intro fuel
  induction fuel with
  | zero => intro i ms me h; simp [findBlankMatchAux] at h
  | succ fuel ih =>
      intro i ms me h
      simp only [findBlankMatchAux] at h
      split at h
      case isTrue hi =>
        split at h
        case isTrue hn =>
          split at h
          case h_1 k hk =>
            injection h with h2
            injection h2 with ha hb
            exact ⟨Nat.le_of_eq ha, ha ▸ hi⟩
          case h_2 =>
            obtain ⟨h1, h2⟩ := ih _ ms me h
            exact ⟨by omega, h2⟩
        case isFalse =>
          obtain ⟨h1, h2⟩ := ih _ ms me h
          exact ⟨by omega, h2⟩
      case isFalse => exact absurd h (by simp)
/-- A successful JS-object opening places its brace at or after the match
start. -/
theorem jsOpenAt_le (cs : List Char) (p : Nat) (pr : Nat × Nat)
    (h : jsOpenAt cs p = some pr) : p ≤ pr.2 := by
  simp only [jsOpenAt] at h
  split at h
  case h_1 => exact absurd h (by simp)
  case h_2 ke hke =>
    split at h
    case isTrue hb =>
      split at h
      case isTrue hkq =>
        split at h
        case isTrue hqr =>
          split at h
          case isTrue heq =>
            split at h
            case isTrue hbr =>
              injection h with h2
              have hk3 : p ≤ ke := by
                split at hke
                · injection hke with h3; omega
                · split at hke
                  · injection hke with h3; omega
                  · split at hke
                    · injection hke with h3; omega
                    · exact absurd hke (by simp)
              have g1 := runEnd_ge cs isPyWs ke
              have g2 := runEnd_ge cs isJsNameChar (runEnd cs isPyWs ke)
              have g3 := runEnd_ge cs isPyWs (runEnd cs isJsNameChar (runEnd cs isPyWs ke))
              have g4 := runEnd_ge cs isPyWs
                (runEnd cs isPyWs (runEnd cs isJsNameChar (runEnd cs isPyWs ke)) + 1)
              rw [← h2]
              show p ≤ runEnd cs isPyWs
                (runEnd cs isPyWs (runEnd cs isJsNameChar (runEnd cs isPyWs ke)) + 1)
              omega
            case isFalse => exact absurd h (by simp)
          case isFalse => exact absurd h (by simp)
        case isFalse => exact absurd h (by simp)
      case isFalse => exact absurd h (by simp)
    case isFalse => exact absurd h (by simp)

/-- Every JS-object match is ordered (start at or before the brace). -/
theorem jsMatchesAux_bounds (cs : List Char) :
    ∀ fuel p, ∀ m ∈ jsMatchesAux cs p fuel, m.1 ≤ m.2 := by
  intro fuel
  induction fuel with
  | zero => intro p m hm; simp [jsMatchesAux] at hm
  | succ fuel ih =>
      intro p m hm
      rw [jsMatchesAux] at hm
      split at hm
      case isTrue hp =>
        split at hm
        case h_1 mEnd bracePos hj =>
          rcases List.mem_cons.mp hm with h | h
          · have := jsOpenAt_le cs p (mEnd, bracePos) hj
            rw [h]
            exact this
          · exact ih _ m h
        case h_2 => exact ih _ m hm
      case isFalse => simp at hm

/-- A keyword hit of the SQL alternation ends at or after its start. -/
theorem sqlKeywordAt_spec (cs : List Char) (u ke : Nat)
    (h : sqlKeywordAt cs u = some ke) : u ≤ ke := by
  obtain ⟨kw, _, hkw⟩ := exists_of_findSome _ ke _ h
  split at hkw
  · injection hkw with h2
    omega
  · exact absurd hkw (by simp)

/-- A full SQL match is ordered and ends inside the text. -/
theorem sqlMatchAt_spec (cs : List Char) (p mEnd : Nat)
    (h : sqlMatchAt cs p = some mEnd) : p ≤ mEnd ∧ mEnd ≤ cs.length := by
  simp only [sqlMatchAt] at h
  split at h
  case h_1 ke hke =>
    have hpk := sqlKeywordAt_spec cs p ke hke
    split at h
    case h_1 q hq =>
      obtain ⟨h1, h2, _, _⟩ := findSubstrFrom_some_spec cs ([';']) ke q hq
      have hl : ([';'] : List Char).length = 1 := rfl
      split at h
      · injection h with h2b
        omega
      · exact absurd h (by simp)
    case h_2 => exact absurd h (by simp)
  case h_2 hke =>
    split at h
    case isTrue hdash =>
      split at h
      case h_1 d hd =>
        obtain ⟨hd1, hd2, _, _⟩ := findSubstrFrom_some_spec cs (['\n']) (p + 2) d hd
        split at h
        case h_1 ke2 hke2 =>
          have hu := runEnd_ge cs isPyWs (d + 1)
          have huk := sqlKeywordAt_spec cs _ ke2 hke2
          split at h
          case h_1 q hq =>
            obtain ⟨h1, h2, _, _⟩ := findSubstrFrom_some_spec cs ([';']) ke2 q hq
            have hl : ([';'] : List Char).length = 1 := rfl
            split at h
            · injection h with h2b
              omega
            · exact absurd h (by simp)
          case h_2 => exact absurd h (by simp)
        case h_2 => exact absurd h (by simp)
      case h_2 => exact absurd h (by simp)
    case isFalse => exact absurd h (by simp)

/-- Every SQL match is ordered and ends inside the text. -/
theorem sqlMatchesAux_bounds (cs : List Char) :
    ∀ fuel p, ∀ m ∈ sqlMatchesAux cs p fuel, m.1 ≤ m.2 ∧ m.2 ≤ cs.length := by
  intro fuel
  induction fuel with
  | zero => intro p m hm; simp [sqlMatchesAux] at hm
  | succ fuel ih =>
      intro p m hm
      rw [sqlMatchesAux] at hm
      split at hm
      case isTrue hp =>
        split at hm
        case h_1 mEnd hmt =>
          rcases List.mem_cons.mp hm with h | h
          · obtain ⟨h1, h2⟩ := sqlMatchAt_spec cs p mEnd hmt
            rw [h]
            exact ⟨h1, h2⟩
          · exact ih _ m h
        case h_2 => exact ih _ m hm
      case isFalse => simp at hm
/-- The prefix-sum table starts at or above its base at every index. -/
theorem charPosList_base_le :
    ∀ (lines : List String) (b k : Nat), k ≤ lines.length →
      b ≤ (charPosList lines b).getD k 0 := by
  intro lines
  induction lines with
  | nil =>
      intro b k hk
      have hk0 : k = 0 := by simpa using hk
      subst hk0
      simp [charPosList]
  | cons l ls ih =>
      intro b k hk
      cases k with
      | zero => simp [charPosList]
      | succ k0 =>
          simp only [charPosList, List.getD_cons_succ]
          have := ih (b + l.length + 1) k0 (by simpa using hk)
          omega

/-- The prefix-sum table is pointwise monotone in its base. -/
theorem charPosList_base_mono :
    ∀ (lines : List String) (b1 b2 : Nat), b1 ≤ b2 → ∀ i,
      (charPosList lines b1).getD i 0 ≤ (charPosList lines b2).getD i 0 := by
  intro lines
  induction lines with
  | nil =>
      intro b1 b2 hb i
      cases i with
      | zero => simpa [charPosList]
      | succ i0 => simp [charPosList]
  | cons l ls ih =>
      intro b1 b2 hb i
      cases i with
      | zero => simpa [charPosList]
      | succ i0 =>
          simp only [charPosList, List.getD_cons_succ]
          exact ih (b1 + l.length + 1) (b2 + l.length + 1) (by omega) i0

/-- The prefix-sum table is monotone in the line index (inside range). -/
theorem charPosList_index_mono :
    ∀ (lines : List String) (b i k : Nat), i ≤ k → k ≤ lines.length →
      (charPosList lines b).getD i 0 ≤ (charPosList lines b).getD k 0 := by
  intro lines
  induction lines with
  | nil =>
      intro b i k hik hk
      have hk0 : k = 0 := by simpa using hk
      subst hk0
      have hi0 : i = 0 := by omega
      subst hi0
      exact Nat.le_refl _
  | cons l ls ih =>
      intro b i k hik hk
      cases k with
      | zero =>
          have hi0 : i = 0 := by omega
          subst hi0
          exact Nat.le_refl _
      | succ k0 =>
          cases i with
          | zero =>
              simp only [charPosList, List.getD_cons_zero, List.getD_cons_succ]
              exact Nat.le_trans (by omega)
                (charPosList_base_le ls (b + l.length + 1) k0 (by simpa using hk))
          | succ i0 =>
              simp only [charPosList, List.getD_cons_succ]
              exact ih (b + l.length + 1) i0 k0 (by omega) (by simpa using hk)

/-- Along the splitlines worker, the prefix-sum table entry of a line plus
that line's length never passes the end of the text (the table may
undercount the true offsets — `\r\n` — but never overcounts). -/
theorem splitlinesGo_pos_len_le (cs : List Char) :
    ∀ fuel pos acc accStart, pos = accStart + acc.length → pos ≤ cs.length →
      ∀ i, i < (splitlinesGo cs fuel pos acc accStart).length →
        (charPosList ((splitlinesGo cs fuel pos acc accStart).map Prod.fst) accStart).getD i 0 +
          (((splitlinesGo cs fuel pos acc accStart).map Prod.fst).getD i "").length ≤
          cs.length := by
  intro fuel
  induction fuel with
  | zero =>
      intro pos acc accStart hpos hle
      rw [splitlinesGo]
      split
      · intro i hi; simp at hi
      · intro i hi
        simp only [List.length_cons, List.length_nil] at hi
        have hi0 : i = 0 := by omega
        subst hi0
        simp only [List.map_cons, List.map_nil, charPosList, List.getD_cons_zero]
        have hlen : (String.mk acc.reverse).length = acc.length := by simp [String.length]
        rw [hlen]
        omega
  | succ fuel ih =>
      intro pos acc accStart hpos hle
      rw [splitlinesGo]
      split
      case h_1 =>
        split
        · intro i hi; simp at hi
        · intro i hi
          simp only [List.length_cons, List.length_nil] at hi
          have hi0 : i = 0 := by omega
          subst hi0
          simp only [List.map_cons, List.map_nil, charPosList, List.getD_cons_zero]
          have hlen : (String.mk acc.reverse).length = acc.length := by simp [String.length]
          rw [hlen]
          omega
      case h_2 c hch =>
        have hposlt : pos < cs.length := nthChar_some_lt cs pos c hch
        split
        case isTrue hcr =>
          simp only [Bool.and_eq_true, decide_eq_true_eq] at hcr
          have hpos2 : pos + 2 ≤ cs.length := by
            have := nthChar_some_lt cs (pos + 1) '\n' hcr.2
            omega
          intro i hi
          simp only [List.map_cons, List.length_cons] at hi ⊢
          simp only [charPosList]
          have hlen : (String.mk acc.reverse).length = acc.length := by simp [String.length]
          cases i with
          | zero =>
              simp only [List.getD_cons_zero]
              rw [hlen]
              omega
          | succ i0 =>
              simp only [List.getD_cons_succ]
              have hbase : accStart + (String.mk acc.reverse).length + 1 = pos + 1 := by
                rw [hlen]; omega
              rw [hbase]
              have hih := ih (pos + 2) [] (pos + 2) (by simp) hpos2 i0 (by omega)
              have hmono := charPosList_base_mono
                ((splitlinesGo cs fuel (pos + 2) [] (pos + 2)).map Prod.fst)
                (pos + 1) (pos + 2) (by omega) i0
              omega
        case isFalse hcr =>
          split
          case isTrue hbr =>
            intro i hi
            simp only [List.map_cons, List.length_cons] at hi ⊢
            simp only [charPosList]
            have hlen : (String.mk acc.reverse).length = acc.length := by simp [String.length]
            cases i with
            | zero =>
                simp only [List.getD_cons_zero]
                rw [hlen]
                omega
            | succ i0 =>
                simp only [List.getD_cons_succ]
                have hbase : accStart + (String.mk acc.reverse).length + 1 = pos + 1 := by
                  rw [hlen]; omega
                rw [hbase]
                exact ih (pos + 1) [] (pos + 1) (by simp) (by omega) i0 (by omega)
          case isFalse hbr =>
            exact ih (pos + 1) (c :: acc) accStart
              (by simp only [List.length_cons]; omega) (by omega)

/-- Text-level corollary: each `char_pos` entry plus that line's length
stays within the text. -/
theorem charPos_line_le (text : String) :
    ∀ i, i < (pySplitlines text).length →
      (charPosList (pySplitlines text) 0).getD i 0 +
        ((pySplitlines text).getD i "").length ≤ text.length := by
  intro i hi
  rw [pySplitlines, splitlinesWithPos] at hi ⊢
  rw [List.length_map] at hi
  exact splitlinesGo_pos_len_le text.data (text.data.length + 1) 0 [] 0 (by simp)
    (Nat.zero_le _) i hi

/-- The CSV inner collector only advances the stop index, staying within
the line count. -/
theorem csvCollect_spec (lines : List String) (cand : Char) (i : Nat) :
    ∀ fuel j acc, j ≤ lines.length →
      j ≤ (csvCollect lines cand i j fuel acc).2 ∧
        (csvCollect lines cand i j fuel acc).2 ≤ lines.length := by
  intro fuel
  induction fuel with
  | zero => intro j acc hj; exact ⟨Nat.le_refl j, hj⟩
  | succ fuel ih =>
      intro j acc hj
      simp only [csvCollect]
      split
      case isTrue hcond =>
        simp only [Bool.and_eq_true, decide_eq_true_eq] at hcond
        split
        case isTrue hline =>
          obtain ⟨h1, h2⟩ := ih (j + 1) _ (by omega)
          exact ⟨by omega, h2⟩
        case isFalse => exact ⟨Nat.le_refl j, hj⟩
      case isFalse => exact ⟨Nat.le_refl j, hj⟩

/-- The key-value inner collector only advances the stop index, staying
within the line count, and advances at least as much as it counts. -/
theorem kvCollect_spec (lines : List String) :
    ∀ fuel j cnt, j ≤ lines.length →
      j ≤ (kvCollect lines j cnt fuel).2 ∧ (kvCollect lines j cnt fuel).2 ≤ lines.length ∧
        (kvCollect lines j cnt fuel).1 + j ≤ cnt + (kvCollect lines j cnt fuel).2 := by
  intro fuel
  induction fuel with
  | zero =>
      intro j cnt hj
      simp only [kvCollect]
      exact ⟨Nat.le_refl j, hj, by omega⟩
  | succ fuel ih =>
      intro j cnt hj
      simp only [kvCollect]
      split
      case isTrue hcond =>
        simp only [Bool.and_eq_true, decide_eq_true_eq] at hcond
        obtain ⟨h1, h2, h3⟩ := ih (j + 1) (cnt + 1) (by omega)
        exact ⟨by omega, h2, by omega⟩
      case isFalse => exact ⟨Nat.le_refl j, hj, by omega⟩
/-- Well-formedness is preserved by `add_block` when the added block is
itself well-formed. -/
theorem add_block_wf (text : String) (st : DetState) (blk : DetectedBlock)
    (hst : ∀ x ∈ st.blocks, BlockWF text x)
    (h1 : blk.start_index ≤ blk.end_index) (h2 : blk.end_index ≤ text.length)
    (h3 : blk.text = pySlice text blk.start_index blk.end_index) :
    ∀ b ∈ (add_block st blk).blocks, BlockWF text b := by
  intro b hb
  rw [add_block_blocks] at hb
  rcases List.mem_append.mp hb with h | h
  · exact hst b h
  · rw [List.mem_singleton.mp h]
    exact ⟨h1, h2, h3⟩

/-- Every block added by `detect_json_ld` is well-formed. -/
theorem detect_json_ld_wf (text : String) (st : DetState)
    (h : ∀ b ∈ st.blocks, BlockWF text b) :
    ∀ b ∈ (detect_json_ld text st).blocks, BlockWF text b := by
  rw [detect_json_ld]
  refine foldl_pres (fun s => ∀ b ∈ s.blocks, BlockWF text b) _ _ st h ?_
  intro s se hse hP b hb
  simp only [] at hb
  obtain ⟨h1, h2⟩ := jsonLdMatchesAux_bounds text.data (text.data.length + 1) 0 se hse
  exact add_block_wf text s _ hP h1 h2 rfl b hb

/-- Every block added by `detect_yaml_frontmatter` is well-formed. -/
theorem detect_yaml_frontmatter_wf (text : String) (st : DetState)
    (h : ∀ b ∈ st.blocks, BlockWF text b) :
    ∀ b ∈ (detect_yaml_frontmatter text st).blocks, BlockWF text b := by
  rw [detect_yaml_frontmatter]
  refine foldl_pres (fun s => ∀ b ∈ s.blocks, BlockWF text b) _ _ st h ?_
  intro s se hse hP b hb
  simp only [] at hb
  split at hb
  case isTrue =>
    obtain ⟨h1, h2⟩ := yamlMatchesAux_bounds text.data (text.data.length + 1) 0 se hse
    exact add_block_wf text s _ hP h1 h2 rfl b hb
  case isFalse => exact hP b hb

/-- Every block added by `detect_sql` is well-formed. -/
theorem detect_sql_wf (text : String) (st : DetState)
    (h : ∀ b ∈ st.blocks, BlockWF text b) :
    ∀ b ∈ (detect_sql text st).blocks, BlockWF text b := by
  rw [detect_sql]
  refine foldl_pres (fun s => ∀ b ∈ s.blocks, BlockWF text b) _ _ st h ?_
  intro s m hm hP b hb
  simp only [] at hb
  split at hb
  case isTrue =>
    obtain ⟨h1, h2⟩ := sqlMatchesAux_bounds text.data (text.data.length + 1) 0 m hm
    exact add_block_wf text s _ hP h1 h2 rfl b hb
  case isFalse => exact hP b hb

/-- Every block added by `detect_js_objects` is well-formed. -/
theorem detect_js_objects_wf (text : String) (st : DetState)
    (h : ∀ b ∈ st.blocks, BlockWF text b) :
    ∀ b ∈ (detect_js_objects text st).blocks, BlockWF text b := by
  rw [detect_js_objects]
  refine foldl_pres (fun s => ∀ b ∈ s.blocks, BlockWF text b) _ _ st h ?_
  intro s m hm hP b hb
  simp only [] at hb
  split at hb
  case isTrue => exact hP b hb
  case isFalse =>
    split at hb
    case h_1 s0 e hspan =>
      split at hb
      case isTrue =>
        have hm12 := jsMatchesAux_bounds text.data (text.data.length + 1) 0 m hm
        obtain ⟨hs1, hs2, hs3, _, _, _, _⟩ :=
          find_json_span_some_spec text m.2 200000 s0 e hspan
        exact add_block_wf text s _ hP (by show m.1 ≤ e; omega) hs3 rfl b hb
      case isFalse => exact hP b hb
    case h_2 => exact hP b hb
/-- Every block added by `detect_sectioned_jsons` is well-formed. -/
theorem detect_sectioned_jsons_wf (text : String) (st : DetState)
    (h : ∀ b ∈ st.blocks, BlockWF text b) :
    ∀ b ∈ (detect_sectioned_jsons text st).blocks, BlockWF text b := by
  rw [detect_sectioned_jsons]
  simp only []
  refine foldl_pres (fun s => ∀ b ∈ s.blocks, BlockWF text b) _ _ st h ?_
  intro s m hm hP b hb
  simp only [] at hb
  have hbound := sectionMatchesAux_bounds text.data (text.data.length + 1) 0 m hm
  have hlen : text.length = text.data.length := rfl
  cases hnd : nextDividerFind text.data m.2.2 with
  | some u =>
      rw [hnd] at hb
      simp only [] at hb
      obtain ⟨hu1, hu2⟩ := nextDividerFindAux_spec text.data (text.data.length + 1) m.2.2 u hnd
      split at hb
      case isTrue => exact hP b hb
      case isFalse =>
        split at hb
        case isTrue =>
          split at hb
          case h_1 s0 e hspan =>
            obtain ⟨_, hs2, hs3, _, _, _, _⟩ :=
              find_json_span_some_spec text m.2.2 200000 s0 e hspan
            split at hb
            case h_1 =>
              exact add_block_wf text s _ hP (by show s0 ≤ e; omega) hs3 rfl b hb
            case h_2 =>
              exact add_block_wf text s _ hP (by show s0 ≤ e; omega) hs3 rfl b hb
          case h_2 =>
            split at hb
            case isTrue =>
              exact add_block_wf text s _ hP (by show m.2.2 ≤ u; omega)
                (by show u ≤ text.length; omega) rfl b hb
            case isFalse => exact hP b hb
        case isFalse => exact hP b hb
  | none =>
      rw [hnd] at hb
      simp only [] at hb
      split at hb
      case isTrue => exact hP b hb
      case isFalse =>
        split at hb
        case isTrue =>
          split at hb
          case h_1 s0 e hspan =>
            obtain ⟨_, hs2, hs3, _, _, _, _⟩ :=
              find_json_span_some_spec text m.2.2 200000 s0 e hspan
            split at hb
            case h_1 =>
              exact add_block_wf text s _ hP (by show s0 ≤ e; omega) hs3 rfl b hb
            case h_2 =>
              exact add_block_wf text s _ hP (by show s0 ≤ e; omega) hs3 rfl b hb
          case h_2 =>
            split at hb
            case isTrue =>
              exact add_block_wf text s _ hP (by show m.2.2 ≤ text.data.length; omega)
                (by show text.data.length ≤ text.length; omega) rfl b hb
            case isFalse => exact hP b hb
        case isFalse => exact hP b hb

/-- Every block added by `detect_html_tables_and_blocks` is well-formed. -/
theorem detect_html_tables_and_blocks_wf (text : String) (st : DetState)
    (h : ∀ b ∈ st.blocks, BlockWF text b) :
    ∀ b ∈ (detect_html_tables_and_blocks text st).blocks, BlockWF text b := by
  rw [detect_html_tables_and_blocks]
  simp only []
  refine foldl_pres (fun s => ∀ b ∈ s.blocks, BlockWF text b) _ _ _ ?_ ?_
  · refine foldl_pres (fun s => ∀ b ∈ s.blocks, BlockWF text b) _ _ st h ?_
    intro s start hstart hP b hb
    simp only [] at hb
    split at hb
    case isTrue => exact hP b hb
    case isFalse =>
      split at hb
      case h_1 => exact hP b hb
      case h_2 endPos hclose =>
        split at hb
        case isTrue =>
          obtain ⟨hc1, hc2⟩ :=
            closeTableFindAux_spec text.data (text.data.length + 1) start endPos hclose
          have hlen : text.length = text.data.length := rfl
          exact add_block_wf text s _ hP (by show start ≤ endPos; omega)
            (by show endPos ≤ text.length; omega) rfl b hb
        case isFalse => exact hP b hb
  · intro s m hm hP b hb
    simp only [] at hb
    split at hb
    case isTrue => exact hP b hb
    case isFalse =>
      split at hb
      case h_1 => exact hP b hb
      case h_2 endPos hclose =>
        split at hb
        case isTrue hcond =>
          simp only [Bool.and_eq_true, decide_eq_true_eq] at hcond
          have hc2 :=
            closeTagFindAux_spec text.data m.2.data (text.data.length + 1) m.1 endPos hclose
          have hlen : text.length = text.data.length := rfl
          exact add_block_wf text s _ hP (by show m.1 ≤ endPos; omega)
            (by show endPos ≤ text.length; omega) rfl b hb
        case isFalse => exact hP b hb
/-- Every block added along the `detect_jsons_global` scan loop is
well-formed. -/
theorem detect_jsons_global_loop_wf (text : String) :
    ∀ fuel i st, (∀ b ∈ st.blocks, BlockWF text b) →
      ∀ b ∈ (detect_jsons_global_loop text fuel i st).blocks, BlockWF text b := by
  intro fuel
  induction fuel with
  | zero => intro i st hst b hb; exact hst b hb
  | succ fuel ih =>
      intro i st hst b hb
      rw [detect_jsons_global_loop] at hb
      simp only [] at hb
      split at hb
      case h_1 => exact hst b hb
      case h_2 pos hpos =>
        split at hb
        case isTrue => exact ih _ _ hst b hb
        case isFalse =>
          split at hb
          case h_1 s0 e hspan =>
            obtain ⟨_, hs2, hs3, _, _, _, _⟩ :=
              find_json_span_some_spec text pos 200000 s0 e hspan
            split at hb
            case isTrue => exact ih _ _ hst b hb
            case isFalse =>
              split at hb
              case h_1 v hv =>
                exact ih _ _
                  (add_block_wf text st _ hst (by show s0 ≤ e; omega) hs3 rfl) b hb
              case h_2 =>
                exact ih _ _
                  (add_block_wf text st _ hst (by show s0 ≤ e; omega) hs3 rfl) b hb
          case h_2 hspan =>
            obtain ⟨hp1, hp2, _, _⟩ := findSubstrFrom_some_spec text.data ([braceL]) i pos hpos
            have hl1 : ([braceL] : List Char).length = 1 := rfl
            have hlen : text.length = text.data.length := rfl
            cases hbm : findBlankMatch
                (listSlice text.data pos (min text.data.length (pos + 2000))) 0 with
            | some r =>
                obtain ⟨ms, me⟩ := r
                rw [hbm] at hb
                simp only [] at hb
                obtain ⟨hm1, hm2⟩ := findBlankMatchAux_spec _ _ 0 ms me hbm
                have hrem :=
                  listSlice_length_le text.data pos (min text.data.length (pos + 2000))
                refine ih _ _ ?_ b hb
                intro b2 hb2
                split at hb2
                case isTrue =>
                  split at hb2
                  case isTrue =>
                    exact add_block_wf text st _ hst (by show pos ≤ pos + ms; omega)
                      (by show pos + ms ≤ text.length; omega) rfl b2 hb2
                  case isFalse => exact hst b2 hb2
                case isFalse => exact hst b2 hb2
            | none =>
                rw [hbm] at hb
                simp only [] at hb
                refine ih _ _ ?_ b hb
                intro b2 hb2
                split at hb2
                case isTrue =>
                  split at hb2
                  case isTrue =>
                    exact add_block_wf text st _ hst
                      (by show pos ≤ min text.data.length (pos + 2000); omega)
                      (by show min text.data.length (pos + 2000) ≤ text.length; omega)
                      rfl b2 hb2
                  case isFalse => exact hst b2 hb2
                case isFalse => exact hst b2 hb2

/-- Every block added by `detect_jsons_global` is well-formed. -/
theorem detect_jsons_global_wf (text : String) (st : DetState)
    (h : ∀ b ∈ st.blocks, BlockWF text b) :
    ∀ b ∈ (detect_jsons_global text st).blocks, BlockWF text b :=
  detect_jsons_global_loop_wf text (text.length + 2) 0 st h
/-- Every block added along the `detect_csv_blocks` outer loop is
well-formed, given a `char_pos` table consistent with the line list. -/
theorem detect_csv_loop_wf (text : String) (lines : List String) (charPos : List Nat)
    (hcp : charPos = charPosList lines 0)
    (hline : ∀ i2, i2 < lines.length →
      charPos.getD i2 0 + (lines.getD i2 "").length ≤ text.length) :
    ∀ fuel i st, (∀ b ∈ st.blocks, BlockWF text b) →
      ∀ b ∈ (detect_csv_loop text lines charPos fuel i st).blocks, BlockWF text b := by
  intro fuel
  induction fuel with
  | zero => intro i st hst b hb; exact hst b hb
  | succ fuel ih =>
      intro i st hst b hb
      rw [detect_csv_loop] at hb
      simp only [] at hb
      split at hb
      case isTrue hi =>
        split at hb
        case isTrue => exact ih _ _ hst b hb
        case isFalse =>
          split at hb
          case h_1 => exact ih _ _ hst b hb
          case h_2 cand hcand =>
            split at hb
            case isTrue hcnt =>
              split at hb
              case isTrue hmc =>
                split at hb
                case isTrue hocc =>
                  refine ih _ _ ?_ b hb
                  obtain ⟨hj1, hj2⟩ := csvCollect_spec lines cand i (lines.length + 1)
                    (i + 1) ([(lines.getD i "").data.count cand]) (by omega)
                  have hmono := charPosList_index_mono lines 0 i
                    ((csvCollect lines cand i (i + 1) (lines.length + 1)
                      [(lines.getD i "").data.count cand]).2 - 1) (by omega) (by omega)
                  rw [← hcp] at hmono
                  have hl := hline ((csvCollect lines cand i (i + 1) (lines.length + 1)
                    [(lines.getD i "").data.count cand]).2 - 1) (by omega)
                  refine add_block_wf text st _ hst ?_ ?_ rfl
                  · show charPos.getD i 0 ≤
                      charPos.getD ((csvCollect lines cand i (i + 1) (lines.length + 1)
                        [(lines.getD i "").data.count cand]).2 - 1) 0 +
                      (lines.getD ((csvCollect lines cand i (i + 1) (lines.length + 1)
                        [(lines.getD i "").data.count cand]).2 - 1) "").length
                    omega
                  · show charPos.getD ((csvCollect lines cand i (i + 1) (lines.length + 1)
                        [(lines.getD i "").data.count cand]).2 - 1) 0 +
                      (lines.getD ((csvCollect lines cand i (i + 1) (lines.length + 1)
                        [(lines.getD i "").data.count cand]).2 - 1) "").length ≤ text.length
                    exact hl
                case isFalse => exact ih _ _ hst b hb
              case isFalse => exact ih _ _ hst b hb
            case isFalse => exact ih _ _ hst b hb
      case isFalse => exact hst b hb

/-- Every block added by `detect_csv_blocks` is well-formed. -/
theorem detect_csv_blocks_wf (text : String) (st : DetState)
    (h : ∀ b ∈ st.blocks, BlockWF text b) :
    ∀ b ∈ (detect_csv_blocks text st).blocks, BlockWF text b := by
  rw [detect_csv_blocks]
  exact detect_csv_loop_wf text (pySplitlines text) (charPosList (pySplitlines text) 0) rfl
    (charPos_line_le text) ((pySplitlines text).length + 1) 0 st h

/-- Every block added along the `detect_key_values` outer loop is
well-formed, given a `char_pos` table consistent with the line list. -/
theorem detect_kv_loop_wf (text : String) (lines : List String) (charPos : List Nat)
    (hcp : charPos = charPosList lines 0)
    (hline : ∀ i2, i2 < lines.length →
      charPos.getD i2 0 + (lines.getD i2 "").length ≤ text.length) :
    ∀ fuel i st, (∀ b ∈ st.blocks, BlockWF text b) →
      ∀ b ∈ (detect_kv_loop text lines charPos fuel i st).blocks, BlockWF text b := by
  intro fuel
  induction fuel with
  | zero => intro i st hst b hb; exact hst b hb
  | succ fuel ih =>
      intro i st hst b hb
      rw [detect_kv_loop] at hb
      simp only [] at hb
      split at hb
      case isTrue hi =>
        split at hb
        case isTrue =>
          split at hb
          case isTrue hcnt =>
            split at hb
            case isTrue hocc =>
              refine ih _ _ ?_ b hb
              obtain ⟨hj1, hj2, hj3⟩ := kvCollect_spec lines (lines.length + 1) i 0 (by omega)
              have hmono := charPosList_index_mono lines 0 i
                ((kvCollect lines i 0 (lines.length + 1)).2 - 1) (by omega) (by omega)
              rw [← hcp] at hmono
              have hl := hline ((kvCollect lines i 0 (lines.length + 1)).2 - 1) (by omega)
              refine add_block_wf text st _ hst ?_ ?_ rfl
              · show charPos.getD i 0 ≤
                  charPos.getD ((kvCollect lines i 0 (lines.length + 1)).2 - 1) 0 +
                  (lines.getD ((kvCollect lines i 0 (lines.length + 1)).2 - 1) "").length
                omega
              · show charPos.getD ((kvCollect lines i 0 (lines.length + 1)).2 - 1) 0 +
                  (lines.getD ((kvCollect lines i 0 (lines.length + 1)).2 - 1) "").length ≤
                  text.length
                exact hl
            case isFalse => exact ih _ _ hst b hb
          case isFalse => exact ih _ _ hst b hb
        case isFalse => exact ih _ _ hst b hb
      case isFalse => exact hst b hb

/-- Every block added by `detect_key_values` is well-formed. -/
theorem detect_key_values_wf (text : String) (st : DetState)
    (h : ∀ b ∈ st.blocks, BlockWF text b) :
    ∀ b ∈ (detect_key_values text st).blocks, BlockWF text b := by
  rw [detect_key_values]
  exact detect_kv_loop_wf text (pySplitlines text) (charPosList (pySplitlines text) 0) rfl
    (charPos_line_le text) ((pySplitlines text).length + 1) 0 st h
/-- Every block added by the raw-text parts loop is well-formed. -/
theorem rawPartsLoop_wf (text : String) (e : Nat) :
    ∀ parts pos st, (∀ b ∈ st.blocks, BlockWF text b) →
      ∀ b ∈ (rawPartsLoop text e parts pos st).blocks, BlockWF text b := by
  intro parts
  induction parts with
  | nil => intro pos st hst b hb; exact hst b hb
  | cons part rest ihp =>
      intro pos st hst b hb
      rw [rawPartsLoop] at hb
      simp only [] at hb
      split at hb
      case isTrue => exact ihp _ _ hst b hb
      case isFalse =>
        split at hb
        case h_1 => exact ihp _ _ hst b hb
        case h_2 start hfind =>
          refine ihp _ _ ?_ b hb
          intro b2 hb2
          obtain ⟨hf1, hf2⟩ := pyFindAux_some_spec text.data (pyStrip part).data e
            (text.data.length + 1) pos start hfind
          have hlen : text.length = text.data.length := rfl
          have hplen : (pyStrip part).length = (pyStrip part).data.length := rfl
          split at hb2
          case isTrue =>
            exact add_block_wf text st _ hst
              (by show start ≤ start + (pyStrip part).length; omega)
              (by show start + (pyStrip part).length ≤ text.length; omega) rfl b2 hb2
          case isFalse => exact hst b2 hb2

/-- Every block added by `detect_raw_text` is well-formed. -/
theorem detect_raw_text_wf (text : String) (st : DetState)
    (h : ∀ b ∈ st.blocks, BlockWF text b) :
    ∀ b ∈ (detect_raw_text text st).blocks, BlockWF text b := by
  rw [detect_raw_text]
  simp only []
  refine foldl_pres (fun s => ∀ b ∈ s.blocks, BlockWF text b) _ _ st h ?_
  intro s se hse hP b hb
  simp only [] at hb
  split at hb
  case isTrue => exact rawPartsLoop_wf text se.2 _ _ _ hP b hb
  case isFalse => exact hP b hb

/-- Every block produced by the nine structure detectors is well-formed. -/
theorem detect_all_but_raw_wf (text : String) :
    ∀ b ∈ (detect_all_but_raw text).blocks, BlockWF text b := by
  rw [detect_all_but_raw]
  refine detect_sql_wf text _ (detect_key_values_wf text _ (detect_csv_blocks_wf text _
    (detect_js_objects_wf text _ (detect_html_tables_and_blocks_wf text _
      (detect_jsons_global_wf text _ (detect_sectioned_jsons_wf text _
        (detect_yaml_frontmatter_wf text _ (detect_json_ld_wf text _ ?_))))))))
  intro b hb
  simp [initState] at hb

/-- Every block returned by `run_all` is well-formed. -/
theorem run_all_wf (text : String) :
    ∀ b ∈ run_all text, BlockWF text b := by
  intro b hb
  rw [run_all] at hb
  obtain ⟨y, hy, hby⟩ := mem_dedupe_prioritize _ b hb
  rw [mem_isortBy] at hy
  obtain ⟨h1, h2, h3⟩ :=
    detect_raw_text_wf text (detect_all_but_raw text) (detect_all_but_raw_wf text) y hy
  rw [hby]
  exact ⟨h1, h2, h3⟩
/-- C5: every fragment returned by `parse_file` has ordered offsets lying
within the bounds of the input text (`0 ≤ start_index ≤ end_index ≤
len(text)`, the lower bound being trivial for natural-number offsets), and
its `text` field equals the slice `text[start_index:end_index]` of the
input — each detector only emits blocks cut from the input at indices its
matcher located, and the resolver only drops, re-sorts and
confidence-clamps blocks. -/
theorem c5_fragment_bounds (text : String) (b : DetectedBlock)
    (hb : b ∈ (parse_file text).fragments) :
    b.start_index ≤ b.end_index ∧ b.end_index ≤ text.length ∧
      b.text = pySlice text b.start_index b.end_index :=
  run_all_wf text b hb

/-- C5, witness: the bounds theorem applied to the single KEY_VALUE
fragment `parse_file` returns on `"x: 1\ny: 2"`. -/
theorem c5_fragment_bounds_witness :
    ((⟨"KEY_VALUE", 0, 9, 90, "x: 1\ny: 2"⟩ : DetectedBlock) ∈
        (parse_file "x: 1\ny: 2").fragments) ∧
      ((⟨"KEY_VALUE", 0, 9, 90, "x: 1\ny: 2"⟩ : DetectedBlock).start_index ≤
          (⟨"KEY_VALUE", 0, 9, 90, "x: 1\ny: 2"⟩ : DetectedBlock).end_index ∧
        (⟨"KEY_VALUE", 0, 9, 90, "x: 1\ny: 2"⟩ : DetectedBlock).end_index ≤
          ("x: 1\ny: 2" : String).length ∧
        (⟨"KEY_VALUE", 0, 9, 90, "x: 1\ny: 2"⟩ : DetectedBlock).text =
          pySlice "x: 1\ny: 2"
            (⟨"KEY_VALUE", 0, 9, 90, "x: 1\ny: 2"⟩ : DetectedBlock).start_index
            (⟨"KEY_VALUE", 0, 9, 90, "x: 1\ny: 2"⟩ : DetectedBlock).end_index) :=
  ⟨by decide, c5_fragment_bounds "x: 1\ny: 2" ⟨"KEY_VALUE", 0, 9, 90, "x: 1\ny: 2"⟩
    (by decide)⟩
/-- The resolver pre-sort key is total. -/
theorem dkLe_total (a b : DetectedBlock) : dkLe a b = true ∨ dkLe b a = true := by
  simp only [dkLe, Bool.or_eq_true, Bool.and_eq_true, decide_eq_true_eq]
  omega

/-- The resolver pre-sort key is transitive. -/
theorem dkLe_trans (a b c : DetectedBlock) (h1 : dkLe a b = true) (h2 : dkLe b c = true) :
    dkLe a c = true := by
  simp only [dkLe, Bool.or_eq_true, Bool.and_eq_true, decide_eq_true_eq] at h1 h2 ⊢
  omega

/-- Stable insertion preserves pairwise sortedness for a total transitive
key. -/
theorem pairwise_insertLe {α : Type} (le : α → α → Bool)
    (tot : ∀ a b, le a b = true ∨ le b a = true)
    (htr : ∀ a b c, le a b = true → le b c = true → le a c = true) (x : α) :
    ∀ l : List α, l.Pairwise (fun a b => le a b = true) →
      (insertLe le x l).Pairwise (fun a b => le a b = true) := by
  intro l
  induction l with
  | nil => intro _; simp [insertLe]
  | cons y ys ih =>
      intro hp
      rw [insertLe]
      rcases List.pairwise_cons.mp hp with ⟨hy, hys⟩
      split
      case isTrue hyx =>
        refine List.pairwise_cons.mpr ⟨?_, ih hys⟩
        intro z hz
        rcases (mem_insertLe le x z ys).mp hz with rfl | hzys
        · exact hyx
        · exact hy z hzys
      case isFalse hyx =>
        refine List.pairwise_cons.mpr ⟨?_, hp⟩
        intro z hz
        have hxy : le x y = true := by
          rcases tot x y with h | h
          · exact h
          · exact absurd h hyx
        rcases List.mem_cons.mp hz with rfl | hzys
        · exact hxy
        · exact htr x y z hxy (hy z hzys)

/-- Output of the stable insertion sort is pairwise sorted for a total
transitive key. -/
theorem pairwise_isortBy {α : Type} (le : α → α → Bool)
    (tot : ∀ a b, le a b = true ∨ le b a = true)
    (htr : ∀ a b c, le a b = true → le b c = true → le a c = true) :
    ∀ l : List α, (isortBy le l).Pairwise (fun a b => le a b = true) := by
  suffices h : ∀ (l acc : List α), acc.Pairwise (fun a b => le a b = true) →
      (l.foldl (fun a x => insertLe le x a) acc).Pairwise (fun a b => le a b = true) by
    intro l
    exact h l [] (by simp)
  intro l
  induction l with
  | nil => intro acc h; exact h
  | cons x xs ih =>
      intro acc h
      rw [List.foldl_cons]
      exact ih _ (pairwise_insertLe le tot htr x acc h)

/-- When the walk finds a container, the candidate is always dropped: the
drop-guard needs strictly lower priority index, but the container search
already required the container priority to be at most the candidate
priority. -/
theorem findContainer_some_step (kept : List DetectedBlock) (b k0 : DetectedBlock)
    (h : findContainer kept b = some k0) : dedupeStep kept b = kept := by
  have hp := List.find?_some h
  simp only [Bool.and_eq_true, decide_eq_true_eq] at hp
  rw [dedupeStep, h]
  show (if FORMAT_PRIORITY.contains b.format_type &&
      FORMAT_PRIORITY.contains k0.format_type &&
      prioIdx b.format_type < prioIdx k0.format_type then kept ++ [b] else kept) = kept
  rw [if_neg]
  intro hc
  simp only [Bool.and_eq_true, decide_eq_true_eq] at hc
  omega

/-- Invariant of the resolver walk: given a well-formed sorted candidate
stream and an already-consistent kept set that precedes the stream, proper
containment between two output blocks forces the contained block to have
strictly higher priority (a lower priority index). -/
theorem dedupeGo_contain_prio :
    ∀ (l kept : List DetectedBlock),
      (∀ x ∈ kept, x.start_index ≤ x.end_index) →
      (∀ x ∈ l, x.start_index ≤ x.end_index) →
      (∀ x ∈ kept, ∀ y ∈ kept,
        y.start_index ≤ x.start_index → x.end_index ≤ y.end_index →
        ¬(y.start_index = x.start_index ∧ y.end_index = x.end_index) →
        prioIdx x.format_type < prioIdx y.format_type) →
      (∀ k ∈ kept, ∀ z ∈ l, dkLe k z = true) →
      l.Pairwise (fun a b => dkLe a b = true) →
      ∀ x ∈ dedupeGo kept l, ∀ y ∈ dedupeGo kept l,
        y.start_index ≤ x.start_index → x.end_index ≤ y.end_index →
        ¬(y.start_index = x.start_index ∧ y.end_index = x.end_index) →
        prioIdx x.format_type < prioIdx y.format_type := by
  intro l
  induction l with
  | nil =>
      intro kept hwk _ hPk _ _
      exact fun x hx y hy => hPk x hx y hy
  | cons b bs ih =>
      intro kept hwk hwl hPk hQ hpw
      have hpw2 := List.pairwise_cons.mp hpw
      cases hfc : findContainer kept b with
      | some k0 =>
          rw [show dedupeGo kept (b :: bs) = dedupeGo (dedupeStep kept b) bs from rfl,
              findContainer_some_step kept b k0 hfc]
          exact ih kept hwk (fun z hz => hwl z (List.mem_cons_of_mem b hz)) hPk
            (fun k hk z hz => hQ k hk z (List.mem_cons_of_mem b hz)) hpw2.2
      | none =>
          rw [show dedupeGo kept (b :: bs) = dedupeGo (dedupeStep kept b) bs from rfl]
          have hstep : dedupeStep kept b = kept ++ [b] := by rw [dedupeStep, hfc]
          rw [hstep]
          refine ih (kept ++ [b]) ?_ (fun z hz => hwl z (List.mem_cons_of_mem b hz))
            ?_ ?_ hpw2.2
          · intro x hx
            rcases List.mem_append.mp hx with h | h
            · exact hwk x h
            · rw [List.mem_singleton.mp h]
              exact hwl b (List.mem_cons_self b bs)
          · intro x hx y hy hyx hxy hne
            rcases List.mem_append.mp hx with hx2 | hx2 <;>
              rcases List.mem_append.mp hy with hy2 | hy2
            · exact hPk x hx2 y hy2 hyx hxy hne
            · rw [List.mem_singleton.mp hy2] at hyx hxy hne ⊢
              have hdk := hQ x hx2 b (List.mem_cons_self b bs)
              have hwx := hwk x hx2
              have hwb := hwl b (List.mem_cons_self b bs)
              exfalso
              simp only [dkLe, Bool.or_eq_true, Bool.and_eq_true, decide_eq_true_eq] at hdk
              omega
            · rw [List.mem_singleton.mp hx2] at hyx hxy hne ⊢
              have hfc2 := List.find?_eq_none.mp hfc y hy2
              simp only [Bool.and_eq_true, decide_eq_true_eq] at hfc2
              omega
            · rw [List.mem_singleton.mp hx2, List.mem_singleton.mp hy2] at hne
              exact absurd ⟨rfl, rfl⟩ hne
          · intro k hk z hz
            rcases List.mem_append.mp hk with h | h
            · exact hQ k h z (List.mem_cons_of_mem b hz)
            · rw [List.mem_singleton.mp h]
              exact hpw2.1 z hz

/-- Containment-priority property of `_dedupe_prioritize` on well-formed
inputs. -/
theorem dedupe_contain_prio (bs : List DetectedBlock)
    (hwf : ∀ x ∈ bs, x.start_index ≤ x.end_index) :
    ∀ x ∈ dedupe_prioritize bs, ∀ y ∈ dedupe_prioritize bs,
      y.start_index ≤ x.start_index → x.end_index ≤ y.end_index →
      ¬(y.start_index = x.start_index ∧ y.end_index = x.end_index) →
      prioIdx x.format_type < prioIdx y.format_type := by
  intro x hx y hy hyx hxy hne
  rw [dedupe_prioritize] at hx hy
  obtain ⟨x0, hx0, hxx0⟩ := List.mem_map.mp hx
  obtain ⟨y0, hy0, hyy0⟩ := List.mem_map.mp hy
  rw [mem_isortBy] at hx0 hy0
  have hxs : x.start_index = x0.start_index := by rw [← hxx0]
  have hxe : x.end_index = x0.end_index := by rw [← hxx0]
  have hxf : x.format_type = x0.format_type := by rw [← hxx0]
  have hys : y.start_index = y0.start_index := by rw [← hyy0]
  have hye : y.end_index = y0.end_index := by rw [← hyy0]
  have hyf : y.format_type = y0.format_type := by rw [← hyy0]
  have hmain := dedupeGo_contain_prio (isortBy dkLe bs) []
    (by intro z hz; simp at hz)
    (by intro z hz; exact hwf z ((mem_isortBy dkLe bs z).mp hz))
    (by intro z hz; simp at hz)
    (by intro k hk; simp at hk)
    (pairwise_isortBy dkLe dkLe_total dkLe_trans bs)
  rw [hxf, hyf]
  refine hmain x0 hx0 y0 hy0 (by omega) (by omega) ?_
  intro hc
  exact hne ⟨by omega, by omega⟩
/-- C1, amended: for every input text, whenever one fragment returned by
`parse_file` properly contains another (same or wider interval on both
sides, but not the identical interval), the contained fragment has
strictly higher priority (a strictly lower `FORMAT_PRIORITY` index) than
its container.  This is the only overlap relation the resolver constrains:
`_dedupe_prioritize` drops a candidate only when a kept block fully
contains it with priority at most the candidate's, and bare partial
overlaps pass through untouched (no confidence-margin arbitration exists
in the active code, as the counterexample shows). -/
theorem c1_amended_containment_priority (text : String) (b k : DetectedBlock)
    (hb : b ∈ (parse_file text).fragments) (hk : k ∈ (parse_file text).fragments)
    (h1 : k.start_index ≤ b.start_index) (h2 : b.end_index ≤ k.end_index)
    (h3 : ¬(k.start_index = b.start_index ∧ k.end_index = b.end_index)) :
    prioIdx b.format_type < prioIdx k.format_type := by
  have hwf : ∀ x ∈ isortBy startLe
      (detect_raw_text text (detect_all_but_raw text)).blocks,
      x.start_index ≤ x.end_index := by
    intro x hx
    rw [mem_isortBy] at hx
    exact (detect_raw_text_wf text _ (detect_all_but_raw_wf text) x hx).1
  exact dedupe_contain_prio _ hwf b hb k hk h1 h2 h3

/-- C1, amended, witness: on
`"alpha: one\nbeta: 1;2\ngamma: 3;4\ndelta: two"`, `parse_file` returns a
KEY_VALUE fragment over `[0, 42)` properly containing a CSV fragment over
`[11, 31)`, and the contained CSV block has the strictly lower priority
index (6 < 8). -/
theorem c1_amended_containment_priority_witness :
    ((⟨"CSV", 11, 31, 90, "beta: 1;2\ngamma: 3;4"⟩ : DetectedBlock) ∈
        (parse_file "alpha: one\nbeta: 1;2\ngamma: 3;4\ndelta: two").fragments) ∧
      ((⟨"KEY_VALUE", 0, 42, 90, "alpha: one\nbeta: 1;2\ngamma: 3;4\ndelta: two"⟩ :
          DetectedBlock) ∈
        (parse_file "alpha: one\nbeta: 1;2\ngamma: 3;4\ndelta: two").fragments) ∧
      (0 : Nat) ≤ 11 ∧ (31 : Nat) ≤ 42 ∧ ¬((0 : Nat) = 11 ∧ (42 : Nat) = 31) ∧
      prioIdx "CSV" < prioIdx "KEY_VALUE" :=
  ⟨by decide, by decide, by decide, by decide, by decide,
    c1_amended_containment_priority "alpha: one\nbeta: 1;2\ngamma: 3;4\ndelta: two"
      ⟨"CSV", 11, 31, 90, "beta: 1;2\ngamma: 3;4"⟩
      ⟨"KEY_VALUE", 0, 42, 90, "alpha: one\nbeta: 1;2\ngamma: 3;4\ndelta: two"⟩
      (by decide) (by decide) (by decide) (by decide) (by decide)⟩
/-- With no `<` in the text, no JSON-LD script opening matches. -/
theorem matchScriptOpen_none (cs : List Char) (hlt : ∀ k, nthChar cs k ≠ some '<')
    (j : Nat) : matchScriptOpen cs j = none := by
  rw [matchScriptOpen, if_neg]
  intro hm
  exact hlt j (matchesAtCI_head_angle cs ("<script".data) j rfl hm)

/-- With no `<` in the text, the JSON-LD scanner finds nothing. -/
theorem jsonLdMatchesAux_nil (cs : List Char) (hlt : ∀ k, nthChar cs k ≠ some '<') :
    ∀ fuel j, jsonLdMatchesAux cs j fuel = [] := by
  intro fuel
  induction fuel with
  | zero => intro j; rfl
  | succ fuel ih =>
      intro j
      rw [jsonLdMatchesAux]
      split
      case isTrue =>
        rw [matchScriptOpen_none cs hlt j]
        exact ih (j + 1)
      case isFalse => rfl

/-- With no `<` in the text, `detect_json_ld` leaves the state unchanged. -/
theorem detect_json_ld_id (text : String) (hlt : ∀ k, nthChar text.data k ≠ some '<')
    (st : DetState) : detect_json_ld text st = st := by
  rw [detect_json_ld]
  rw [show jsonLdMatches text.data = [] from
    jsonLdMatchesAux_nil text.data hlt (text.data.length + 1) 0]
  rfl

/-- With no `---` in the text, the YAML frontmatter scanner finds
nothing. -/
theorem yamlMatchesAux_nil (cs : List Char)
    (hm : ∀ k, matchesAt cs ("---".data) k = false) :
    ∀ fuel t, yamlMatchesAux cs t fuel = [] := by
  intro fuel
  induction fuel with
  | zero => intro t; rfl
  | succ fuel ih =>
      intro t
      rw [yamlMatchesAux]
      split
      case isTrue =>
        rw [if_neg (by simp [hm t])]
        exact ih (t + 1)
      case isFalse => rfl

/-- With no `---` in the text, `detect_yaml_frontmatter` leaves the state
unchanged. -/
theorem detect_yaml_frontmatter_id (text : String)
    (hm : ∀ k, matchesAt text.data ("---".data) k = false) (st : DetState) :
    detect_yaml_frontmatter text st = st := by
  rw [detect_yaml_frontmatter]
  rw [show yamlMatches text.data = [] from
    yamlMatchesAux_nil text.data hm (text.data.length + 1) 0]
  rfl

/-- With no `---` in the text, the section-header scanner finds nothing. -/
theorem sectionMatchesAux_nil (cs : List Char)
    (hm : ∀ k, matchesAt cs ("---".data) k = false) :
    ∀ fuel t, sectionMatchesAux cs t fuel = [] := by
  intro fuel
  induction fuel with
  | zero => intro t; rfl
  | succ fuel ih =>
      intro t
      rw [sectionMatchesAux]
      split
      case isTrue =>
        rw [if_neg (by simp [hm t])]
        exact ih (t + 1)
      case isFalse => rfl

/-- With no `---` in the text, `detect_sectioned_jsons` leaves the state
unchanged. -/
theorem detect_sectioned_jsons_id (text : String)
    (hm : ∀ k, matchesAt text.data ("---".data) k = false) (st : DetState) :
    detect_sectioned_jsons text st = st := by
  rw [detect_sectioned_jsons]
  rw [show sectionMatches text.data = [] from
    sectionMatchesAux_nil text.data hm (text.data.length + 1) 0]
  rfl

/-- With no `<` in the text, the table-start scanner finds nothing. -/
theorem tableStartsAux_nil (cs : List Char) (hlt : ∀ k, nthChar cs k ≠ some '<') :
    ∀ fuel j, tableStartsAux cs j fuel = [] := by
  intro fuel
  induction fuel with
  | zero => intro j; rfl
  | succ fuel ih =>
      intro j
      rw [tableStartsAux]
      split
      case isTrue =>
        rw [if_neg ?hc]
        case hc =>
          intro hc
          rw [Bool.and_eq_true] at hc
          exact hlt j (matchesAtCI_head_angle cs ("<table".data) j rfl hc.1)
        exact ih (j + 1)
      case isFalse => rfl

/-- With no `<` in the text, no generic HTML opening matches. -/
theorem htmlOpenAt_none (cs : List Char) (hlt : ∀ k, nthChar cs k ≠ some '<')
    (j : Nat) : htmlOpenAt cs j = none := by
  rw [htmlOpenAt, if_neg (hlt j)]

/-- With no `<` in the text, the generic HTML scanner finds nothing. -/
theorem htmlOpenMatchesAux_nil (cs : List Char) (hlt : ∀ k, nthChar cs k ≠ some '<') :
    ∀ fuel j, htmlOpenMatchesAux cs j fuel = [] := by
  intro fuel
  induction fuel with
  | zero => intro j; rfl
  | succ fuel ih =>
      intro j
      rw [htmlOpenMatchesAux]
      split
      case isTrue =>
        rw [htmlOpenAt_none cs hlt j]
        exact ih (j + 1)
      case isFalse => rfl

/-- With no `<` in the text, `detect_html_tables_and_blocks` leaves the
state unchanged. -/
theorem detect_html_id (text : String) (hlt : ∀ k, nthChar text.data k ≠ some '<')
    (st : DetState) : detect_html_tables_and_blocks text st = st := by
  rw [detect_html_tables_and_blocks]
  simp only []
  rw [show tableStarts text.data = [] from
    tableStartsAux_nil text.data hlt (text.data.length + 1) 0]
  rw [show htmlOpenMatches text.data = [] from
    htmlOpenMatchesAux_nil text.data hlt (text.data.length + 1) 0]
  rfl
/-- An interval with a positive end and a start inside the text overlaps
the full-text reservation. -/
theorem is_occupied_full (blks : List DetectedBlock) (n s e : Nat)
    (hs : s < n) (he : 0 < e) :
    is_occupied ⟨blks, [(0, n)]⟩ s e = true := by
  simp [is_occupied]
  omega

/-- Every JS-object match starts inside the text. -/
theorem jsMatchesAux_lt (cs : List Char) :
    ∀ fuel p, ∀ m ∈ jsMatchesAux cs p fuel, m.1 < cs.length := by
  intro fuel
  induction fuel with
  | zero => intro p m hm; simp [jsMatchesAux] at hm
  | succ fuel ih =>
      intro p m hm
      rw [jsMatchesAux] at hm
      split at hm
      case isTrue hp =>
        split at hm
        case h_1 mEnd bracePos hj =>
          rcases List.mem_cons.mp hm with h | h
          · rw [h]; exact hp
          · exact ih _ m h
        case h_2 => exact ih _ m hm
      case isFalse => simp at hm

/-- With the whole text reserved, `detect_js_objects` adds nothing. -/
theorem detect_js_objects_skip (text : String) (blks : List DetectedBlock) :
    detect_js_objects text ⟨blks, [(0, text.length)]⟩ = ⟨blks, [(0, text.length)]⟩ := by
  rw [detect_js_objects]
  refine foldl_fix _ _ _ ?_
  intro m hm
  have hlt := jsMatchesAux_lt text.data (text.data.length + 1) 0 m hm
  have hocc := is_occupied_full blks text.length m.1 (m.1 + 1) hlt (by omega)
  simp only [hocc, if_pos]

/-- Every SQL match starts inside the text and has a positive end. -/
theorem sqlMatchesAux_lt_pos (cs : List Char) :
    ∀ fuel p, ∀ m ∈ sqlMatchesAux cs p fuel, m.1 < cs.length ∧ 0 < m.2 := by
  intro fuel
  induction fuel with
  | zero => intro p m hm; simp [sqlMatchesAux] at hm
  | succ fuel ih =>
      intro p m hm
      rw [sqlMatchesAux] at hm
      split at hm
      case isTrue hp =>
        split at hm
        case h_1 mEnd hmt =>
          rcases List.mem_cons.mp hm with h | h
          · obtain ⟨h1, _⟩ := sqlMatchAt_spec cs p mEnd hmt
            rw [h]
            refine ⟨hp, ?_⟩
            show 0 < mEnd
            -- the match end is one past a semicolon, hence positive
            simp only [sqlMatchAt] at hmt
            split at hmt
            case h_1 ke hke =>
              split at hmt
              case h_1 q hq =>
                split at hmt
                · injection hmt with h2; omega
                · exact absurd hmt (by simp)
              case h_2 => exact absurd hmt (by simp)
            case h_2 =>
              split at hmt
              case isTrue =>
                split at hmt
                case h_1 d hd =>
                  split at hmt
                  case h_1 ke2 hke2 =>
                    split at hmt
                    case h_1 q hq =>
                      split at hmt
                      · injection hmt with h2; omega
                      · exact absurd hmt (by simp)
                    case h_2 => exact absurd hmt (by simp)
                  case h_2 => exact absurd hmt (by simp)
                case h_2 => exact absurd hmt (by simp)
              case isFalse => exact absurd hmt (by simp)
          · exact ih _ m h
        case h_2 => exact ih _ m hm
      case isFalse => simp at hm

/-- With the whole text reserved, `detect_sql` adds nothing. -/
theorem detect_sql_skip (text : String) (blks : List DetectedBlock) :
    detect_sql text ⟨blks, [(0, text.length)]⟩ = ⟨blks, [(0, text.length)]⟩ := by
  rw [detect_sql]
  refine foldl_fix _ _ _ ?_
  intro m hm
  obtain ⟨hlt, hpos⟩ := sqlMatchesAux_lt_pos text.data (text.data.length + 1) 0 m hm
  have hocc := is_occupied_full blks text.length m.1 m.2 hlt hpos
  rw [if_neg (by simp [hocc])]

/-- Subtracting the full span from itself leaves nothing. -/
theorem subtractIval_self (n : Nat) (hn : 0 < n) : subtractIval [(0, n)] (0, n) = [] := by
  rw [subtractIval]
  simp only [List.foldl_cons, List.foldl_nil]
  rw [if_neg (by simp; omega), if_neg (by simp), if_neg (by simp)]
  rfl

/-- With the whole (nonempty) text reserved, `detect_raw_text` adds
nothing. -/
theorem detect_raw_text_skip (text : String) (blks : List DetectedBlock)
    (hn : 0 < text.length) :
    detect_raw_text text ⟨blks, [(0, text.length)]⟩ = ⟨blks, [(0, text.length)]⟩ := by
  rw [detect_raw_text]
  simp only []
  rw [show (isortBy pairLe (DetState.occupied ⟨blks, [(0, text.length)]⟩)).foldl
      subtractIval [(0, text.length)] = [] from subtractIval_self text.length hn]
  rfl
/-- The head entry of the prefix-sum table is its base. -/
theorem charPosList_head (ls : List String) (x : Nat) :
    (charPosList ls x).getD 0 0 = x := by
  cases ls <;> rfl

/-- Successor recurrence of the prefix-sum table. -/
theorem charPosList_succ :
    ∀ (lines : List String) (b i : Nat), i < lines.length →
      (charPosList lines b).getD (i + 1) 0 =
        (charPosList lines b).getD i 0 + (lines.getD i "").length + 1 := by
  intro lines
  induction lines with
  | nil => intro b i hi; simp at hi
  | cons l ls ih =>
      intro b i hi
      cases i with
      | zero =>
          simp only [charPosList, List.getD_cons_succ, List.getD_cons_zero,
            charPosList_head]
      | succ i0 =>
          simp only [charPosList, List.getD_cons_succ]
          exact ih (b + l.length + 1) i0 (by simpa using hi)

/-- A string of length zero is the empty string. -/
theorem str_of_len_zero (s : String) (h : s.length = 0) : s = "" := by
  cases s with
  | mk d =>
      have hd : d.length = 0 := h
      rw [List.length_eq_zero] at hd
      rw [hd]

/-- A line matched by the first-line key-value pattern is nonempty. -/
theorem kvMatchFirst_nonempty (ln : String) (h : kvMatchFirst ln = true) :
    1 ≤ ln.length := by
  by_contra hz
  push_neg at hz
  have hln : ln = "" := str_of_len_zero ln (by omega)
  rw [hln] at h
  exact absurd h (by decide)

/-- With the whole text reserved, the `detect_csv_blocks` loop adds
nothing. -/
theorem detect_csv_loop_skip (text : String) (lines : List String) (charPos : List Nat)
    (blks : List DetectedBlock)
    (hcp : charPos = charPosList lines 0)
    (hline : ∀ i2, i2 < lines.length →
      charPos.getD i2 0 + (lines.getD i2 "").length ≤ text.length) :
    ∀ fuel i, detect_csv_loop text lines charPos fuel i ⟨blks, [(0, text.length)]⟩ =
      ⟨blks, [(0, text.length)]⟩ := by
  intro fuel
  induction fuel with
  | zero => intro i; rfl
  | succ fuel ih =>
      intro i
      rw [detect_csv_loop]
      simp only []
      split
      case isFalse => rfl
      case isTrue hi =>
        split
        case isTrue => exact ih (i + 1)
        case isFalse hstrip =>
          split
          case h_1 => exact ih (i + 1)
          case h_2 cand hcand =>
            split
            case isTrue hcnt =>
              split
              case isTrue hmc =>
                have hlen1 : 1 ≤ (lines.getD i "").length := by
                  by_contra hz
                  push_neg at hz
                  have hd : lines.getD i "" = "" := str_of_len_zero _ (by omega)
                  rw [hd] at hstrip
                  exact hstrip (by decide)
                have hstart := hline i hi
                obtain ⟨hj1, hj2⟩ := csvCollect_spec lines cand i (lines.length + 1)
                  (i + 1) ([(lines.getD i "").data.count cand]) (by omega)
                have hend : charPos.getD i 0 + 1 ≤
                    charPos.getD ((csvCollect lines cand i (i + 1) (lines.length + 1)
                      [(lines.getD i "").data.count cand]).2 - 1) 0 +
                    (lines.getD ((csvCollect lines cand i (i + 1) (lines.length + 1)
                      [(lines.getD i "").data.count cand]).2 - 1) "").length := by
                  by_cases hji : (csvCollect lines cand i (i + 1) (lines.length + 1)
                      [(lines.getD i "").data.count cand]).2 - 1 = i
                  · rw [hji]; omega
                  · have hmono := charPosList_index_mono lines 0 (i + 1)
                      ((csvCollect lines cand i (i + 1) (lines.length + 1)
                        [(lines.getD i "").data.count cand]).2 - 1) (by omega) (by omega)
                    have hsucc := charPosList_succ lines 0 i hi
                    rw [← hcp] at hmono hsucc
                    omega
                have hocc := is_occupied_full blks text.length (charPos.getD i 0)
                  (charPos.getD ((csvCollect lines cand i (i + 1) (lines.length + 1)
                      [(lines.getD i "").data.count cand]).2 - 1) 0 +
                    (lines.getD ((csvCollect lines cand i (i + 1) (lines.length + 1)
                      [(lines.getD i "").data.count cand]).2 - 1) "").length)
                  (by omega) (by omega)
                rw [if_neg (by intro hc; rw [hocc] at hc; simp at hc)]
                exact ih (i + 1)
              case isFalse => exact ih (i + 1)
            case isFalse => exact ih (i + 1)

/-- With the whole text reserved, `detect_csv_blocks` adds nothing. -/
theorem detect_csv_blocks_skip (text : String) (blks : List DetectedBlock) :
    detect_csv_blocks text ⟨blks, [(0, text.length)]⟩ = ⟨blks, [(0, text.length)]⟩ := by
  rw [detect_csv_blocks]
  exact detect_csv_loop_skip text (pySplitlines text) (charPosList (pySplitlines text) 0)
    blks rfl (charPos_line_le text) ((pySplitlines text).length + 1) 0

/-- With the whole text reserved, the `detect_key_values` loop adds
nothing. -/
theorem detect_kv_loop_skip (text : String) (lines : List String) (charPos : List Nat)
    (blks : List DetectedBlock)
    (hcp : charPos = charPosList lines 0)
    (hline : ∀ i2, i2 < lines.length →
      charPos.getD i2 0 + (lines.getD i2 "").length ≤ text.length) :
    ∀ fuel i, detect_kv_loop text lines charPos fuel i ⟨blks, [(0, text.length)]⟩ =
      ⟨blks, [(0, text.length)]⟩ := by
  intro fuel
  induction fuel with
  | zero => intro i; rfl
  | succ fuel ih =>
      intro i
      rw [detect_kv_loop]
      simp only []
      split
      case isFalse => rfl
      case isTrue hi =>
        split
        case isFalse => exact ih (i + 1)
        case isTrue hkv =>
          split
          case isFalse => exact ih (i + 1)
          case isTrue hcnt =>
            have hlen1 := kvMatchFirst_nonempty _ hkv
            have hstart := hline i hi
            obtain ⟨hj1, hj2, hj3⟩ := kvCollect_spec lines (lines.length + 1) i 0 (by omega)
            have hmono := charPosList_index_mono lines 0 (i + 1)
              ((kvCollect lines i 0 (lines.length + 1)).2 - 1) (by omega) (by omega)
            have hsucc := charPosList_succ lines 0 i hi
            rw [← hcp] at hmono hsucc
            have hocc := is_occupied_full blks text.length (charPos.getD i 0)
              (charPos.getD ((kvCollect lines i 0 (lines.length + 1)).2 - 1) 0 +
                (lines.getD ((kvCollect lines i 0 (lines.length + 1)).2 - 1) "").length)
              (by omega) (by omega)
            rw [if_neg (by intro hc; rw [hocc] at hc; simp at hc)]
            exact ih (i + 1)

/-- With the whole text reserved, `detect_key_values` adds nothing. -/
theorem detect_key_values_skip (text : String) (blks : List DetectedBlock) :
    detect_key_values text ⟨blks, [(0, text.length)]⟩ = ⟨blks, [(0, text.length)]⟩ := by
  rw [detect_key_values]
  exact detect_kv_loop_skip text (pySplitlines text) (charPosList (pySplitlines text) 0)
    blks rfl (charPos_line_le text) ((pySplitlines text).length + 1) 0
/-- A search started past the last possible position finds nothing. -/
theorem findSubstrFrom_past (cs pat : List Char) (j : Nat)
    (hj : cs.length < j + pat.length) : findSubstrFrom cs pat j = none := by
  rw [findSubstrFrom, findSubstrAux, if_neg (by omega)]

/-- The full slice of a string is the string itself. -/
theorem pySlice_full (s : String) : pySlice s 0 s.length = s := by
  rw [pySlice, listSlice, List.drop_zero, Nat.sub_zero]
  show String.mk (s.data.take s.data.length) = s
  rw [List.take_length]

/-- A successful member parse always returns an object value. -/
theorem jsonParseMembers_dict :
    ∀ fuel cs i acc v j, jsonParseMembers fuel cs i acc = some (v, j) →
      ∃ d, v = PyVal.pDict d := by
  intro fuel
  induction fuel with
  | zero => intro cs i acc v j h; simp [jsonParseMembers] at h
  | succ fuel ih =>
      intro cs i acc v j h
      rw [jsonParseMembers] at h
      split at h
      case isTrue =>
        split at h
        case h_1 => exact absurd h (by simp)
        case h_2 k j1 hk =>
          simp only [] at h
          split at h
          case isTrue =>
            split at h
            case h_1 => exact absurd h (by simp)
            case h_2 v2 j4 hv2 =>
              split at h
              case isTrue => exact ih cs _ _ v j h
              case isFalse =>
                split at h
                case isTrue =>
                  injection h with h2
                  injection h2 with ha hb
                  exact ⟨_, ha.symm⟩
                case isFalse => exact absurd h (by simp)
          case isFalse => exact absurd h (by simp)
      case isFalse => exact absurd h (by simp)

/-- Skipping whitespace from a non-whitespace character goes nowhere. -/
theorem skipJsonWs_at_not_ws (cs : List Char) (i : Nat) (c : Char)
    (hc : nthChar cs i = some c) (hw : isJsonWs c = false) :
    skipJsonWs cs i = i := by
  rw [skipJsonWs, runEnd]
  rw [nthChar] at hc
  have hd : cs.drop i = c :: (cs.drop (i + 1)) := by
    have := List.get?_eq_some.mp hc
    obtain ⟨hlt, hget⟩ := this
    rw [List.get_eq_getElem] at hget
    rw [List.drop_eq_getElem_cons hlt, hget]
  rw [hd, List.takeWhile_cons, hw]
  rfl

/-- A JSON document that begins (after no leading whitespace) with `{`
parses to an object value. -/
theorem json_loads_brace (s : String) (hb : nthChar s.data 0 = some braceL)
    (v : PyVal) (h : json_loads s = some v) : ∃ d, v = PyVal.pDict d := by
  rw [json_loads] at h
  have hskip : skipJsonWs s.data 0 = 0 :=
    skipJsonWs_at_not_ws s.data 0 braceL hb (by decide)
  rw [hskip] at h
  rw [show 2 * s.data.length + 2 = (2 * s.data.length + 1) + 1 from rfl,
    jsonParseVal] at h
  rw [hb] at h
  simp only [if_true] at h
  split at h
  case h_1 v0 j0 hv0 =>
    split at h
    case isTrue =>
      injection h with h2
      subst h2
      split at hv0
      case isTrue =>
        injection hv0 with h3
        injection h3 with ha hb2
        exact ⟨[], ha.symm⟩
      case isFalse => exact jsonParseMembers_dict _ s.data _ [] v0 j0 hv0
    case isFalse => exact absurd h (by simp)
  case h_2 => exact absurd h (by simp)
/-- On a text whose brace-balanced span is the whole text and which parses
as JSON, `detect_jsons_global` starting fresh adds exactly the one JSON
block covering the text and reserves its span. -/
theorem detect_jsons_global_c3 (T : String) (v : PyVal)
    (h1 : find_json_span T 0 200000 = some (0, T.length))
    (h2 : json_loads T = some v) :
    detect_jsons_global T initState =
      ⟨[⟨"JSON", 0, T.length, 98, T⟩], [(0, T.length)]⟩ := by
  have hfs : findSubstrFrom T.data [braceL] 0 = some 0 := by
    have h1b := h1
    rw [find_json_span] at h1b
    cases hf : findSubstrFrom T.data [braceL] 0 with
    | none => rw [hf] at h1b; exact absurd h1b (by simp)
    | some s =>
        rw [hf] at h1b
        obtain ⟨hg1, _, _, _⟩ := findJsonSpanGo_some_spec T.data s
          (min T.data.length (s + 200000)) _ _ _ _ _ _ 0 T.length h1b
        rw [← hg1]
  rw [detect_jsons_global]
  rw [show T.length + 2 = (T.length + 1) + 1 from rfl]
  rw [detect_jsons_global_loop]
  simp only []
  rw [hfs]
  simp only []
  rw [if_neg (by decide)]
  rw [h1]
  simp only []
  rw [if_neg (by simp [is_occupied, initState])]
  rw [pySlice_full T, h2]
  simp only []
  rw [show add_block initState ⟨"JSON", 0, T.length, 98, T⟩ =
    ⟨[⟨"JSON", 0, T.length, 98, T⟩], [(0, T.length)]⟩ from rfl]
  rw [detect_jsons_global_loop]
  simp only []
  rw [findSubstrFrom_past T.data [braceL] T.length
    (by rw [show ([braceL] : List Char).length = 1 from rfl]
        have hl : T.data.length = T.length := rfl
        omega)]

/-- Dropping leading elements stops immediately at a failing head. -/
theorem dropWhile_head_not (p : Char → Bool) :
    ∀ (l : List Char), (∀ c, l.head? = some c → p c = false) → l.dropWhile p = l := by
  intro l h
  cases l with
  | nil => rfl
  | cons c rest =>
      rw [List.dropWhile_cons, h c rfl]
      simp

/-- A string that starts with `{` and ends with `}` strips to itself. -/
theorem pyStrip_id (s : String) (h0 : nthChar s.data 0 = some braceL)
    (hl : nthChar s.data (s.data.length - 1) = some braceR) : pyStrip s = s := by
  rw [pyStrip, pyStripList]
  have h1 : s.data.dropWhile isPyWs = s.data := by
    refine dropWhile_head_not isPyWs s.data ?_
    intro c hc
    rw [nthChar, List.get?_zero] at h0
    rw [h0] at hc
    injection hc with hc2
    rw [← hc2]
    decide
  rw [h1]
  have h2 : s.data.reverse.dropWhile isPyWs = s.data.reverse := by
    refine dropWhile_head_not isPyWs s.data.reverse ?_
    intro c hc
    rw [List.head?_reverse, List.getLast?_eq_getElem?] at hc
    rw [nthChar, List.get?_eq_getElem?] at hl
    rw [hl] at hc
    injection hc with hc2
    rw [← hc2]
    decide
  rw [h2, List.reverse_reverse]

/-- Normalization of the single JSON block of the C3 scenario returns the
parsed value. -/
theorem normalize_json_c3 (T : String) (v : PyVal)
    (hstrip : pyStrip T = T) (h2 : json_loads T = some v) :
    Normalizer_normalize ⟨"JSON", 0, T.length, 98, T⟩ = v := by
  show (match json_loads (pyStrip T) with
    | some v2 => v2
    | none => PyVal.pNone) = v
  rw [hstrip, h2]
/-- C3, amended: for every text `T` that is exactly a brace-balanced JSON
object (no surrounding whitespace: `find_json_span(T, 0)` spans all of
`T`), strictly parses as JSON, and contains neither a `<` character nor a
`---` substring (the triggers of the markup and section detectors —
impossible inside strict JSON syntax but not excluded by "parses as JSON",
since `json.loads` tolerates surrounding whitespace), `parse_file(T)`
returns exactly one fragment: format JSON over `[0, len(T))` with
confidence 0.98 > 0.9 and text `T`, and exactly one record whose data is
the parsed value. -/
theorem c3_amended_roundtrip (T : String) (v : PyVal)
    (h1 : find_json_span T 0 200000 = some (0, T.length))
    (h2 : json_loads T = some v)
    (h3 : ∀ c ∈ T.data, c ≠ '<')
    (h4 : hasSubstr T "---" = false) :
    (parse_file T).fragments = [⟨"JSON", 0, T.length, 98, T⟩] ∧
      (parse_file T).records = [⟨"JSON", 0, T.length, v⟩] ∧ 90 < 98 := by
  have hlt : ∀ k, nthChar T.data k ≠ some '<' := by
    intro k hk
    exact h3 '<' (List.get?_mem hk) rfl
  have hmm : ∀ k, matchesAt T.data ("---".data) k = false := by
    have hnone : findSubstrFrom T.data ("---".data) 0 = none := by
      cases hf : findSubstrFrom T.data ("---".data) 0 with
      | none => rfl
      | some r =>
          rw [hasSubstr, hf] at h4
          exact absurd h4 (by simp)
    intro k
    exact findSubstrFrom_none_spec T.data ("---".data) 0 hnone k (Nat.zero_le k)
  obtain ⟨_, hpos, _, _, hb0, hbr, _⟩ := find_json_span_some_spec T 0 200000 0 T.length h1
  have hglobal := detect_jsons_global_c3 T v h1 h2
  have hall : detect_all_but_raw T =
      ⟨[⟨"JSON", 0, T.length, 98, T⟩], [(0, T.length)]⟩ := by
    rw [detect_all_but_raw, detect_json_ld_id T hlt initState,
      detect_yaml_frontmatter_id T hmm initState,
      detect_sectioned_jsons_id T hmm initState, hglobal,
      detect_html_id T hlt _, detect_js_objects_skip T _,
      detect_csv_blocks_skip T _, detect_key_values_skip T _, detect_sql_skip T _]
  have hraw := detect_raw_text_skip T [⟨"JSON", 0, T.length, 98, T⟩] hpos
  have hrun : run_all T = [⟨"JSON", 0, T.length, 98, T⟩] := by
    rw [run_all, hall, hraw]
    rfl
  have hstrip : pyStrip T = T := pyStrip_id T hb0 hbr
  have hnorm := normalize_json_c3 T v hstrip h2
  obtain ⟨d, hd⟩ := json_loads_brace T hb0 v h2
  refine ⟨?_, ?_, by omega⟩
  · show run_all T = [⟨"JSON", 0, T.length, 98, T⟩]
    exact hrun
  · rw [parse_file]
    simp only []
    rw [hrun]
    simp only [List.foldl_cons, List.foldl_nil]
    rw [hnorm]
    subst hd
    simp
/-- C3, amended, witness: the roundtrip theorem applied to the strict
JSON object text `{"a": 1}`, whose balanced span covers the whole text and
which parses to the mapping `a = 1`. -/
theorem c3_amended_roundtrip_witness :
    (find_json_span "\x7b\"a\": 1\x7d" 0 200000 =
        some (0, ("\x7b\"a\": 1\x7d" : String).length)) ∧
      (json_loads "\x7b\"a\": 1\x7d" = some (PyVal.pDict [("a", PyVal.pInt 1)])) ∧
      (∀ c ∈ ("\x7b\"a\": 1\x7d" : String).data, c ≠ '<') ∧
      (hasSubstr "\x7b\"a\": 1\x7d" "---" = false) ∧
      ((parse_file "\x7b\"a\": 1\x7d").fragments =
          [⟨"JSON", 0, ("\x7b\"a\": 1\x7d" : String).length, 98, "\x7b\"a\": 1\x7d"⟩] ∧
        (parse_file "\x7b\"a\": 1\x7d").records =
          [⟨"JSON", 0, ("\x7b\"a\": 1\x7d" : String).length,
            PyVal.pDict [("a", PyVal.pInt 1)]⟩] ∧
        90 < 98) :=
  ⟨by rfl, by rfl, by decide, by rfl,
    c3_amended_roundtrip "\x7b\"a\": 1\x7d" (PyVal.pDict [("a", PyVal.pInt 1)])
      (by rfl) (by rfl) (by decide) (by rfl)⟩
